import Mathlib

/-!
# Projeto-SO: the turn coordinator and the level progression of `game.c`

A shallow embedding of `src/src/game.c`.  The C functions `play_board` and the
level loop of `main` are translated as pure functions which thread the board,
the input source and a log of the external calls they make.  The external
collaborators (`get_input`, `move_pacman`, `move_ghost`, `load_level_filename`,
`unload_level`) live in `board.c` / `display.c`, which are not part of the file,
and are parameters of the development (`Env`).
-/

namespace ProjetoSO

/-! ## Constants of `game.c` -/

/-- The frame outcome `CONTINUE_PLAY` (`#define CONTINUE_PLAY 0`). -/
def CONTINUE_PLAY : Int := 0

/-- The frame outcome `NEXT_LEVEL` (`#define NEXT_LEVEL 1`). -/
def NEXT_LEVEL : Int := 1

/-- The frame outcome `QUIT_GAME` (`#define QUIT_GAME 2`). -/
def QUIT_GAME : Int := 2

/-- Largest value of a C `int` (32 bits). -/
def INT_MAX : Int := 2147483647

/-- Smallest value of a C `int` (32 bits). -/
def INT_MIN : Int := -2147483648

/-- The null character, the "nothing this frame" sentinel of `get_input`. -/
def NUL : Char := Char.ofNat 0

/-! ## Data model (`board.h`) -/

/-- Modelled from the spec: `board.h` is not among the sources.  A command is a
single directional or quit instruction (`command`) with a run-length count
(`turns`); these are the two fields `play_board` reads and writes. -/
structure command_t where
  command : Char
  turns : Int
deriving DecidableEq, Repr

/-- Modelled from the spec: `board.h` is not among the sources.  A pacman has a
position, an alive flag, accumulated points, a move script (`moves`, with
`n_moves` entries in use) and a cursor into the script (`current_move`). -/
structure pacman_t where
  pos_x : Int
  pos_y : Int
  alive : Int
  points : Int
  moves : List command_t
  current_move : Int
  n_moves : Int
deriving DecidableEq, Repr

/-- Modelled from the spec: `board.h` is not among the sources.  A ghost has a
position, an active flag, a move script and a cursor into the script. -/
structure ghost_t where
  pos_x : Int
  pos_y : Int
  alive : Int
  moves : List command_t
  current_move : Int
  n_moves : Int
deriving DecidableEq, Repr

/-- Modelled from the spec: `board.h` is not among the sources.  The board is the
whole mutable state of a level: the grid of cells, the ordered pacmans and
ghosts with their counts, and the frame delay `tempo`. -/
structure board_t where
  grid : List (List Char)
  n_pacmans : Int
  pacmans : List pacman_t
  n_ghosts : Int
  ghosts : List ghost_t
  tempo : Int
deriving DecidableEq, Repr

deriving instance DecidableEq for Except

/-- Undefined behaviour of the C program, made explicit. -/
inductive Fault where
  | div_by_zero
  | index_out_of_range
  | overflow
deriving DecidableEq, Repr

/-- Array read `xs[i]`: a fault outside the bounds of the array. -/
def index {α : Type} (xs : List α) (i : Int) : Except Fault α :=
  if 0 ≤ i then
    match xs[i.toNat]? with
    | some x => .ok x
    | none => .error .index_out_of_range
  else .error .index_out_of_range

/-- The C remainder `a % b` on `int`: truncated, undefined for `b == 0` and for
`INT_MIN % -1`. -/
def c_mod (a b : Int) : Except Fault Int :=
  if b = 0 then .error .div_by_zero
  else if a = INT_MIN ∧ b = -1 then .error .overflow
  else .ok (Int.tmod a b)

/-! ## External collaborators -/

/-- The functions and constants `game.c` uses but does not define.  `I` is the
state of the interactive input source. -/
structure Env (I : Type) where
  /-- The call `get_input()`: the next key, or `NUL`. -/
  get_input : I → Char × I
  /-- The call `move_pacman(board, index, command)`: the new board and the move outcome. -/
  move_pacman : board_t → Int → command_t → board_t × Int
  /-- The call `move_ghost(board, index, command)`: the new board and the move outcome. -/
  move_ghost : board_t → Int → command_t → board_t × Int
  /-- The call `load_level_filename(board, filename)`: the new board and 0 on success. -/
  load_level_filename : board_t → String → board_t × Int
  /-- The call `unload_level(board)`: the board with the level released. -/
  unload_level : board_t → board_t
  /-- The move outcome `REACHED_PORTAL` of `board.h`. -/
  REACHED_PORTAL : Int
  /-- The move outcome `DEAD_PACMAN` of `board.h`. -/
  DEAD_PACMAN : Int

/-- The external calls made by `play_board`, in order. -/
inductive Call where
  | get_input (key : Char)
  | debug_key (key : Char)
  | move_pacman (idx : Int) (cmd : command_t)
  | move_ghost (idx : Int) (cmd : command_t)
deriving DecidableEq, Repr

/-- What one call of `play_board` leaves behind: the returned outcome, the
board, the input source and the external calls made. -/
structure Frame (I : Type) where
  result : Int
  board : board_t
  input : I
  calls : List Call
deriving DecidableEq

/-! ## `play_board` -/

/-- The command selected for pacman 0 (lines 27-43): `play = none` is the early
`return CONTINUE_PLAY` on a null input. -/
structure Selection (I : Type) where
  play : Option command_t
  input : I
  calls : List Call
deriving DecidableEq

/-- Lines 27-43 of `play_board`: interactive input when the script is empty,
otherwise the script entry at `current_move % n_moves`. -/
def select_command {I : Type} (E : Env I) (inp : I) (game_board : board_t) :
    Except Fault (Selection I) := do
  let pacman ← index game_board.pacmans 0
  if pacman.n_moves = 0 then
    let (key, inp1) := E.get_input inp
    if key = NUL then
      return ⟨none, inp1, [Call.get_input key]⟩
    else
      return ⟨some ⟨key, 1⟩, inp1, [Call.get_input key]⟩
  else
    let k ← c_mod pacman.current_move pacman.n_moves
    let play ← index pacman.moves k
    return ⟨some play, inp, []⟩

/-- The argument `&ghost->moves[ghost->current_move % ghost->n_moves]` of line 62
for ghost `i`. -/
def ghost_command (game_board : board_t) (i : Int) : Except Fault command_t := do
  let ghost ← index game_board.ghosts i
  let k ← c_mod ghost.current_move ghost.n_moves
  index ghost.moves k

/-- The ghost loop of lines 60-63, from index `i` on.  The first argument counts
the values the `int` counter can still take: when it is exhausted `i++` has
overflowed. -/
def ghost_loop {I : Type} (E : Env I) : Nat → Int → board_t → Except Fault (board_t × List Call)
  | 0, _, _ => .error .overflow
  | room + 1, i, game_board =>
    if i < game_board.n_ghosts then do
      let cmd ← ghost_command game_board i
      let (b1, calls) ← ghost_loop E room (i + 1) (E.move_ghost game_board i cmd).1
      return (b1, Call.move_ghost i cmd :: calls)
    else
      return (game_board, [])

/-- The whole ghost loop `for (int i = 0; i < n_ghosts; i++)` of lines 60-63: a
non-negative `int` counter takes at most 2^31 values. -/
def move_ghosts {I : Type} (E : Env I) (game_board : board_t) :
    Except Fault (board_t × List Call) :=
  ghost_loop E 2147483648 0 game_board

/-- Lines 45-69 of `play_board`, once the command `play` is selected. -/
def resolve_frame {I : Type} (E : Env I) (inp : I) (game_board : board_t) (play : command_t)
    (calls : List Call) : Except Fault (Frame I) :=
  if play.command = 'Q' then
    .ok ⟨QUIT_GAME, game_board, inp, calls ++ [Call.debug_key play.command]⟩
  else
    let moved := E.move_pacman game_board 0 play
    let calls1 := calls ++ [Call.debug_key play.command, Call.move_pacman 0 play]
    if moved.2 = E.REACHED_PORTAL then
      .ok ⟨NEXT_LEVEL, moved.1, inp, calls1⟩
    else if moved.2 = E.DEAD_PACMAN then
      .ok ⟨QUIT_GAME, moved.1, inp, calls1⟩
    else do
      let (b2, gcalls) ← move_ghosts E moved.1
      let pacman0 ← index b2.pacmans 0
      if pacman0.alive = 0 then
        return ⟨QUIT_GAME, b2, inp, calls1 ++ gcalls⟩
      else
        return ⟨CONTINUE_PLAY, b2, inp, calls1 ++ gcalls⟩

/-- The function `play_board` (lines 26-70): one frame. -/
def play_board {I : Type} (E : Env I) (inp : I) (game_board : board_t) :
    Except Fault (Frame I) := do
  let sel ← select_command E inp game_board
  match sel.play with
  | none => return ⟨CONTINUE_PLAY, game_board, sel.input, sel.calls⟩
  | some play => resolve_frame E sel.input game_board play sel.calls

/-! ## The level progression of `main` -/

/-- Modelled from the spec: `display.h` is not among the sources.  The modes of
"draw current board in mode M" that `main` uses. -/
inductive DrawMode where
  | DRAW_MENU
  | DRAW_GAME_OVER
  | DRAW_WIN
deriving DecidableEq, Repr

/-- The external calls made by the level progression of `main`, in order.  A
call of `play_board` is logged with the loop counter `i`, the board before and
after it, the calls it made and its result; a load is logged with the board the
loader produced and its return value. -/
inductive Event where
  | terminal_init
  | load_level_filename (i : Nat) (filename : String) (loaded : board_t) (ret : Int)
  | debug (msg : String)
  | draw_board (board : board_t) (mode : DrawMode)
  | refresh_screen
  | sleep_ms (ms : Int)
  | play_board (i : Nat) (before : board_t) (calls : List Call) (after : board_t) (result : Int)
  | unload_level (i : Nat) (board : board_t)
  | terminal_cleanup
  | close_debug_file
deriving DecidableEq, Repr

/-- The function `screen_refresh` (lines 18-24). -/
def screen_refresh (game_board : board_t) (mode : DrawMode) : List Event :=
  [Event.debug "REFRESH\n", Event.draw_board game_board mode, Event.refresh_screen]
    ++ (if game_board.tempo ≠ 0 then [Event.sleep_ms game_board.tempo] else [])

/-- The local variables of `main` that survive a frame. -/
structure MainState (I : Type) where
  game_board : board_t
  accumulated_points : Int
  input : I

/-- Lines 162-164: `if (n_pacmans > 0) pacmans[0].points = accumulated_points`. -/
def restore_points (game_board : board_t) (accumulated_points : Int) : Except Fault board_t :=
  if game_board.n_pacmans > 0 then
    match game_board.pacmans with
    | [] => .error .index_out_of_range
    | p :: ps => .ok { game_board with pacmans := { p with points := accumulated_points } :: ps }
  else .ok game_board

/-- Lines 177-179: `if (n_pacmans > 0) accumulated_points = pacmans[0].points`. -/
def update_points (game_board : board_t) (accumulated_points : Int) : Except Fault Int :=
  if game_board.n_pacmans > 0 then
    match index game_board.pacmans 0 with
    | .ok p => .ok p.points
    | .error f => .error f
  else .ok accumulated_points

/-- How the frame loop of a level (lines 173-186) ends. -/
inductive FrameExit (I : Type) where
  | done (level_result : Int) (fuel : Nat) (s : MainState I)
  | fault (f : Fault)
  | out_of_fuel

/-- The frame loop `while(true)` of lines 173-186 for level `i`.  The loop need
not terminate: `fuel` bounds the number of frames played, and the events logged
so far are returned also when it runs out. -/
def frame_loop {I : Type} (E : Env I) (i : Nat) : Nat → MainState I → List Event × FrameExit I
  | 0, _ => ([], .out_of_fuel)
  | fuel + 1, s =>
    match play_board E s.input s.game_board with
    | .error f => ([], .fault f)
    | .ok fr =>
      let ev := Event.play_board i s.game_board fr.calls fr.board fr.result
      match update_points fr.board s.accumulated_points with
      | .error f => ([ev], .fault f)
      | .ok acc =>
        if fr.result = NEXT_LEVEL ∨ fr.result = QUIT_GAME then
          ([ev], .done fr.result fuel ⟨fr.board, acc, fr.input⟩)
        else
          let rest := frame_loop E i fuel ⟨fr.board, acc, fr.input⟩
          (ev :: (screen_refresh fr.board .DRAW_MENU ++ rest.1), rest.2)

/-- How one iteration of the level loop (lines 153-206) ends. -/
inductive Control (I : Type) where
  | brk
  | cont (fuel : Nat) (s : MainState I)
  | fault (f : Fault)
  | out_of_fuel

/-- The body of the level loop (lines 155-205) for level `i`, file `name`. -/
def level_body {I : Type} (E : Env I) (n_niveis i : Nat) (name : String) (fuel : Nat)
    (s : MainState I) : List Event × Control I :=
  let loaded := E.load_level_filename s.game_board name
  let ev_load := Event.load_level_filename i name loaded.1 loaded.2
  if loaded.2 ≠ 0 then
    ([ev_load, Event.debug ("Erro ao carregar o nível: " ++ name ++ "\n")], .brk)
  else
    match restore_points loaded.1 s.accumulated_points with
    | .error f => ([ev_load], .fault f)
    | .ok b =>
      let pre := [ev_load, Event.draw_board b .DRAW_MENU, Event.refresh_screen]
      match frame_loop E i fuel ⟨b, s.accumulated_points, s.input⟩ with
      | (evs, .fault f) => (pre ++ evs, .fault f)
      | (evs, .out_of_fuel) => (pre ++ evs, .out_of_fuel)
      | (evs, .done level_result fuel1 s1) =>
        if level_result = QUIT_GAME then
          (pre ++ evs ++ screen_refresh s1.game_board .DRAW_GAME_OVER
              ++ [Event.sleep_ms 2000, Event.unload_level i s1.game_board], .brk)
        else if level_result = NEXT_LEVEL then
          if (i : Int) = (n_niveis : Int) - 1 then
            (pre ++ evs ++ screen_refresh s1.game_board .DRAW_WIN
                ++ [Event.sleep_ms 2000, Event.unload_level i s1.game_board], .brk)
          else
            (pre ++ evs ++ [Event.unload_level i s1.game_board],
              .cont fuel1 { s1 with game_board := E.unload_level s1.game_board })
        else
          (pre ++ evs, .cont fuel1 s1)

/-- How the level loop ends. -/
inductive LoopEnd where
  | finished
  | fault (f : Fault)
  | out_of_fuel
deriving DecidableEq, Repr

/-- The level loop `for (i = 0; i < n_niveis; i++)` of lines 153-206, from
counter `i` on; the first list holds `lista_niveis[i], lista_niveis[i+1], ...`. -/
def level_loop {I : Type} (E : Env I) (n_niveis : Nat) :
    List String → Nat → Nat → MainState I → List Event × LoopEnd
  | [], _, _, _ => ([], .finished)
  | name :: rest, i, fuel, s =>
    match level_body E n_niveis i name fuel s with
    | (evs, .brk) => (evs, .finished)
    | (evs, .fault f) => (evs, .fault f)
    | (evs, .out_of_fuel) => (evs, .out_of_fuel)
    | (evs, .cont fuel1 s1) =>
      let r := level_loop E n_niveis rest (i + 1) fuel1 s1
      (evs ++ r.1, r.2)

/-- How a run of `main` stands when it is observed. -/
inductive Status where
  | exited (code : Int)
  | fault (f : Fault)
  | out_of_fuel
deriving DecidableEq, Repr

/-- A run of `main`: its status and the external calls made so far. -/
structure Run where
  status : Status
  trace : List Event
deriving DecidableEq, Repr

/-- The board after `memset(&game_board, 0, sizeof(board_t))` (line 150). -/
def zero_board : board_t := ⟨[], 0, [], 0, [], 0⟩

/-- Lines 145-211 of `main`: the level progression over the sorted level list
`lista_niveis` (with `n_niveis` its length), from `terminal_init()` to
`return 0`. -/
def main_progression {I : Type} (E : Env I) (lista_niveis : List String) (fuel : Nat)
    (inp : I) : Run :=
  match level_loop E lista_niveis.length lista_niveis 0 fuel ⟨zero_board, 0, inp⟩ with
  | (evs, .finished) =>
    ⟨.exited 0, Event.terminal_init :: (evs ++ [Event.terminal_cleanup, Event.close_debug_file])⟩
  | (evs, .fault f) => ⟨.fault f, Event.terminal_init :: evs⟩
  | (evs, .out_of_fuel) => ⟨.out_of_fuel, Event.terminal_init :: evs⟩

/-! ## Reading a run

The vocabulary in which the claims about `main` are stated. -/

/-- A `play_board` call of a run: the level it was made on, the board before
and after it, and its result. -/
structure FrameRec where
  level : Nat
  before : board_t
  after : board_t
  result : Int
deriving DecidableEq, Repr

/-- The `play_board` call logged by an event, if it is one. -/
def frame_of : Event → Option FrameRec
  | .play_board i before _ after result => some ⟨i, before, after, result⟩
  | _ => none

/-- The `play_board` calls of a trace, in order. -/
def frames (tr : List Event) : List FrameRec := tr.filterMap frame_of

/-- The load logged by an event, if it is one: the loop counter and the file. -/
def load_of : Event → Option (Nat × String)
  | .load_level_filename i name _ _ => some (i, name)
  | _ => none

/-- The loads of a trace, in order. -/
def loads (tr : List Event) : List (Nat × String) := tr.filterMap load_of

/-- The board produced by a successful load, if the event is one. -/
def loaded_board_of : Event → Option board_t
  | .load_level_filename _ _ b ret => if ret = 0 then some b else none
  | _ => none

/-- The boards the loader produced in a trace, in order. -/
def loaded_boards (tr : List Event) : List board_t := tr.filterMap loaded_board_of

/-- The points of pacman 0 of a board. -/
def points0 (b : board_t) : Option Int := b.pacmans.head?.map (fun p => p.points)

/-- Level `j` was loaded (the loader was called on it) in the trace. -/
def LoadTried (tr : List Event) (j : Nat) : Prop :=
  ∃ name b ret, Event.load_level_filename j name b ret ∈ tr

/-- Level `j` was loaded successfully (the loader returned 0) in the trace. -/
def LoadedOk (tr : List Event) (j : Nat) : Prop :=
  ∃ name b, Event.load_level_filename j name b 0 ∈ tr

/-- The loader reported a failure for level `j` in the trace. -/
def LoadFailed (tr : List Event) (j : Nat) : Prop :=
  ∃ name b ret, ret ≠ 0 ∧ Event.load_level_filename j name b ret ∈ tr

/-- A frame of level `j` returned `r` in the trace. -/
def Ended (tr : List Event) (j : Nat) (r : Int) : Prop :=
  ∃ b c b1, Event.play_board j b c b1 r ∈ tr

/-- The board was drawn in mode `mode` in the trace. -/
def Drawn (tr : List Event) (mode : DrawMode) : Prop :=
  ∃ b, Event.draw_board b mode ∈ tr

/-- Level `j` was unloaded in the trace. -/
def Unloaded (tr : List Event) (j : Nat) : Prop :=
  ∃ b, Event.unload_level j b ∈ tr

/-- What the events `evs` of level `i` say about the level: whether it loaded,
whether the loader failed, whether a frame returned `QUIT_GAME` or `NEXT_LEVEL`,
whether the game-over or the victory screen was drawn, whether it was unloaded. -/
def LevelFacts (evs : List Event) (i : Nat) (ok failed quit next over win unl : Prop) : Prop :=
  (LoadedOk evs i ↔ ok) ∧ (LoadFailed evs i ↔ failed)
    ∧ (Ended evs i QUIT_GAME ↔ quit) ∧ (Ended evs i NEXT_LEVEL ↔ next)
    ∧ (Drawn evs .DRAW_GAME_OVER ↔ over) ∧ (Drawn evs .DRAW_WIN ↔ win)
    ∧ (Unloaded evs i ↔ unl)

/-- Pacman 0 has the same points after the frame `f1` and before the frame `f2`. -/
def PointsCarried (f1 f2 : FrameRec) : Prop :=
  ∃ pts, points0 f1.after = some pts ∧ points0 f2.before = some pts

/-- The run did not meet undefined behaviour. -/
def Run.no_fault (r : Run) : Prop := ∀ f, r.status ≠ .fault f

/-! ## Well-formed boards -/

/-- A script in the state the loader leaves it: `n_moves` entries are stored and
the cursor has not gone negative. -/
def script_ok (n_moves current_move : Int) (moves : List command_t) : Prop :=
  0 ≤ current_move ∧ n_moves ≤ moves.length

/-- A board on which `play_board` is meant to run: there is a pacman 0, with
`n_moves ≥ 0` and a script in order; the `n_ghosts` ghosts exist (and their
count is an `int`), each with `n_moves > 0` and a script in order. -/
def board_ok (b : board_t) : Prop :=
  (∃ p, index b.pacmans 0 = .ok p ∧ 0 ≤ p.n_moves ∧ script_ok p.n_moves p.current_move p.moves)
    ∧ b.n_ghosts ≤ b.ghosts.length ∧ b.n_ghosts ≤ INT_MAX
    ∧ ∀ (i : Int) (g : ghost_t), 0 ≤ i → i < b.n_ghosts → index b.ghosts i = .ok g →
        0 < g.n_moves ∧ script_ok g.n_moves g.current_move g.moves

/-! ## Scripted levels -/

/-- Pacman 0 exists and has a non-empty move script: the level is replayed from
the script, not played interactively. -/
def scripted (b : board_t) : Prop :=
  ∃ p, index b.pacmans 0 = .ok p ∧ p.n_moves ≠ 0

/-- Two environments with the same movement rules; their input sources may be
anything. -/
def same_moves {I1 I2 : Type} (E1 : Env I1) (E2 : Env I2) : Prop :=
  E1.move_pacman = E2.move_pacman ∧ E1.move_ghost = E2.move_ghost
    ∧ E1.REACHED_PORTAL = E2.REACHED_PORTAL ∧ E1.DEAD_PACMAN = E2.DEAD_PACMAN

/-- A frame without the state of the input source: the outcome, the board and
the calls made. -/
def Frame.outcome {I : Type} (fr : Frame I) : Int × board_t × List Call :=
  (fr.result, fr.board, fr.calls)

/-- The exit of the frame loop without the state of the input source. -/
def FrameExit.forget {I : Type} : FrameExit I → FrameExit Unit
  | .done level_result fuel s => .done level_result fuel ⟨s.game_board, s.accumulated_points, ()⟩
  | .fault f => .fault f
  | .out_of_fuel => .out_of_fuel

/-! ## The place of an unload in a run -/

/-- How two events of a run may follow each other (`e1` somewhere before `e2`),
as far as unloading goes: after the unload of level `j` comes no frame of level
`j`, no second unload of it, and only loads of later levels; before it comes no
load of a later level and none of the calls that end `main`. -/
def unload_order (e1 e2 : Event) : Prop :=
  (∀ j b, e1 = Event.unload_level j b →
      (∀ b0 c b1 r, e2 ≠ Event.play_board j b0 c b1 r)
        ∧ (∀ b1, e2 ≠ Event.unload_level j b1)
        ∧ (∀ j1 nm b1 ret, e2 = Event.load_level_filename j1 nm b1 ret → j < j1))
    ∧ (∀ j b, e2 = Event.unload_level j b →
      (∀ j1 nm b1 ret, e1 = Event.load_level_filename j1 nm b1 ret → j1 ≤ j)
        ∧ e1 ≠ Event.terminal_cleanup ∧ e1 ≠ Event.close_debug_file)

/-- The events of level `i` other than its unload: its load, its frames and
display or diagnostic calls. -/
def level_event (i : Nat) (e : Event) : Prop :=
  (∃ nm b ret, e = Event.load_level_filename i nm b ret)
    ∨ (∃ b0 c b1 r, e = Event.play_board i b0 c b1 r)
    ∨ (∃ msg, e = Event.debug msg) ∨ (∃ b m, e = Event.draw_board b m)
    ∨ e = Event.refresh_screen ∨ ∃ ms, e = Event.sleep_ms ms

/-! ## Level files: `has_extension`, `compare_levels`, `encontrar_niveis`

A C string is modelled by the list of its characters before the terminating
null; a `Char` stands for one `char`, compared by its code as `unsigned char`. -/

/-- The libc function `strcmp`: the difference of the first two characters that
differ, the end of a string counting as the null character; the comparison
stops at a null character. -/
def strcmp : List Char → List Char → Int
  | [], [] => 0
  | [], b :: _ => 0 - (b.toNat : Int)
  | a :: _, [] => (a.toNat : Int) - 0
  | a :: as, b :: bs =>
    if a ≠ b then (a.toNat : Int) - (b.toNat : Int)
    else if a = NUL then 0
    else strcmp as bs

/-- The libc function `strrchr` for a character `c` other than null: the
position of the last occurrence of `c` in the string, if there is one. -/
def strrchr : List Char → Char → Option Nat
  | [], _ => none
  | a :: as, c =>
    match strrchr as c with
    | some k => some (k + 1)
    | none => if a = c then some 0 else none

/-- The function `has_extension` (lines 73-77). -/
def has_extension (filename ext : List Char) : Int :=
  match strrchr filename '.' with
  | none => 0
  | some dot =>
    if dot = 0 then 0
    else if strcmp (filename.drop dot) ext = 0 then 1 else 0

/-- The function `compare_levels` (lines 80-82). -/
def compare_levels (a b : List Char) : Int := strcmp a b

/-- The libc function `qsort` with comparison `cmp`, on a list: the elements in
ascending order of `cmp`. -/
def qsort {α : Type} (cmp : α → α → Int) (l : List α) : List α :=
  l.insertionSort (fun a b => cmp a b ≤ 0)

/-- The `readdir` loop of `encontrar_niveis` (lines 95-106) over the entries
still to come; `count` entries are stored in `lista` so far. -/
def encontrar_niveis_loop (MAX_LEVELS MAX_FILENAME : Nat) :
    List (List Char) → Nat → List (List Char) → Nat × List (List Char)
  | [], count, lista => (count, lista)
  | d_name :: more, count, lista =>
    if strcmp d_name ['.'] = 0 ∨ strcmp d_name ['.', '.'] = 0 then
      encontrar_niveis_loop MAX_LEVELS MAX_FILENAME more count lista
    else if has_extension d_name ['.', 'l', 'v', 'l'] ≠ 0 ∧ count < MAX_LEVELS then
      encontrar_niveis_loop MAX_LEVELS MAX_FILENAME more (count + 1)
        (lista ++ [d_name.take (MAX_FILENAME - 1)])
    else
      encontrar_niveis_loop MAX_LEVELS MAX_FILENAME more count lista

/-- The function `encontrar_niveis` (lines 85-110).  `MAX_LEVELS` and
`MAX_FILENAME` are constants of `board.h`; the directory is the sequence of the
names `readdir` returns, or `none` when `opendir` fails.  The result is the
count returned and the entries `lista[0 .. count-1]`. -/
def encontrar_niveis (MAX_LEVELS MAX_FILENAME : Nat) (dir : Option (List (List Char))) :
    Nat × List (List Char) :=
  match dir with
  | none => (0, [])
  | some entries => encontrar_niveis_loop MAX_LEVELS MAX_FILENAME entries 0 []

/-- The level list `main` plays (lines 134-143): the entries found, sorted with
`compare_levels`. -/
def sorted_levels (MAX_LEVELS MAX_FILENAME : Nat) (dir : Option (List (List Char))) :
    List (List Char) :=
  qsort compare_levels (encontrar_niveis MAX_LEVELS MAX_FILENAME dir).2

/-- The byte-wise lexicographic order on names: a name comes before another if
it is a proper prefix of it, or if at the first place where they differ its
character has the smaller code. -/
def lex_before (a b : List Char) : Prop :=
  List.Lex (fun x y : Char => x.toNat < y.toNat) a b

/-- The entries `encontrar_niveis` is meant to keep: names other than `.` and
`..` with the extension `.lvl`. -/
def is_level_entry (d_name : List Char) : Bool :=
  decide (d_name ≠ ['.'] ∧ d_name ≠ ['.', '.']
    ∧ has_extension d_name ['.', 'l', 'v', 'l'] = 1)

/-- The board at the head of iteration `i + n` of the ghost loop of lines 60-63
started at ghost `i`: the loop test passed for the `n` ghosts from `i` on and
each of them has moved.  It is `none` when the loop ended before. -/
def ghost_loop_head {I : Type} (E : Env I) : Nat → Int → board_t → Except Fault (Option board_t)
  | 0, _, game_board => .ok (some game_board)
  | n + 1, i, game_board =>
    if i < game_board.n_ghosts then do
      let cmd ← ghost_command game_board i
      ghost_loop_head E n (i + 1) (E.move_ghost game_board i cmd).1
    else
      .ok none

/-! ## A small concrete game

A concrete environment and a few boards on which the functions above can be
evaluated.  The keys are those of the game: `W`, `A`, `S`, `D` move, `Q` quits.
In this environment a move onto column 9 reaches the portal, a pacman command
`X` runs into a ghost, and a ghost command `K` catches pacman. -/

/-- Replace pacman 0 of a board. -/
def set_pacman0 (b : board_t) (f : pacman_t → pacman_t) : board_t :=
  match b.pacmans with
  | [] => b
  | p :: ps => { b with pacmans := f p :: ps }

/-- A concrete `move_pacman`: `D` steps right (column 9 is the portal), `X` is a
collision with a ghost, every other command leaves pacman in place. -/
def demo_move_pacman (b : board_t) (_idx : Int) (cmd : command_t) : board_t × Int :=
  if cmd.command = 'X' then
    (set_pacman0 b (fun p => { p with alive := 0 }), -2)
  else if cmd.command = 'D' then
    let b1 := set_pacman0 b (fun p =>
      { p with pos_x := p.pos_x + 1, points := p.points + 1, current_move := p.current_move + 1 })
    match b1.pacmans with
    | [] => (b1, 0)
    | p :: _ => if p.pos_x = 9 then (b1, 1) else (b1, 0)
  else
    (set_pacman0 b (fun p => { p with current_move := p.current_move + 1 }), 0)

/-- A concrete `move_ghost`: `K` catches pacman 0, every other command only
advances the cursor of the ghost. -/
def demo_move_ghost (b : board_t) (idx : Int) (cmd : command_t) : board_t × Int :=
  let ghosts := b.ghosts.enum.map (fun (ig : Nat × ghost_t) =>
    if (ig.1 : Int) = idx then { ig.2 with current_move := ig.2.current_move + 1 } else ig.2)
  if cmd.command = 'K' then
    (set_pacman0 { b with ghosts := ghosts } (fun p => { p with alive := 0 }), -2)
  else
    ({ b with ghosts := ghosts }, 0)

/-- A scripted pacman at column `x` with the given script. -/
def demo_pacman (x : Int) (script : List command_t) : pacman_t :=
  ⟨x, 1, 1, 0, script, 0, script.length⟩

/-- A ghost with the given script. -/
def demo_ghost (script : List command_t) : ghost_t :=
  ⟨5, 5, 1, script, 0, script.length⟩

/-- A board with one pacman and the given ghosts. -/
def demo_board (p : pacman_t) (ghosts : List ghost_t) : board_t :=
  ⟨[], 1, [p], ghosts.length, ghosts, 0⟩

/-- A concrete loader: the file `a.lvl` is a level whose pacman walks right from
column 8 onto the portal, `b.lvl` a level whose pacman is caught by its ghost in
the first frame, `c.lvl` an interactive level; any other file fails to load.
The loader puts 50 points in the pacman it creates. -/
def demo_load (_b : board_t) (name : String) : board_t × Int :=
  if name = "a.lvl" then
    (demo_board { demo_pacman 8 [⟨'D', 1⟩] with points := 50 } [demo_ghost [⟨'A', 1⟩]], 0)
  else if name = "b.lvl" then
    (demo_board { demo_pacman 1 [⟨'W', 1⟩] with points := 50 } [demo_ghost [⟨'K', 1⟩]], 0)
  else if name = "c.lvl" then
    (demo_board { demo_pacman 1 [] with points := 50 } [demo_ghost [⟨'A', 1⟩]], 0)
  else
    (zero_board, 1)

/-- A concrete environment: the input source is the list of keys still to come. -/
def demo_env : Env (List Char) where
  get_input := fun keys =>
    match keys with
    | [] => (NUL, [])
    | k :: ks => (k, ks)
  move_pacman := demo_move_pacman
  move_ghost := demo_move_ghost
  load_level_filename := demo_load
  unload_level := fun _ => zero_board
  REACHED_PORTAL := 1
  DEAD_PACMAN := -2

/-- The same game with another input source: a counter of the keys asked for,
which always answers `Q`. -/
def demo_env_quit : Env Nat :=
  { demo_env with get_input := fun n => ('Q', n + 1) }


/-! ## Auxiliary facts about one frame -/

theorem select_command_calls {I : Type} (E : Env I) (inp : I) (b : board_t) (sel : Selection I)
    (hsel : select_command E inp b = .ok sel) :
    sel.calls = [] ∨ ∃ key, sel.calls = [Call.get_input key] := by
  unfold select_command at hsel
  cases hp : index b.pacmans 0 with
  | error f => simp [hp, bind, Except.bind] at hsel
  | ok pacman =>
    simp only [hp, bind, Except.bind] at hsel
    by_cases hn : pacman.n_moves = 0
    · simp only [hn, if_true] at hsel
      by_cases hk : (E.get_input inp).1 = NUL
      · simp [hk, pure, Except.pure] at hsel
        subst hsel; right; exact ⟨_, rfl⟩
      · simp [hk, pure, Except.pure] at hsel
        subst hsel; right; exact ⟨_, rfl⟩
    · simp only [hn, if_false] at hsel
      cases hc : c_mod pacman.current_move pacman.n_moves with
      | error f => simp [hc] at hsel
      | ok k =>
        simp only [hc] at hsel
        cases hi : index pacman.moves k with
        | error f => simp [hi] at hsel
        | ok play =>
          simp [hi, pure, Except.pure] at hsel
          subst hsel; left; rfl

theorem select_command_no_move {I : Type} (E : Env I) (inp : I) (b : board_t)
    (sel : Selection I) (hsel : select_command E inp b = .ok sel) :
    (∀ i c, Call.move_pacman i c ∉ sel.calls) ∧ (∀ i c, Call.move_ghost i c ∉ sel.calls) := by
  rcases select_command_calls E inp b sel hsel with h | ⟨key, h⟩ <;> simp [h]

theorem play_board_of_selection {I : Type} (E : Env I) (inp : I) (b : board_t)
    (sel : Selection I) (play : command_t)
    (hsel : select_command E inp b = .ok sel) (hplay : sel.play = some play) :
    play_board E inp b = resolve_frame E sel.input b play sel.calls := by
  simp [play_board, hsel, bind, Except.bind, hplay]

/-- The ghost loop does not look at the value `move_ghost` returns. -/
theorem ghost_loop_result_irrelevant {I : Type} (E : Env I) (g : board_t → Int → command_t → Int)
    (room : Nat) (i : Int) (b : board_t) :
    ghost_loop { E with move_ghost := fun b i c => ((E.move_ghost b i c).1, g b i c) } room i b
      = ghost_loop E room i b := by
  induction room generalizing i b with
  | zero => rfl
  | succ room ih =>
    simp only [ghost_loop]
    split
    · cases hc : ghost_command b i with
      | error f => rfl
      | ok cmd => simp only [bind, Except.bind, ih]
    · rfl

/-- The shape of the ghost loop when the moves keep the number of ghosts. -/
theorem ghost_loop_calls {I : Type} (E : Env I)
    (hn : ∀ b i c, (E.move_ghost b i c).1.n_ghosts = b.n_ghosts)
    (room : Nat) (i : Int) (b b2 : board_t) (gcalls : List Call)
    (h : ghost_loop E room i b = .ok (b2, gcalls)) :
    ∃ B : Nat → board_t, B 0 = b ∧ gcalls.length = (b.n_ghosts - i).toNat ∧
      b2 = B gcalls.length ∧
      ∀ k, k < gcalls.length → ∃ cmd, ghost_command (B k) (i + k) = .ok cmd ∧
        gcalls[k]? = some (Call.move_ghost (i + k) cmd) ∧
        B (k + 1) = (E.move_ghost (B k) (i + k) cmd).1 := by
  induction room generalizing i b b2 gcalls with
  | zero => simp [ghost_loop] at h
  | succ room ih =>
    simp only [ghost_loop] at h
    by_cases hi : i < b.n_ghosts
    · simp only [hi, if_true] at h
      cases hc : ghost_command b i with
      | error f => simp [hc, bind, Except.bind] at h
      | ok cmd =>
        simp only [hc, bind, Except.bind] at h
        cases hr : ghost_loop E room (i + 1) (E.move_ghost b i cmd).1 with
        | error f => simp [hr] at h
        | ok r =>
          obtain ⟨b1, calls⟩ := r
          simp only [hr, pure, Except.pure, Except.ok.injEq, Prod.mk.injEq] at h
          obtain ⟨hb, hcalls⟩ := h
          obtain ⟨B, hB0, hlen, hB2, hstep⟩ := ih (i + 1) _ b1 calls hr
          refine ⟨fun k => match k with | 0 => b | k + 1 => B k, rfl, ?_, ?_, ?_⟩
          · subst hcalls
            rw [List.length_cons, hlen, hn]
            omega
          · subst hcalls hb
            simpa using hB2
          · intro k hk
            subst hcalls
            cases k with
            | zero =>
              refine ⟨cmd, by simpa using hc, by simp, ?_⟩
              simp [hB0]
            | succ k =>
              have hk1 : k < calls.length := by simpa using hk
              obtain ⟨c, h1, h2, h3⟩ := hstep k hk1
              have hik : i + ((k + 1 : Nat) : Int) = i + 1 + (k : Int) := by push_cast; ring
              rw [hik]
              exact ⟨c, h1, by simpa using h2, by simpa using h3⟩
    · simp only [hi, if_false, pure, Except.pure, Except.ok.injEq, Prod.mk.injEq] at h
      obtain ⟨hb, hcalls⟩ := h
      subst hb hcalls
      refine ⟨fun _ => b, rfl, ?_, rfl, ?_⟩
      · simp; omega
      · intro k hk; simp at hk


/-! ## The claims about one frame -/

/-- C1. For every board and every frame whose selected pacman command is not the
quit command, if `move_pacman` returns `REACHED_PORTAL` then `play_board` returns
`NEXT_LEVEL`, the board after the frame is exactly the board `move_pacman`
produced, and no `move_ghost` call is made in the frame. -/
theorem play_board_reached_portal {I : Type} (E : Env I) (inp : I) (b : board_t)
    (sel : Selection I) (play : command_t)
    (hsel : select_command E inp b = .ok sel) (hplay : sel.play = some play)
    (hq : play.command ≠ 'Q')
    (hr : (E.move_pacman b 0 play).2 = E.REACHED_PORTAL) :
    play_board E inp b
        = .ok ⟨NEXT_LEVEL, (E.move_pacman b 0 play).1, sel.input,
            sel.calls ++ [Call.debug_key play.command, Call.move_pacman 0 play]⟩
      ∧ ∀ i c, Call.move_ghost i c ∉
          sel.calls ++ [Call.debug_key play.command, Call.move_pacman 0 play] := by
  refine ⟨?_, ?_⟩
  · rw [play_board_of_selection E inp b sel play hsel hplay]
    simp [resolve_frame, hq, hr]
  · intro i c hmem
    rcases select_command_calls E inp b sel hsel with h | ⟨key, h⟩ <;>
      simp [h] at hmem

/-- Witness of C1: the scripted pacman of `a.lvl` steps right onto the portal. -/
theorem play_board_reached_portal_witness :
    play_board demo_env [] (demo_board (demo_pacman 8 [⟨'D', 1⟩]) [demo_ghost [⟨'A', 1⟩]])
        = .ok ⟨NEXT_LEVEL,
            (demo_env.move_pacman (demo_board (demo_pacman 8 [⟨'D', 1⟩]) [demo_ghost [⟨'A', 1⟩]])
              0 ⟨'D', 1⟩).1, [],
            [] ++ [Call.debug_key 'D', Call.move_pacman 0 ⟨'D', 1⟩]⟩
      ∧ ∀ i c, Call.move_ghost i c ∉
          [] ++ [Call.debug_key 'D', Call.move_pacman 0 ⟨'D', 1⟩] :=
  play_board_reached_portal demo_env []
    (demo_board (demo_pacman 8 [⟨'D', 1⟩]) [demo_ghost [⟨'A', 1⟩]])
    ⟨some ⟨'D', 1⟩, [], []⟩ ⟨'D', 1⟩ (by decide) rfl (by decide) (by decide)

/-- C2. For every frame in which the selected command is not quit and
`move_pacman` returns neither `REACHED_PORTAL` nor `DEAD_PACMAN`, `play_board`
returns `QUIT_GAME` if the alive flag of pacman 0 is false in the board left by
the ghost moves and `CONTINUE_PLAY` otherwise; the values returned by
`move_ghost` play no part in it. -/
theorem play_board_after_ghosts {I : Type} (E : Env I) (inp : I) (b : board_t)
    (sel : Selection I) (play : command_t)
    (hsel : select_command E inp b = .ok sel) (hplay : sel.play = some play)
    (hq : play.command ≠ 'Q')
    (hr1 : (E.move_pacman b 0 play).2 ≠ E.REACHED_PORTAL)
    (hr2 : (E.move_pacman b 0 play).2 ≠ E.DEAD_PACMAN)
    (b2 : board_t) (gcalls : List Call)
    (hg : move_ghosts E (E.move_pacman b 0 play).1 = .ok (b2, gcalls))
    (pacman0 : pacman_t) (hp : index b2.pacmans 0 = .ok pacman0) :
    play_board E inp b
        = .ok ⟨if pacman0.alive = 0 then QUIT_GAME else CONTINUE_PLAY, b2, sel.input,
            sel.calls ++ [Call.debug_key play.command, Call.move_pacman 0 play] ++ gcalls⟩
      ∧ ∀ g : board_t → Int → command_t → Int,
          play_board { E with move_ghost := fun b i c => ((E.move_ghost b i c).1, g b i c) } inp b
            = play_board E inp b := by
  refine ⟨?_, ?_⟩
  · rw [play_board_of_selection E inp b sel play hsel hplay]
    by_cases ha : pacman0.alive = 0 <;>
      simp [resolve_frame, hq, hr1, hr2, hg, hp, ha, bind, Except.bind, pure, Except.pure]
  · intro g
    have hsel2 : select_command
        { E with move_ghost := fun b i c => ((E.move_ghost b i c).1, g b i c) } inp b
          = .ok sel := hsel
    rw [play_board_of_selection E inp b sel play hsel hplay,
      play_board_of_selection _ inp b sel play hsel2 hplay]
    simp only [resolve_frame, move_ghosts, ghost_loop_result_irrelevant]

/-- Witness of C2: the ghost of `b.lvl` catches pacman, the frame ends the game. -/
theorem play_board_after_ghosts_witness :
    play_board demo_env [] (demo_board (demo_pacman 1 [⟨'W', 1⟩]) [demo_ghost [⟨'K', 1⟩]])
        = .ok ⟨if (0 : Int) = 0 then QUIT_GAME else CONTINUE_PLAY,
            (demo_move_ghost (demo_move_pacman
              (demo_board (demo_pacman 1 [⟨'W', 1⟩]) [demo_ghost [⟨'K', 1⟩]]) 0 ⟨'W', 1⟩).1
              0 ⟨'K', 1⟩).1, [],
            [] ++ [Call.debug_key 'W', Call.move_pacman 0 ⟨'W', 1⟩]
              ++ [Call.move_ghost 0 ⟨'K', 1⟩]⟩
      ∧ ∀ g : board_t → Int → command_t → Int,
          play_board { demo_env with
              move_ghost := fun b i c => ((demo_env.move_ghost b i c).1, g b i c) } []
              (demo_board (demo_pacman 1 [⟨'W', 1⟩]) [demo_ghost [⟨'K', 1⟩]])
            = play_board demo_env []
                (demo_board (demo_pacman 1 [⟨'W', 1⟩]) [demo_ghost [⟨'K', 1⟩]]) :=
  play_board_after_ghosts demo_env []
    (demo_board (demo_pacman 1 [⟨'W', 1⟩]) [demo_ghost [⟨'K', 1⟩]])
    ⟨some ⟨'W', 1⟩, [], []⟩ ⟨'W', 1⟩ (by decide) rfl (by decide) (by decide) (by decide)
    _ [Call.move_ghost 0 ⟨'K', 1⟩] (by decide)
    ⟨1, 1, 0, 0, [⟨'W', 1⟩], 1, 1⟩ (by decide)

/-- C3. For every board and every frame whose selected pacman command is not the
quit command, if `move_pacman` returns `DEAD_PACMAN` (a constant of `board.h`
distinct from `REACHED_PORTAL`) then `play_board` returns `QUIT_GAME` and no
`move_ghost` call is made in the frame. -/
theorem play_board_dead_pacman {I : Type} (E : Env I) (inp : I) (b : board_t)
    (sel : Selection I) (play : command_t)
    (hne : E.DEAD_PACMAN ≠ E.REACHED_PORTAL)
    (hsel : select_command E inp b = .ok sel) (hplay : sel.play = some play)
    (hq : play.command ≠ 'Q')
    (hr : (E.move_pacman b 0 play).2 = E.DEAD_PACMAN) :
    play_board E inp b
        = .ok ⟨QUIT_GAME, (E.move_pacman b 0 play).1, sel.input,
            sel.calls ++ [Call.debug_key play.command, Call.move_pacman 0 play]⟩
      ∧ ∀ i c, Call.move_ghost i c ∉
          sel.calls ++ [Call.debug_key play.command, Call.move_pacman 0 play] := by
  refine ⟨?_, ?_⟩
  · rw [play_board_of_selection E inp b sel play hsel hplay]
    simp [resolve_frame, hq, hr, hne]
  · intro i c hmem
    rcases select_command_calls E inp b sel hsel with h | ⟨key, h⟩ <;>
      simp [h] at hmem

/-- Witness of C3: an interactive pacman is steered into a ghost with the key `X`. -/
theorem play_board_dead_pacman_witness :
    play_board demo_env ['X', 'D'] (demo_board (demo_pacman 1 []) [demo_ghost [⟨'A', 1⟩]])
        = .ok ⟨QUIT_GAME,
            (demo_env.move_pacman (demo_board (demo_pacman 1 []) [demo_ghost [⟨'A', 1⟩]])
              0 ⟨'X', 1⟩).1, ['D'],
            [Call.get_input 'X'] ++ [Call.debug_key 'X', Call.move_pacman 0 ⟨'X', 1⟩]⟩
      ∧ ∀ i c, Call.move_ghost i c ∉
          [Call.get_input 'X'] ++ [Call.debug_key 'X', Call.move_pacman 0 ⟨'X', 1⟩] :=
  play_board_dead_pacman demo_env ['X', 'D']
    (demo_board (demo_pacman 1 []) [demo_ghost [⟨'A', 1⟩]])
    ⟨some ⟨'X', 1⟩, ['D'], [Call.get_input 'X']⟩ ⟨'X', 1⟩
    (by decide) (by decide) rfl (by decide) (by decide)

/-- C4. For every board, if the command selected for pacman 0 in a frame (from
the script or from interactive input) has command character `Q`, `play_board`
returns `QUIT_GAME` with the board unchanged, and calls neither `move_pacman`
nor `move_ghost`. -/
theorem play_board_quit {I : Type} (E : Env I) (inp : I) (b : board_t)
    (sel : Selection I) (play : command_t)
    (hsel : select_command E inp b = .ok sel) (hplay : sel.play = some play)
    (hQ : play.command = 'Q') :
    play_board E inp b = .ok ⟨QUIT_GAME, b, sel.input, sel.calls ++ [Call.debug_key 'Q']⟩
      ∧ (∀ i c, Call.move_pacman i c ∉ sel.calls ++ [Call.debug_key 'Q'])
      ∧ (∀ i c, Call.move_ghost i c ∉ sel.calls ++ [Call.debug_key 'Q']) := by
  refine ⟨?_, ?_, ?_⟩
  · rw [play_board_of_selection E inp b sel play hsel hplay]
    simp [resolve_frame, hQ]
  · intro i c hmem
    rcases select_command_calls E inp b sel hsel with h | ⟨key, h⟩ <;>
      simp [h] at hmem
  · intro i c hmem
    rcases select_command_calls E inp b sel hsel with h | ⟨key, h⟩ <;>
      simp [h] at hmem

/-- Witness of C4: a script whose current entry is the quit command. -/
theorem play_board_quit_witness :
    play_board demo_env ['D']
        (demo_board (demo_pacman 1 [⟨'Q', 3⟩, ⟨'D', 1⟩]) [demo_ghost [⟨'K', 1⟩]])
        = .ok ⟨QUIT_GAME, demo_board (demo_pacman 1 [⟨'Q', 3⟩, ⟨'D', 1⟩]) [demo_ghost [⟨'K', 1⟩]],
            ['D'], [] ++ [Call.debug_key 'Q']⟩
      ∧ (∀ i c, Call.move_pacman i c ∉ [] ++ [Call.debug_key 'Q'])
      ∧ (∀ i c, Call.move_ghost i c ∉ [] ++ [Call.debug_key 'Q']) :=
  play_board_quit demo_env ['D']
    (demo_board (demo_pacman 1 [⟨'Q', 3⟩, ⟨'D', 1⟩]) [demo_ghost [⟨'K', 1⟩]])
    ⟨some ⟨'Q', 3⟩, ['D'], []⟩ ⟨'Q', 3⟩ (by decide) rfl rfl

/-- C5. For every board whose pacman 0 has an empty move script (`n_moves == 0`),
if the input source returns the null sentinel for the frame, `play_board`
returns `CONTINUE_PLAY`, leaves the whole board unchanged, and its only external
call is `get_input`: neither `move_pacman` nor `move_ghost` is invoked. -/
theorem play_board_null_input {I : Type} (E : Env I) (inp : I) (b : board_t)
    (pacman : pacman_t) (hp : index b.pacmans 0 = .ok pacman)
    (hn : pacman.n_moves = 0) (hk : (E.get_input inp).1 = NUL) :
    play_board E inp b = .ok ⟨CONTINUE_PLAY, b, (E.get_input inp).2, [Call.get_input NUL]⟩
      ∧ (∀ i c, Call.move_pacman i c ∉ [Call.get_input NUL])
      ∧ (∀ i c, Call.move_ghost i c ∉ [Call.get_input NUL]) := by
  refine ⟨?_, by simp, by simp⟩
  simp [play_board, select_command, hp, hn, hk, bind, Except.bind, pure, Except.pure]

/-- Witness of C5: the interactive level with no key pressed. -/
theorem play_board_null_input_witness :
    play_board demo_env [] (demo_board (demo_pacman 1 []) [demo_ghost [⟨'K', 1⟩]])
        = .ok ⟨CONTINUE_PLAY, demo_board (demo_pacman 1 []) [demo_ghost [⟨'K', 1⟩]],
            (demo_env.get_input []).2, [Call.get_input NUL]⟩
      ∧ (∀ i c, Call.move_pacman i c ∉ [Call.get_input NUL])
      ∧ (∀ i c, Call.move_ghost i c ∉ [Call.get_input NUL]) :=
  play_board_null_input demo_env [] (demo_board (demo_pacman 1 []) [demo_ghost [⟨'K', 1⟩]])
    (demo_pacman 1 []) (by decide) (by decide) (by decide)

/-- C6. For every frame in which the selected command is not quit and
`move_pacman` returns neither `REACHED_PORTAL` nor `DEAD_PACMAN` (the moves
keeping the number of ghosts), the calls of the frame are those of the command
selection, then the single `move_pacman` call for pacman 0, then exactly one
`move_ghost` call for each ghost index `0, 1, ..., n_ghosts - 1` in ascending
order; the command passed for ghost `k` is the entry of its script at index
`current_move % n_moves`, read in the board left by the moves before it. -/
theorem play_board_ghost_order {I : Type} (E : Env I) (inp : I) (b : board_t)
    (sel : Selection I) (play : command_t)
    (hn : ∀ b i c, (E.move_ghost b i c).1.n_ghosts = b.n_ghosts)
    (hsel : select_command E inp b = .ok sel) (hplay : sel.play = some play)
    (hq : play.command ≠ 'Q')
    (hr1 : (E.move_pacman b 0 play).2 ≠ E.REACHED_PORTAL)
    (hr2 : (E.move_pacman b 0 play).2 ≠ E.DEAD_PACMAN)
    (fr : Frame I) (hfr : play_board E inp b = .ok fr) :
    ∃ (gcalls : List Call) (B : Nat → board_t),
      fr.calls = sel.calls ++ [Call.debug_key play.command, Call.move_pacman 0 play] ++ gcalls
      ∧ (∀ i c, Call.move_pacman i c ∉ sel.calls)
      ∧ (∀ i c, Call.move_ghost i c ∉ sel.calls)
      ∧ gcalls.length = (E.move_pacman b 0 play).1.n_ghosts.toNat
      ∧ B 0 = (E.move_pacman b 0 play).1
      ∧ fr.board = B gcalls.length
      ∧ ∀ k, k < gcalls.length → ∃ (ghost : ghost_t) (idx : Int) (cmd : command_t),
          index (B k).ghosts k = .ok ghost
          ∧ c_mod ghost.current_move ghost.n_moves = .ok idx
          ∧ index ghost.moves idx = .ok cmd
          ∧ gcalls[k]? = some (Call.move_ghost k cmd)
          ∧ B (k + 1) = (E.move_ghost (B k) k cmd).1 := by
  rw [play_board_of_selection E inp b sel play hsel hplay] at hfr
  simp only [resolve_frame, hq, hr1, hr2, if_false] at hfr
  cases hg : move_ghosts E (E.move_pacman b 0 play).1 with
  | error f => simp [hg, bind, Except.bind] at hfr
  | ok r =>
    obtain ⟨b2, gcalls⟩ := r
    simp only [hg, bind, Except.bind] at hfr
    cases hp : index b2.pacmans 0 with
    | error f => simp [hp] at hfr
    | ok pacman0 =>
      simp only [hp] at hfr
      have hcalls : fr.calls
          = sel.calls ++ [Call.debug_key play.command, Call.move_pacman 0 play] ++ gcalls
          ∧ fr.board = b2 := by
        by_cases ha : pacman0.alive = 0
        · simp only [ha, if_true, pure, Except.pure, Except.ok.injEq] at hfr
          subst hfr; exact ⟨rfl, rfl⟩
        · simp only [ha, if_false, pure, Except.pure, Except.ok.injEq] at hfr
          subst hfr; exact ⟨rfl, rfl⟩
      obtain ⟨B, hB0, hlen, hB2, hstep⟩ := ghost_loop_calls E hn _ 0 _ b2 gcalls hg
      refine ⟨gcalls, B, hcalls.1, (select_command_no_move E inp b sel hsel).1,
        (select_command_no_move E inp b sel hsel).2, by simpa using hlen, hB0,
        by rw [hcalls.2]; exact hB2, ?_⟩
      intro k hk
      obtain ⟨cmd, h1, h2, h3⟩ := hstep k hk
      simp only [zero_add] at h1 h2 h3
      simp only [ghost_command] at h1
      cases hgi : index (B k).ghosts k with
      | error f => simp [hgi, bind, Except.bind] at h1
      | ok ghost =>
        simp only [hgi, bind, Except.bind] at h1
        cases hc : c_mod ghost.current_move ghost.n_moves with
        | error f => simp [hc] at h1
        | ok idx =>
          simp only [hc] at h1
          exact ⟨ghost, idx, cmd, rfl, hc, h1, h2, h3⟩

theorem demo_move_ghost_n_ghosts (b : board_t) (i : Int) (c : command_t) :
    (demo_env.move_ghost b i c).1.n_ghosts = b.n_ghosts := by
  simp only [demo_env, demo_move_ghost, set_pacman0]
  split
  · split <;> rfl
  · rfl

/-- Witness of C6: a frame of a level with two ghosts. -/
theorem play_board_ghost_order_witness :
    ∃ (gcalls : List Call) (B : Nat → board_t),
      [Call.debug_key 'W', Call.move_pacman 0 ⟨'W', 1⟩,
          Call.move_ghost 0 ⟨'A', 1⟩, Call.move_ghost 1 ⟨'S', 2⟩]
        = [] ++ [Call.debug_key 'W', Call.move_pacman 0 ⟨'W', 1⟩] ++ gcalls
      ∧ (∀ i c, Call.move_pacman i c ∉ ([] : List Call))
      ∧ (∀ i c, Call.move_ghost i c ∉ ([] : List Call))
      ∧ gcalls.length = (2 : Int).toNat
      ∧ B 0 = (demo_env.move_pacman (demo_board (demo_pacman 1 [⟨'W', 1⟩])
                [demo_ghost [⟨'A', 1⟩], demo_ghost [⟨'S', 2⟩, ⟨'A', 1⟩]]) 0 ⟨'W', 1⟩).1
      ∧ (demo_move_ghost (demo_move_ghost (demo_move_pacman (demo_board (demo_pacman 1 [⟨'W', 1⟩])
                [demo_ghost [⟨'A', 1⟩], demo_ghost [⟨'S', 2⟩, ⟨'A', 1⟩]]) 0 ⟨'W', 1⟩).1
                0 ⟨'A', 1⟩).1 1 ⟨'S', 2⟩).1 = B gcalls.length
      ∧ ∀ k, k < gcalls.length → ∃ (ghost : ghost_t) (idx : Int) (cmd : command_t),
          index (B k).ghosts k = .ok ghost
          ∧ c_mod ghost.current_move ghost.n_moves = .ok idx
          ∧ index ghost.moves idx = .ok cmd
          ∧ gcalls[k]? = some (Call.move_ghost k cmd)
          ∧ B (k + 1) = (demo_env.move_ghost (B k) k cmd).1 :=
  play_board_ghost_order demo_env []
    (demo_board (demo_pacman 1 [⟨'W', 1⟩]) [demo_ghost [⟨'A', 1⟩], demo_ghost [⟨'S', 2⟩, ⟨'A', 1⟩]])
    ⟨some ⟨'W', 1⟩, [], []⟩ ⟨'W', 1⟩ demo_move_ghost_n_ghosts (by decide) rfl (by decide)
    (by decide) (by decide)
    ⟨CONTINUE_PLAY,
      (demo_move_ghost (demo_move_ghost (demo_move_pacman (demo_board (demo_pacman 1 [⟨'W', 1⟩])
                [demo_ghost [⟨'A', 1⟩], demo_ghost [⟨'S', 2⟩, ⟨'A', 1⟩]]) 0 ⟨'W', 1⟩).1
                0 ⟨'A', 1⟩).1 1 ⟨'S', 2⟩).1, [],
      [Call.debug_key 'W', Call.move_pacman 0 ⟨'W', 1⟩,
          Call.move_ghost 0 ⟨'A', 1⟩, Call.move_ghost 1 ⟨'S', 2⟩]⟩
    (by decide)

/-! ## The frame loop of a level -/

/-- One unfolding of the frame loop. -/
theorem frame_loop_succ {I : Type} (E : Env I) (i fuel : Nat) (s : MainState I)
    (evs : List Event) (ex : FrameExit I)
    (h : frame_loop E i (fuel + 1) s = (evs, ex)) :
    (∃ f, play_board E s.input s.game_board = .error f ∧ evs = [] ∧ ex = .fault f)
    ∨ (∃ fr f, play_board E s.input s.game_board = .ok fr
        ∧ update_points fr.board s.accumulated_points = .error f
        ∧ evs = [Event.play_board i s.game_board fr.calls fr.board fr.result]
        ∧ ex = .fault f)
    ∨ (∃ fr acc, play_board E s.input s.game_board = .ok fr
        ∧ update_points fr.board s.accumulated_points = .ok acc
        ∧ (fr.result = NEXT_LEVEL ∨ fr.result = QUIT_GAME)
        ∧ evs = [Event.play_board i s.game_board fr.calls fr.board fr.result]
        ∧ ex = .done fr.result fuel ⟨fr.board, acc, fr.input⟩)
    ∨ (∃ fr acc evs1, play_board E s.input s.game_board = .ok fr
        ∧ update_points fr.board s.accumulated_points = .ok acc
        ∧ ¬ (fr.result = NEXT_LEVEL ∨ fr.result = QUIT_GAME)
        ∧ frame_loop E i fuel ⟨fr.board, acc, fr.input⟩ = (evs1, ex)
        ∧ evs = Event.play_board i s.game_board fr.calls fr.board fr.result
            :: (screen_refresh fr.board .DRAW_MENU ++ evs1)) := by
  simp only [frame_loop] at h
  cases hp : play_board E s.input s.game_board with
  | error f =>
    simp only [hp, Prod.mk.injEq] at h
    exact Or.inl ⟨f, rfl, h.1.symm, h.2.symm⟩
  | ok fr =>
    simp only [hp] at h
    cases hu : update_points fr.board s.accumulated_points with
    | error f =>
      simp only [hu, Prod.mk.injEq] at h
      exact Or.inr (Or.inl ⟨fr, f, rfl, hu, h.1.symm, h.2.symm⟩)
    | ok acc =>
      simp only [hu] at h
      by_cases hr : fr.result = NEXT_LEVEL ∨ fr.result = QUIT_GAME
      · simp only [hr, if_true, Prod.mk.injEq] at h
        exact Or.inr (Or.inr (Or.inl ⟨fr, acc, rfl, hu, hr, h.1.symm, h.2.symm⟩))
      · simp only [hr, if_false, Prod.mk.injEq] at h
        exact Or.inr (Or.inr (Or.inr ⟨fr, acc, _, rfl, hu, hr, Prod.ext rfl h.2, h.1.symm⟩))

/-- The events of `screen_refresh` are display events only. -/
theorem screen_refresh_events (b : board_t) (mode : DrawMode) (e : Event)
    (he : e ∈ screen_refresh b mode) :
    e = Event.debug "REFRESH\n" ∨ e = Event.draw_board b mode ∨ e = Event.refresh_screen
      ∨ e = Event.sleep_ms b.tempo := by
  simp only [screen_refresh] at he
  by_cases ht : b.tempo ≠ 0
  · simp [ht] at he; tauto
  · simp [ht] at he; tauto

theorem frames_screen_refresh (b : board_t) (mode : DrawMode) :
    frames (screen_refresh b mode) = [] := by
  simp only [frames, List.filterMap_eq_nil_iff]
  intro e he
  rcases screen_refresh_events b mode e he with h | h | h | h <;> subst h <;> rfl

theorem loads_screen_refresh (b : board_t) (mode : DrawMode) :
    loads (screen_refresh b mode) = [] := by
  simp only [loads, List.filterMap_eq_nil_iff]
  intro e he
  rcases screen_refresh_events b mode e he with h | h | h | h <;> subst h <;> rfl

/-- Every event of the frame loop of level `i` is a frame of level `i` or a
display event of the play mode. -/
theorem frame_loop_events {I : Type} (E : Env I) (i fuel : Nat) (s : MainState I)
    (evs : List Event) (ex : FrameExit I) (h : frame_loop E i fuel s = (evs, ex))
    (e : Event) (he : e ∈ evs) :
    (∃ b c b1 r, e = Event.play_board i b c b1 r) ∨ e = Event.debug "REFRESH\n"
      ∨ (∃ b, e = Event.draw_board b .DRAW_MENU) ∨ e = Event.refresh_screen
      ∨ ∃ ms, e = Event.sleep_ms ms := by
  induction fuel generalizing s evs ex with
  | zero =>
    simp only [frame_loop, Prod.mk.injEq] at h
    rw [← h.1] at he
    simp at he
  | succ fuel ih =>
    rcases frame_loop_succ E i fuel s evs ex h with
      ⟨f, _, hevs, _⟩ | ⟨fr, f, _, _, hevs, _⟩ | ⟨fr, acc, _, _, _, hevs, _⟩
      | ⟨fr, acc, evs1, _, _, _, hrec, hevs⟩
    · subst hevs; simp at he
    · subst hevs; simp at he; exact Or.inl ⟨_, _, _, _, he⟩
    · subst hevs; simp at he; exact Or.inl ⟨_, _, _, _, he⟩
    · subst hevs
      simp only [List.mem_cons, List.mem_append] at he
      rcases he with he | he | he
      · exact Or.inl ⟨_, _, _, _, he⟩
      · rcases screen_refresh_events _ _ e he with h1 | h1 | h1 | h1
        · exact Or.inr (Or.inl h1)
        · exact Or.inr (Or.inr (Or.inl ⟨_, h1⟩))
        · exact Or.inr (Or.inr (Or.inr (Or.inl h1)))
        · exact Or.inr (Or.inr (Or.inr (Or.inr ⟨_, h1⟩)))
      · exact ih _ evs1 ex hrec he

/-- How the frame loop ends, read off its frames: it is left exactly at the
first frame that returns `NEXT_LEVEL` or `QUIT_GAME`. -/
theorem frame_loop_ended {I : Type} (E : Env I) (i fuel : Nat) (s : MainState I)
    (evs : List Event) (ex : FrameExit I) (h : frame_loop E i fuel s = (evs, ex)) :
    (∀ r fuel1 s1, ex = .done r fuel1 s1 →
        (r = NEXT_LEVEL ∨ r = QUIT_GAME) ∧ Ended evs i r
          ∧ ∀ r1, Ended evs i r1 → (r1 = NEXT_LEVEL ∨ r1 = QUIT_GAME) → r1 = r)
      ∧ (ex = .out_of_fuel → ∀ r1, Ended evs i r1 → ¬ (r1 = NEXT_LEVEL ∨ r1 = QUIT_GAME)) := by
  induction fuel generalizing s evs ex with
  | zero =>
    simp only [frame_loop, Prod.mk.injEq] at h
    obtain ⟨h1, h2⟩ := h
    subst h1 h2
    refine ⟨fun r fuel1 s1 hd => (by cases hd), fun _ r1 hr1 => ?_⟩
    obtain ⟨b, c, b1, hmem⟩ := hr1
    simp at hmem
  | succ fuel ih =>
    rcases frame_loop_succ E i fuel s evs ex h with
      ⟨f, _, hevs, hex⟩ | ⟨fr, f, _, _, hevs, hex⟩ | ⟨fr, acc, _, _, hr, hevs, hex⟩
      | ⟨fr, acc, evs1, _, _, hr, hrec, hevs⟩
    · subst hex
      exact ⟨fun r fuel1 s1 hd => (by cases hd), fun hd => by cases hd⟩
    · subst hex
      exact ⟨fun r fuel1 s1 hd => (by cases hd), fun hd => by cases hd⟩
    · subst hex hevs
      refine ⟨fun r fuel1 s1 hd => ?_, fun hd => by cases hd⟩
      cases hd
      refine ⟨hr, ⟨_, _, _, List.mem_singleton.mpr rfl⟩, fun r1 hr1 _ => ?_⟩
      obtain ⟨b, c, b1, hmem⟩ := hr1
      simp only [List.mem_singleton, Event.play_board.injEq] at hmem
      exact hmem.2.2.2.2
    · obtain ⟨ih1, ih2⟩ := ih _ evs1 ex hrec
      have hsub : ∀ r1, Ended evs i r1 → (r1 = NEXT_LEVEL ∨ r1 = QUIT_GAME) → Ended evs1 i r1 := by
        intro r1 hr1 hq
        obtain ⟨b, c, b1, hmem⟩ := hr1
        subst hevs
        simp only [List.mem_cons, List.mem_append, Event.play_board.injEq] at hmem
        rcases hmem with hmem | hmem | hmem
        · exact absurd (hmem.2.2.2.2 ▸ hq) hr
        · rcases screen_refresh_events _ _ _ hmem with h1 | h1 | h1 | h1 <;> cases h1
        · exact ⟨b, c, b1, hmem⟩
      refine ⟨fun r fuel1 s1 hd => ?_, fun hd r1 hr1 hq => ?_⟩
      · obtain ⟨h1, h2, h3⟩ := ih1 r fuel1 s1 hd
        refine ⟨h1, ?_, fun r1 hr1 hq => h3 r1 (hsub r1 hr1 hq) hq⟩
        obtain ⟨b, c, b1, hmem⟩ := h2
        subst hevs
        exact ⟨b, c, b1, List.mem_cons_of_mem _ (List.mem_append_right _ hmem)⟩
      · exact ih2 hd r1 (hsub r1 hr1 hq) hq

/-! ## One iteration of the level loop -/

/-- The ways through the body of the level loop. -/
theorem level_body_cases {I : Type} (E : Env I) (n i : Nat) (name : String) (fuel : Nat)
    (s : MainState I) (evs : List Event) (ctl : Control I)
    (h : level_body E n i name fuel s = (evs, ctl)) :
    ((E.load_level_filename s.game_board name).2 ≠ 0
      ∧ evs = [Event.load_level_filename i name (E.load_level_filename s.game_board name).1
                (E.load_level_filename s.game_board name).2,
              Event.debug ("Erro ao carregar o nível: " ++ name ++ "\n")]
      ∧ ctl = .brk)
    ∨ ((E.load_level_filename s.game_board name).2 = 0
      ∧ ∃ f, restore_points (E.load_level_filename s.game_board name).1 s.accumulated_points
            = .error f
        ∧ evs = [Event.load_level_filename i name (E.load_level_filename s.game_board name).1 0]
        ∧ ctl = .fault f)
    ∨ ((E.load_level_filename s.game_board name).2 = 0
      ∧ ∃ b fevs ex,
        restore_points (E.load_level_filename s.game_board name).1 s.accumulated_points = .ok b
        ∧ frame_loop E i fuel ⟨b, s.accumulated_points, s.input⟩ = (fevs, ex)
        ∧ ((∃ f, ex = .fault f ∧ ctl = .fault f
              ∧ evs = [Event.load_level_filename i name
                    (E.load_level_filename s.game_board name).1 0,
                  Event.draw_board b .DRAW_MENU, Event.refresh_screen] ++ fevs)
          ∨ (ex = .out_of_fuel ∧ ctl = .out_of_fuel
              ∧ evs = [Event.load_level_filename i name
                    (E.load_level_filename s.game_board name).1 0,
                  Event.draw_board b .DRAW_MENU, Event.refresh_screen] ++ fevs)
          ∨ (∃ fuel1 s1, ex = .done QUIT_GAME fuel1 s1 ∧ ctl = .brk
              ∧ evs = [Event.load_level_filename i name
                    (E.load_level_filename s.game_board name).1 0,
                  Event.draw_board b .DRAW_MENU, Event.refresh_screen] ++ fevs
                  ++ screen_refresh s1.game_board .DRAW_GAME_OVER
                  ++ [Event.sleep_ms 2000, Event.unload_level i s1.game_board])
          ∨ (∃ fuel1 s1, ex = .done NEXT_LEVEL fuel1 s1 ∧ i + 1 = n ∧ ctl = .brk
              ∧ evs = [Event.load_level_filename i name
                    (E.load_level_filename s.game_board name).1 0,
                  Event.draw_board b .DRAW_MENU, Event.refresh_screen] ++ fevs
                  ++ screen_refresh s1.game_board .DRAW_WIN
                  ++ [Event.sleep_ms 2000, Event.unload_level i s1.game_board])
          ∨ (∃ fuel1 s1, ex = .done NEXT_LEVEL fuel1 s1 ∧ i + 1 ≠ n
              ∧ ctl = .cont fuel1 { s1 with game_board := E.unload_level s1.game_board }
              ∧ evs = [Event.load_level_filename i name
                    (E.load_level_filename s.game_board name).1 0,
                  Event.draw_board b .DRAW_MENU, Event.refresh_screen] ++ fevs
                  ++ [Event.unload_level i s1.game_board]))) := by
  simp only [level_body] at h
  by_cases hl : (E.load_level_filename s.game_board name).2 = 0
  · simp only [hl, ne_eq, not_true_eq_false, if_false] at h
    right
    cases hr : restore_points (E.load_level_filename s.game_board name).1 s.accumulated_points with
    | error f =>
      simp only [hr, Prod.mk.injEq] at h
      exact Or.inl ⟨hl, f, rfl, h.1.symm, h.2.symm⟩
    | ok b =>
      simp only [hr] at h
      right
      refine ⟨hl, b, ?_⟩
      cases hf : frame_loop E i fuel ⟨b, s.accumulated_points, s.input⟩ with
      | mk fevs ex =>
        refine ⟨fevs, ex, rfl, rfl, ?_⟩
        simp only [hf] at h
        cases ex with
        | fault f =>
          simp only [Prod.mk.injEq] at h
          exact Or.inl ⟨f, rfl, h.2.symm, h.1.symm⟩
        | out_of_fuel =>
          simp only [Prod.mk.injEq] at h
          exact Or.inr (Or.inl ⟨rfl, h.2.symm, h.1.symm⟩)
        | done r fuel1 s1 =>
          have hend := (frame_loop_ended E i fuel _ fevs _ hf).1 r fuel1 s1 rfl
          simp only at h
          by_cases hq : r = QUIT_GAME
          · subst hq
            simp only [if_true, Prod.mk.injEq] at h
            exact Or.inr (Or.inr (Or.inl ⟨fuel1, s1, rfl, h.2.symm, h.1.symm⟩))
          · have hn : r = NEXT_LEVEL := by
              rcases hend.1 with h1 | h1
              · exact h1
              · exact absurd h1 hq
            subst hn
            simp only [hq, if_false, if_true] at h
            by_cases hi : (i : Int) = (n : Int) - 1
            · simp only [hi, if_true, Prod.mk.injEq] at h
              exact Or.inr (Or.inr (Or.inr (Or.inl
                ⟨fuel1, s1, rfl, by omega, h.2.symm, h.1.symm⟩)))
            · simp only [hi, if_false, Prod.mk.injEq] at h
              exact Or.inr (Or.inr (Or.inr (Or.inr
                ⟨fuel1, s1, rfl, by omega, h.2.symm, h.1.symm⟩)))
  · simp only [hl, ne_eq, not_false_eq_true, if_true, Prod.mk.injEq] at h
    exact Or.inl ⟨hl, h.1.symm, h.2.symm⟩

/-! ## The predicates on traces and concatenation -/

theorem loadTried_append (A B : List Event) (j : Nat) :
    LoadTried (A ++ B) j ↔ LoadTried A j ∨ LoadTried B j := by
  simp only [LoadTried, List.mem_append, exists_or]

theorem loadedOk_append (A B : List Event) (j : Nat) :
    LoadedOk (A ++ B) j ↔ LoadedOk A j ∨ LoadedOk B j := by
  simp only [LoadedOk, List.mem_append, exists_or]

theorem loadFailed_append (A B : List Event) (j : Nat) :
    LoadFailed (A ++ B) j ↔ LoadFailed A j ∨ LoadFailed B j := by
  simp only [LoadFailed, List.mem_append, and_or_left, exists_or]

theorem ended_append (A B : List Event) (j : Nat) (r : Int) :
    Ended (A ++ B) j r ↔ Ended A j r ∨ Ended B j r := by
  simp only [Ended, List.mem_append, exists_or]

theorem drawn_append (A B : List Event) (m : DrawMode) :
    Drawn (A ++ B) m ↔ Drawn A m ∨ Drawn B m := by
  simp only [Drawn, List.mem_append, exists_or]

theorem unloaded_append (A B : List Event) (j : Nat) :
    Unloaded (A ++ B) j ↔ Unloaded A j ∨ Unloaded B j := by
  simp only [Unloaded, List.mem_append, exists_or]

theorem loads_append (A B : List Event) : loads (A ++ B) = loads A ++ loads B := by
  simp only [loads, List.filterMap_append]

theorem frames_append (A B : List Event) : frames (A ++ B) = frames A ++ frames B := by
  simp only [frames, List.filterMap_append]

theorem loadTried_cons (e : Event) (A : List Event) (j : Nat) :
    LoadTried (e :: A) j
      ↔ (∃ name b ret, e = Event.load_level_filename j name b ret) ∨ LoadTried A j := by
  simp only [LoadTried, List.mem_cons, exists_or, eq_comm]

theorem loadedOk_cons (e : Event) (A : List Event) (j : Nat) :
    LoadedOk (e :: A) j ↔ (∃ name b, e = Event.load_level_filename j name b 0) ∨ LoadedOk A j := by
  simp only [LoadedOk, List.mem_cons, exists_or, eq_comm]

theorem loadFailed_cons (e : Event) (A : List Event) (j : Nat) :
    LoadFailed (e :: A) j
      ↔ (∃ name b ret, ret ≠ 0 ∧ e = Event.load_level_filename j name b ret)
        ∨ LoadFailed A j := by
  simp only [LoadFailed, List.mem_cons, and_or_left, exists_or, eq_comm]

theorem ended_cons (e : Event) (A : List Event) (j : Nat) (r : Int) :
    Ended (e :: A) j r ↔ (∃ b c b1, e = Event.play_board j b c b1 r) ∨ Ended A j r := by
  simp only [Ended, List.mem_cons, exists_or, eq_comm]

theorem drawn_cons (e : Event) (A : List Event) (m : DrawMode) :
    Drawn (e :: A) m ↔ (∃ b, e = Event.draw_board b m) ∨ Drawn A m := by
  simp only [Drawn, List.mem_cons, exists_or, eq_comm]

theorem unloaded_cons (e : Event) (A : List Event) (j : Nat) :
    Unloaded (e :: A) j ↔ (∃ b, e = Event.unload_level j b) ∨ Unloaded A j := by
  simp only [Unloaded, List.mem_cons, exists_or, eq_comm]

theorem trace_nil (j : Nat) (r : Int) (m : DrawMode) :
    ¬ LoadTried [] j ∧ ¬ LoadedOk [] j ∧ ¬ LoadFailed [] j ∧ ¬ Ended [] j r ∧ ¬ Drawn [] m
      ∧ ¬ Unloaded [] j := by
  simp [LoadTried, LoadedOk, LoadFailed, Ended, Drawn, Unloaded]

/-- What `screen_refresh` logs: one drawing in the given mode, nothing else of note. -/
theorem screen_refresh_facts (b : board_t) (mode : DrawMode) :
    (∀ j, ¬ LoadTried (screen_refresh b mode) j) ∧ (∀ j, ¬ LoadedOk (screen_refresh b mode) j)
      ∧ (∀ j, ¬ LoadFailed (screen_refresh b mode) j)
      ∧ (∀ j r, ¬ Ended (screen_refresh b mode) j r)
      ∧ (∀ m, Drawn (screen_refresh b mode) m ↔ m = mode)
      ∧ (∀ j, ¬ Unloaded (screen_refresh b mode) j) := by
  refine ⟨?_, ?_, ?_, ?_, ?_, ?_⟩
  · rintro j ⟨name, b0, ret, hm⟩
    rcases screen_refresh_events _ _ _ hm with h | h | h | h <;> cases h
  · rintro j ⟨name, b0, hm⟩
    rcases screen_refresh_events _ _ _ hm with h | h | h | h <;> cases h
  · rintro j ⟨name, b0, ret, _, hm⟩
    rcases screen_refresh_events _ _ _ hm with h | h | h | h <;> cases h
  · rintro j r ⟨b0, c, b1, hm⟩
    rcases screen_refresh_events _ _ _ hm with h | h | h | h <;> cases h
  · intro m
    constructor
    · rintro ⟨b0, hm⟩
      rcases screen_refresh_events _ _ _ hm with h | h | h | h <;> cases h
      rfl
    · rintro rfl
      exact ⟨b, by simp [screen_refresh]⟩
  · rintro j ⟨b0, hm⟩
    rcases screen_refresh_events _ _ _ hm with h | h | h | h <;> cases h

/-- The frame loop of level `i` loads nothing, unloads nothing, draws only in
the play mode, and all its frames are frames of level `i`. -/
theorem frame_loop_facts {I : Type} (E : Env I) (i fuel : Nat) (s : MainState I)
    (evs : List Event) (ex : FrameExit I) (h : frame_loop E i fuel s = (evs, ex)) :
    (∀ j, ¬ LoadTried evs j) ∧ (∀ j, ¬ LoadedOk evs j) ∧ (∀ j, ¬ LoadFailed evs j)
      ∧ (∀ j r, Ended evs j r → j = i)
      ∧ ¬ Drawn evs .DRAW_GAME_OVER ∧ ¬ Drawn evs .DRAW_WIN
      ∧ (∀ j, ¬ Unloaded evs j) ∧ loads evs = [] := by
  refine ⟨?_, ?_, ?_, ?_, ?_, ?_, ?_, ?_⟩
  · rintro j ⟨name, b0, ret, hm⟩
    rcases frame_loop_events E i fuel s evs ex h _ hm with
      ⟨_, _, _, _, h1⟩ | h1 | ⟨_, h1⟩ | h1 | ⟨_, h1⟩ <;> cases h1
  · rintro j ⟨name, b0, hm⟩
    rcases frame_loop_events E i fuel s evs ex h _ hm with
      ⟨_, _, _, _, h1⟩ | h1 | ⟨_, h1⟩ | h1 | ⟨_, h1⟩ <;> cases h1
  · rintro j ⟨name, b0, ret, _, hm⟩
    rcases frame_loop_events E i fuel s evs ex h _ hm with
      ⟨_, _, _, _, h1⟩ | h1 | ⟨_, h1⟩ | h1 | ⟨_, h1⟩ <;> cases h1
  · rintro j r ⟨b0, c, b1, hm⟩
    rcases frame_loop_events E i fuel s evs ex h _ hm with
      ⟨_, _, _, _, h1⟩ | h1 | ⟨_, h1⟩ | h1 | ⟨_, h1⟩ <;> cases h1
    rfl
  · rintro ⟨b0, hm⟩
    rcases frame_loop_events E i fuel s evs ex h _ hm with
      ⟨_, _, _, _, h1⟩ | h1 | ⟨_, h1⟩ | h1 | ⟨_, h1⟩ <;> cases h1
  · rintro ⟨b0, hm⟩
    rcases frame_loop_events E i fuel s evs ex h _ hm with
      ⟨_, _, _, _, h1⟩ | h1 | ⟨_, h1⟩ | h1 | ⟨_, h1⟩ <;> cases h1
  · rintro j ⟨b0, hm⟩
    rcases frame_loop_events E i fuel s evs ex h _ hm with
      ⟨_, _, _, _, h1⟩ | h1 | ⟨_, h1⟩ | h1 | ⟨_, h1⟩ <;> cases h1
  · simp only [loads, List.filterMap_eq_nil_iff]
    intro e he
    rcases frame_loop_events E i fuel s evs ex h _ he with
      ⟨_, _, _, _, h1⟩ | h1 | ⟨_, h1⟩ | h1 | ⟨_, h1⟩ <;> subst h1 <;> rfl

/-- What the end of a finished level logs: the final screen and the unload. -/
theorem level_tail_facts (b : board_t) (mode : DrawMode) (i : Nat) :
    (∀ j, ¬ LoadTried (screen_refresh b mode ++ [Event.sleep_ms 2000, Event.unload_level i b]) j)
      ∧ (∀ j, ¬ LoadFailed
            (screen_refresh b mode ++ [Event.sleep_ms 2000, Event.unload_level i b]) j)
      ∧ (∀ j r, ¬ Ended
            (screen_refresh b mode ++ [Event.sleep_ms 2000, Event.unload_level i b]) j r)
      ∧ (∀ m, Drawn (screen_refresh b mode ++ [Event.sleep_ms 2000, Event.unload_level i b]) m
            ↔ m = mode)
      ∧ (∀ j, Unloaded (screen_refresh b mode ++ [Event.sleep_ms 2000, Event.unload_level i b]) j
            ↔ j = i)
      ∧ loads (screen_refresh b mode ++ [Event.sleep_ms 2000, Event.unload_level i b]) = [] := by
  obtain ⟨s1, _, s3, s4, s5, s6⟩ := screen_refresh_facts b mode
  refine ⟨?_, ?_, ?_, ?_, ?_, ?_⟩
  · intro j
    simp [loadTried_append, loadTried_cons, s1, (trace_nil j 0 .DRAW_WIN).1]
  · intro j
    simp [loadFailed_append, loadFailed_cons, s3, (trace_nil j 0 .DRAW_WIN).2.2.1]
  · intro j r
    simp [ended_append, ended_cons, s4, (trace_nil j r .DRAW_WIN).2.2.2.1]
  · intro m
    simp [drawn_append, drawn_cons, s5, (trace_nil i 0 m).2.2.2.2.1]
  · intro j
    simp [unloaded_append, unloaded_cons, s6, (trace_nil j 0 .DRAW_WIN).2.2.2.2.2, eq_comm]
  · rw [loads_append, loads_screen_refresh]
    rfl

/-- What the end of a cleared level that is not the last one logs: the unload. -/
theorem level_unload_facts (b : board_t) (i : Nat) :
    (∀ j, ¬ LoadTried [Event.unload_level i b] j)
      ∧ (∀ j, ¬ LoadFailed [Event.unload_level i b] j)
      ∧ (∀ j r, ¬ Ended [Event.unload_level i b] j r)
      ∧ (∀ m, ¬ Drawn [Event.unload_level i b] m)
      ∧ (∀ j, Unloaded [Event.unload_level i b] j ↔ j = i)
      ∧ loads [Event.unload_level i b] = [] := by
  refine ⟨?_, ?_, ?_, ?_, ?_, rfl⟩
  · intro j
    simp [loadTried_cons, (trace_nil j 0 .DRAW_WIN).1]
  · intro j
    simp [loadFailed_cons, (trace_nil j 0 .DRAW_WIN).2.2.1]
  · intro j r
    simp [ended_cons, (trace_nil j r .DRAW_WIN).2.2.2.1]
  · intro m
    simp [drawn_cons, (trace_nil i 0 m).2.2.2.2.1]
  · intro j
    simp [unloaded_cons, (trace_nil j 0 .DRAW_WIN).2.2.2.2.2, eq_comm]

/-- What one iteration of the level loop logs, by the way it ends. -/
theorem level_body_facts {I : Type} (E : Env I) (n i : Nat) (name : String) (fuel : Nat)
    (s : MainState I) (evs : List Event) (ctl : Control I)
    (h : level_body E n i name fuel s = (evs, ctl)) :
    loads evs = [(i, name)]
      ∧ (∀ j, LoadTried evs j ↔ j = i)
      ∧ (∀ j r, Ended evs j r → j = i ∧ LoadedOk evs i)
      ∧ (∀ j, Unloaded evs j → j = i)
      ∧ (match ctl with
        | .brk => LevelFacts evs i False True False False False False False
            ∨ LevelFacts evs i True False True False True False True
            ∨ (i + 1 = n ∧ LevelFacts evs i True False False True False True True)
        | .cont _ _ => i + 1 ≠ n ∧ LevelFacts evs i True False False True False False True
        | .out_of_fuel => LevelFacts evs i True False False False False False False
        | .fault _ => ¬ LoadFailed evs i ∧ ¬ Drawn evs .DRAW_GAME_OVER
            ∧ ¬ Drawn evs .DRAW_WIN ∧ ¬ Unloaded evs i) := by
  rcases level_body_cases E n i name fuel s evs ctl h with
    ⟨hl, hevs, hctl⟩ | ⟨hl, f, _, hevs, hctl⟩ | ⟨hl, b, fevs, ex, _, hf, hc⟩
  · subst hevs hctl
    refine ⟨rfl, ?_, ?_, ?_, ?_⟩
    · intro j; simp [loadTried_cons, (trace_nil j 0 .DRAW_WIN).1, eq_comm]
    · intro j r; simp [ended_cons, (trace_nil j r .DRAW_WIN).2.2.2.1]
    · intro j; simp [unloaded_cons, (trace_nil j 0 .DRAW_WIN).2.2.2.2.2]
    · left
      have := trace_nil i 0 .DRAW_WIN
      have h1 := trace_nil i QUIT_GAME .DRAW_GAME_OVER
      have h2 := trace_nil i NEXT_LEVEL .DRAW_GAME_OVER
      simp [LevelFacts, loadedOk_cons, loadFailed_cons, ended_cons, drawn_cons, unloaded_cons,
        this, h1, h2, hl]
      exact ⟨_, _, _, hl, rfl, rfl, rfl⟩
  · subst hevs hctl
    refine ⟨rfl, ?_, ?_, ?_, ?_⟩
    · intro j; simp [loadTried_cons, (trace_nil j 0 .DRAW_WIN).1, eq_comm]
    · intro j r; simp [ended_cons, (trace_nil j r .DRAW_WIN).2.2.2.1]
    · intro j; simp [unloaded_cons, (trace_nil j 0 .DRAW_WIN).2.2.2.2.2]
    · have := trace_nil i 0 .DRAW_WIN
      have h1 := trace_nil i QUIT_GAME .DRAW_GAME_OVER
      simp [loadFailed_cons, drawn_cons, unloaded_cons, this, h1]
      intro _ _ x2 hx _ _ h0; exact absurd h0.symm hx
  · obtain ⟨f1, f2, f3, f4, f5, f6, f7, f8⟩ := frame_loop_facts E i fuel _ fevs ex hf
    obtain ⟨hdone, hoof⟩ := frame_loop_ended E i fuel _ fevs ex hf
    have hQN : QUIT_GAME ≠ NEXT_LEVEL := by decide
    have hpre : ∀ (tl : List Event) (j : Nat), LoadTried ([Event.load_level_filename i name
          (E.load_level_filename s.game_board name).1 0,
          Event.draw_board b .DRAW_MENU, Event.refresh_screen] ++ fevs ++ tl) j
          ↔ j = i ∨ LoadTried tl j := by
      intro tl j
      simp [loadTried_append, loadTried_cons, (trace_nil j 0 .DRAW_WIN).1, f1, eq_comm]
    have hpre2 : ∀ (tl : List Event) (j : Nat) (r : Int), Ended ([Event.load_level_filename i name
          (E.load_level_filename s.game_board name).1 0,
          Event.draw_board b .DRAW_MENU, Event.refresh_screen] ++ fevs ++ tl) j r
          ↔ Ended fevs j r ∨ Ended tl j r := by
      intro tl j r
      simp [ended_append, ended_cons, (trace_nil j r .DRAW_WIN).2.2.2.1]
    have hpre3 : ∀ (tl : List Event) (j : Nat), Unloaded ([Event.load_level_filename i name
          (E.load_level_filename s.game_board name).1 0,
          Event.draw_board b .DRAW_MENU, Event.refresh_screen] ++ fevs ++ tl) j
          ↔ Unloaded tl j := by
      intro tl j
      simp [unloaded_append, unloaded_cons, (trace_nil j 0 .DRAW_WIN).2.2.2.2.2, f7]
    have hpre4 : ∀ (tl : List Event), LoadedOk ([Event.load_level_filename i name
          (E.load_level_filename s.game_board name).1 0,
          Event.draw_board b .DRAW_MENU, Event.refresh_screen] ++ fevs ++ tl) i := by
      intro tl
      simp [loadedOk_append, loadedOk_cons]
    have hpre5 : ∀ (tl : List Event), LoadFailed ([Event.load_level_filename i name
          (E.load_level_filename s.game_board name).1 0,
          Event.draw_board b .DRAW_MENU, Event.refresh_screen] ++ fevs ++ tl) i
          ↔ LoadFailed tl i := by
      intro tl
      simp [loadFailed_append, loadFailed_cons, (trace_nil i 0 .DRAW_WIN).2.2.1, f3]
      intro _ _ x2 hx _ _ h0; exact absurd h0.symm hx
    have hpre6 : ∀ (tl : List Event) (m : DrawMode), m ≠ .DRAW_MENU →
        (Drawn ([Event.load_level_filename i name
          (E.load_level_filename s.game_board name).1 0,
          Event.draw_board b .DRAW_MENU, Event.refresh_screen] ++ fevs ++ tl) m
          ↔ Drawn tl m) := by
      intro tl m hm
      have : ¬ Drawn fevs m := by
        cases m
        · exact absurd rfl hm
        · exact f5
        · exact f6
      simp [drawn_append, drawn_cons, (trace_nil i 0 m).2.2.2.2.1, this, Ne.symm hm]
    have hpre7 : ∀ (tl : List Event), loads ([Event.load_level_filename i name
          (E.load_level_filename s.game_board name).1 0,
          Event.draw_board b .DRAW_MENU, Event.refresh_screen] ++ fevs ++ tl)
          = (i, name) :: loads tl := by
      intro tl
      rw [loads_append, loads_append, f8]
      rfl
    have hnil := fun (j : Nat) (r : Int) (m : DrawMode) => trace_nil j r m
    have hE : ∀ j r, Ended fevs j r → j = i ∧ LoadedOk ([Event.load_level_filename i name
          (E.load_level_filename s.game_board name).1 0,
          Event.draw_board b .DRAW_MENU, Event.refresh_screen] ++ fevs ++ []) i :=
      fun j r hj => ⟨f4 j r hj, hpre4 []⟩
    rcases hc with ⟨f, hex, hctl, hevs⟩ | ⟨hex, hctl, hevs⟩ | ⟨fuel1, s1, hex, hctl, hevs⟩
      | ⟨fuel1, s1, hex, hin, hctl, hevs⟩ | ⟨fuel1, s1, hex, hin, hctl, hevs⟩
    · rw [← List.append_nil (_ ++ fevs)] at hevs
      subst hevs hctl
      refine ⟨by rw [hpre7]; rfl, fun j => ?_, fun j r hj => ?_, fun j hj => ?_, ?_⟩
      · rw [hpre]; simp [(hnil j 0 .DRAW_WIN).1]
      · rw [hpre2] at hj
        rcases hj with hj | hj
        · exact hE j r hj
        · exact absurd hj (hnil j r .DRAW_WIN).2.2.2.1
      · rw [hpre3] at hj
        exact absurd hj (hnil j 0 .DRAW_WIN).2.2.2.2.2
      · simp only
        rw [hpre5, hpre6 _ _ (by decide), hpre6 _ _ (by decide), hpre3]
        exact ⟨(hnil i 0 .DRAW_WIN).2.2.1, (hnil i 0 .DRAW_GAME_OVER).2.2.2.2.1,
          (hnil i 0 .DRAW_WIN).2.2.2.2.1, (hnil i 0 .DRAW_WIN).2.2.2.2.2⟩
    · rw [← List.append_nil (_ ++ fevs)] at hevs
      subst hevs hctl hex
      refine ⟨by rw [hpre7]; rfl, fun j => ?_, fun j r hj => ?_, fun j hj => ?_, ?_⟩
      · rw [hpre]; simp [(hnil j 0 .DRAW_WIN).1]
      · rw [hpre2] at hj
        rcases hj with hj | hj
        · exact hE j r hj
        · exact absurd hj (hnil j r .DRAW_WIN).2.2.2.1
      · rw [hpre3] at hj
        exact absurd hj (hnil j 0 .DRAW_WIN).2.2.2.2.2
      · simp only [LevelFacts]
        rw [hpre5, hpre6 _ _ (by decide), hpre6 _ _ (by decide), hpre3, hpre2, hpre2]
        have h1 : ¬ Ended fevs i QUIT_GAME := fun hq => hoof rfl _ hq (Or.inr rfl)
        have h2 : ¬ Ended fevs i NEXT_LEVEL := fun hq => hoof rfl _ hq (Or.inl rfl)
        refine ⟨iff_of_true (hpre4 _) trivial, ?_⟩
        simp [(hnil i 0 .DRAW_WIN), (hnil i 0 .DRAW_GAME_OVER),
          (hnil i QUIT_GAME .DRAW_WIN), (hnil i NEXT_LEVEL .DRAW_WIN), h1, h2]
    · rw [List.append_assoc (_ ++ fevs)] at hevs
      subst hevs hctl
      obtain ⟨_, hEn, hU⟩ := hdone _ _ _ hex
      have h2 : ¬ Ended fevs i NEXT_LEVEL := fun hq => hQN (hU _ hq (Or.inl rfl)).symm
      obtain ⟨t1, t2, t3, t4, t5, t6⟩ := level_tail_facts s1.game_board .DRAW_GAME_OVER i
      refine ⟨by rw [hpre7, t6], fun j => ?_, fun j r hj => ?_, fun j hj => ?_, ?_⟩
      · rw [hpre]; simp [t1]
      · rw [hpre2] at hj
        rcases hj with hj | hj
        · exact ⟨f4 j r hj, hpre4 _⟩
        · exact absurd hj (t3 j r)
      · rw [hpre3, t5] at hj
        exact hj
      · right; left
        simp only [LevelFacts]
        rw [hpre5, hpre6 _ _ (by decide), hpre6 _ _ (by decide), hpre3, hpre2, hpre2]
        refine ⟨iff_of_true (hpre4 _) trivial, ?_⟩
        simp [t2, t3, t4, t5, hEn, h2]
    · rw [List.append_assoc (_ ++ fevs)] at hevs
      subst hevs hctl
      obtain ⟨_, hEn, hU⟩ := hdone _ _ _ hex
      have h2 : ¬ Ended fevs i QUIT_GAME := fun hq => hQN (hU _ hq (Or.inr rfl))
      obtain ⟨t1, t2, t3, t4, t5, t6⟩ := level_tail_facts s1.game_board .DRAW_WIN i
      refine ⟨by rw [hpre7, t6], fun j => ?_, fun j r hj => ?_, fun j hj => ?_, ?_⟩
      · rw [hpre]; simp [t1]
      · rw [hpre2] at hj
        rcases hj with hj | hj
        · exact ⟨f4 j r hj, hpre4 _⟩
        · exact absurd hj (t3 j r)
      · rw [hpre3, t5] at hj
        exact hj
      · right; right
        refine ⟨hin, ?_⟩
        simp only [LevelFacts]
        rw [hpre5, hpre6 _ _ (by decide), hpre6 _ _ (by decide), hpre3, hpre2, hpre2]
        refine ⟨iff_of_true (hpre4 _) trivial, ?_⟩
        simp [t2, t3, t4, t5, hEn, h2]
    · subst hevs hctl
      obtain ⟨_, hEn, hU⟩ := hdone _ _ _ hex
      have h2 : ¬ Ended fevs i QUIT_GAME := fun hq => hQN (hU _ hq (Or.inr rfl))
      obtain ⟨t1, t2, t3, t4, t5, t6⟩ := level_unload_facts s1.game_board i
      refine ⟨by rw [hpre7, t6], fun j => ?_, fun j r hj => ?_, fun j hj => ?_, ?_⟩
      · rw [hpre]; simp [t1]
      · rw [hpre2] at hj
        rcases hj with hj | hj
        · exact ⟨f4 j r hj, hpre4 _⟩
        · exact absurd hj (t3 j r)
      · rw [hpre3, t5] at hj
        exact hj
      · refine ⟨hin, ?_⟩
        simp only [LevelFacts]
        rw [hpre5, hpre6 _ _ (by decide), hpre6 _ _ (by decide), hpre3, hpre2, hpre2]
        refine ⟨iff_of_true (hpre4 _) trivial, ?_⟩
        simp [t2, t3, t4, t5, hEn, h2]

/-- The facts of `level_body_facts`, by what the events show. -/
theorem level_body_end_facts {I : Type} (E : Env I) (n i : Nat) (name : String) (fuel : Nat)
    (s : MainState I) (evs : List Event) (ctl : Control I)
    (h : level_body E n i name fuel s = (evs, ctl)) :
    (Drawn evs .DRAW_WIN → Ended evs i NEXT_LEVEL ∧ i + 1 = n ∧ ctl = .brk)
      ∧ (Drawn evs .DRAW_GAME_OVER → Ended evs i QUIT_GAME ∧ ctl = .brk)
      ∧ ¬ (Drawn evs .DRAW_WIN ∧ Drawn evs .DRAW_GAME_OVER)
      ∧ (∀ fuel1 s1, ctl = .cont fuel1 s1 →
          i + 1 ≠ n ∧ LoadedOk evs i ∧ Ended evs i NEXT_LEVEL ∧ ¬ Ended evs i QUIT_GAME
            ∧ ¬ Drawn evs .DRAW_WIN ∧ ¬ Drawn evs .DRAW_GAME_OVER ∧ Unloaded evs i
            ∧ ¬ LoadFailed evs i)
      ∧ ((∀ f, ctl ≠ .fault f) →
          (Ended evs i QUIT_GAME → Unloaded evs i ∧ Drawn evs .DRAW_GAME_OVER ∧ ctl = .brk)
            ∧ (Ended evs i NEXT_LEVEL → Unloaded evs i ∧ (i + 1 = n → Drawn evs .DRAW_WIN)
                ∧ (i + 1 ≠ n → ∃ fuel1 s1, ctl = .cont fuel1 s1)))
      ∧ (LoadFailed evs i → ctl = .brk ∧ ¬ LoadedOk evs i ∧ (∀ j, ¬ Unloaded evs j)
          ∧ (∀ j r, ¬ Ended evs j r)) := by
  obtain ⟨_, _, hE, hU, hm⟩ := level_body_facts E n i name fuel s evs ctl h
  cases ctl with
  | brk =>
    simp only [LevelFacts] at hm
    rcases hm with ⟨a1, a2, a3, a4, a5, a6, a7⟩ | ⟨a1, a2, a3, a4, a5, a6, a7⟩
      | ⟨hin, a1, a2, a3, a4, a5, a6, a7⟩
    · refine ⟨fun hw => (a6.mp hw).elim, fun hg => (a5.mp hg).elim,
        fun hb => a6.mp hb.1, fun _ _ hc => (by cases hc),
        fun _ => ⟨fun hq => (a3.mp hq).elim, fun hq => (a4.mp hq).elim⟩,
        fun _ => ⟨rfl, fun hk => a1.mp hk, fun j hj => ?_, fun j r hj => a1.mp (hE j r hj).2⟩⟩
      have := hU j hj
      subst this
      exact a7.mp hj
    · refine ⟨fun hw => (a6.mp hw).elim, fun _ => ⟨a3.mpr trivial, rfl⟩,
        fun hb => a6.mp hb.1, fun _ _ hc => (by cases hc),
        fun _ => ⟨fun _ => ⟨a7.mpr trivial, a5.mpr trivial, rfl⟩, fun hq => (a4.mp hq).elim⟩,
        fun hf => (a2.mp hf).elim⟩
    · refine ⟨fun _ => ⟨a4.mpr trivial, hin, rfl⟩, fun hg => (a5.mp hg).elim,
        fun hb => a5.mp hb.2, fun _ _ hc => (by cases hc),
        fun _ => ⟨fun hq => (a3.mp hq).elim,
          fun _ => ⟨a7.mpr trivial, fun _ => a6.mpr trivial, fun hne => absurd hin hne⟩⟩,
        fun hf => (a2.mp hf).elim⟩
  | cont fuel1 s1 =>
    simp only [LevelFacts] at hm
    obtain ⟨hin, a1, a2, a3, a4, a5, a6, a7⟩ := hm
    refine ⟨fun hw => (a6.mp hw).elim, fun hg => (a5.mp hg).elim,
      fun hb => a6.mp hb.1,
      fun _ _ _ => ⟨hin, a1.mpr trivial, a4.mpr trivial, fun hq => a3.mp hq, fun hq => a6.mp hq,
        fun hq => a5.mp hq, a7.mpr trivial, fun hq => a2.mp hq⟩,
      fun _ => ⟨fun hq => (a3.mp hq).elim,
        fun _ => ⟨a7.mpr trivial, fun hq => absurd hq hin, fun _ => ⟨fuel1, s1, rfl⟩⟩⟩,
      fun hf => (a2.mp hf).elim⟩
  | out_of_fuel =>
    simp only [LevelFacts] at hm
    obtain ⟨a1, a2, a3, a4, a5, a6, a7⟩ := hm
    refine ⟨fun hw => (a6.mp hw).elim, fun hg => (a5.mp hg).elim,
      fun hb => a6.mp hb.1, fun _ _ hc => (by cases hc),
      fun _ => ⟨fun hq => (a3.mp hq).elim, fun hq => (a4.mp hq).elim⟩,
      fun hf => (a2.mp hf).elim⟩
  | fault f =>
    simp only at hm
    obtain ⟨a1, a2, a3, a4⟩ := hm
    refine ⟨fun hw => (a3 hw).elim, fun hg => (a2 hg).elim,
      fun hb => a3 hb.1, fun _ _ hc => (by cases hc),
      fun hnf => absurd rfl (hnf f),
      fun hf => (a1 hf).elim⟩

/-- One unfolding of the level loop. -/
theorem level_loop_cons {I : Type} (E : Env I) (n : Nat) (name : String) (rest : List String)
    (i fuel : Nat) (s : MainState I) (T : List Event) (e : LoopEnd)
    (h : level_loop E n (name :: rest) i fuel s = (T, e)) :
    ∃ evs ctl, level_body E n i name fuel s = (evs, ctl)
      ∧ ((T = evs ∧ ((ctl = .brk ∧ e = .finished) ∨ (∃ f, ctl = .fault f ∧ e = .fault f)
            ∨ (ctl = .out_of_fuel ∧ e = .out_of_fuel)))
        ∨ ∃ fuel1 s1 T1, ctl = .cont fuel1 s1
            ∧ level_loop E n rest (i + 1) fuel1 s1 = (T1, e) ∧ T = evs ++ T1) := by
  simp only [level_loop] at h
  cases hb : level_body E n i name fuel s with
  | mk evs ctl =>
    refine ⟨evs, ctl, rfl, ?_⟩
    simp only [hb] at h
    cases ctl with
    | brk =>
      simp only [Prod.mk.injEq] at h
      exact Or.inl ⟨h.1.symm, Or.inl ⟨rfl, h.2.symm⟩⟩
    | fault f =>
      simp only [Prod.mk.injEq] at h
      exact Or.inl ⟨h.1.symm, Or.inr (Or.inl ⟨f, rfl, h.2.symm⟩)⟩
    | out_of_fuel =>
      simp only [Prod.mk.injEq] at h
      exact Or.inl ⟨h.1.symm, Or.inr (Or.inr ⟨rfl, h.2.symm⟩)⟩
    | cont fuel1 s1 =>
      simp only [Prod.mk.injEq] at h
      exact Or.inr ⟨fuel1, s1, _, rfl, Prod.ext rfl h.2, h.1.symm⟩

/-! ## The level loop -/

/-- The shape of the trace of the level loop from counter `i` on. -/
theorem level_loop_shape {I : Type} (E : Env I) (n : Nat) (rest : List String) :
    ∀ (i fuel : Nat) (s : MainState I) (T : List Event) (e : LoopEnd),
      i + rest.length = n → level_loop E n rest i fuel s = (T, e) →
      (∃ k, k ≤ rest.length ∧ loads T = (rest.take k).enumFrom i)
        ∧ (∀ j, LoadTried T j → i ≤ j)
        ∧ (∀ j r, Ended T j r → i ≤ j ∧ LoadedOk T j)
        ∧ (∀ j, Unloaded T j → i ≤ j)
        ∧ (∀ j, i ≤ j → LoadTried T (j + 1) → LoadedOk T j ∧ Ended T j NEXT_LEVEL)
        ∧ (Drawn T .DRAW_WIN → Ended T (n - 1) NEXT_LEVEL)
        ∧ (Ended T (n - 1) NEXT_LEVEL →
            ∀ j, i ≤ j → j < n → LoadedOk T j ∧ Ended T j NEXT_LEVEL)
        ∧ (Drawn T .DRAW_GAME_OVER → ∃ j, Ended T j QUIT_GAME)
        ∧ ¬ (Drawn T .DRAW_WIN ∧ Drawn T .DRAW_GAME_OVER)
        ∧ (rest ≠ [] → LoadTried T i) := by
  induction rest with
  | nil =>
    intro i fuel s T e _ h
    simp only [level_loop, Prod.mk.injEq] at h
    obtain ⟨hT, _⟩ := h
    subst hT
    have hnil := fun (j : Nat) (r : Int) (m : DrawMode) => trace_nil j r m
    refine ⟨⟨0, le_refl _, rfl⟩, fun j hj => absurd hj (hnil j 0 .DRAW_WIN).1,
      fun j r hj => absurd hj (hnil j r .DRAW_WIN).2.2.2.1,
      fun j hj => absurd hj (hnil j 0 .DRAW_WIN).2.2.2.2.2,
      fun j _ hj => absurd hj (hnil (j + 1) 0 .DRAW_WIN).1,
      fun hj => absurd hj (hnil 0 0 .DRAW_WIN).2.2.2.2.1,
      fun hj => absurd hj (hnil (n - 1) NEXT_LEVEL .DRAW_WIN).2.2.2.1,
      fun hj => absurd hj (hnil 0 0 .DRAW_GAME_OVER).2.2.2.2.1,
      fun hj => absurd hj.1 (hnil 0 0 .DRAW_WIN).2.2.2.2.1,
      fun hj => absurd rfl hj⟩
  | cons name rest ih =>
    intro i fuel s T e hlen h
    simp only [List.length_cons] at hlen
    obtain ⟨evs, ctl, hb, hcase⟩ := level_loop_cons E n name rest i fuel s T e h
    obtain ⟨hloads, hLT, hE, hU, _⟩ := level_body_facts E n i name fuel s evs ctl hb
    obtain ⟨gW, gO, gWO, gC, _, _⟩ := level_body_end_facts E n i name fuel s evs ctl hb
    rcases hcase with ⟨hT, _⟩ | ⟨fuel1, s1, T1, hctl, hrec, hT⟩
    · subst hT
      refine ⟨⟨1, by simp, by simp [hloads]⟩, fun j hj => le_of_eq ((hLT j).mp hj).symm,
        fun j r hj => ?_, fun j hj => le_of_eq (hU j hj).symm, fun j hij hj => ?_,
        fun hw => ?_, fun hq j hij hjn => ?_, fun hg => ⟨i, (gO hg).1⟩, gWO,
        fun _ => (hLT i).mpr rfl⟩
      · obtain ⟨h1, h2⟩ := hE j r hj
        subst h1
        exact ⟨le_refl _, h2⟩
      · have := (hLT _).mp hj
        omega
      · obtain ⟨h1, h2, _⟩ := gW hw
        have : n - 1 = i := by omega
        rw [this]; exact h1
      · have h1 := (hE _ _ hq).1
        have h2 : j = i := by omega
        subst h2
        have h3 : n - 1 = j := h1
        rw [h3] at hq
        exact ⟨(hE _ _ hq).2, hq⟩
    · subst hT
      obtain ⟨hin, cOk, cNext, _, cW, cO, _, _⟩ := gC fuel1 s1 hctl
      obtain ⟨⟨k, hk, hkl⟩, i2, i3, i4, i5, i6, i7, i8, i9, _⟩ :=
        ih (i + 1) fuel1 s1 T1 e (by omega) hrec
      refine ⟨⟨k + 1, by simpa using hk, ?_⟩, fun j hj => ?_, fun j r hj => ?_, fun j hj => ?_,
        fun j hij hj => ?_, fun hw => ?_, fun hq j hij hjn => ?_, fun hg => ?_, fun hb2 => ?_,
        fun _ => (loadTried_append _ _ _).mpr (Or.inl ((hLT i).mpr rfl))⟩
      · rw [loads_append, hloads, hkl]
        simp [List.enumFrom_cons]
      · rcases (loadTried_append _ _ _).mp hj with h1 | h1
        · exact le_of_eq ((hLT j).mp h1).symm
        · exact Nat.le_of_succ_le (i2 j h1)
      · rcases (ended_append _ _ _ _).mp hj with h1 | h1
        · obtain ⟨h2, h3⟩ := hE j r h1
          subst h2
          exact ⟨le_refl _, (loadedOk_append _ _ _).mpr (Or.inl h3)⟩
        · obtain ⟨h2, h3⟩ := i3 j r h1
          exact ⟨Nat.le_of_succ_le h2, (loadedOk_append _ _ _).mpr (Or.inr h3)⟩
      · rcases (unloaded_append _ _ _).mp hj with h1 | h1
        · exact le_of_eq (hU j h1).symm
        · exact Nat.le_of_succ_le (i4 j h1)
      · rcases (loadTried_append _ _ _).mp hj with h1 | h1
        · have := (hLT _).mp h1
          omega
        · by_cases hji : j = i
          · subst hji
            exact ⟨(loadedOk_append _ _ _).mpr (Or.inl cOk),
              (ended_append _ _ _ _).mpr (Or.inl cNext)⟩
          · obtain ⟨h2, h3⟩ := i5 j (by omega) h1
            exact ⟨(loadedOk_append _ _ _).mpr (Or.inr h2),
              (ended_append _ _ _ _).mpr (Or.inr h3)⟩
      · rcases (drawn_append _ _ _).mp hw with h1 | h1
        · exact absurd h1 cW
        · exact (ended_append _ _ _ _).mpr (Or.inr (i6 h1))
      · rcases (ended_append _ _ _ _).mp hq with h1 | h1
        · have := (hE _ _ h1).1
          omega
        · by_cases hji : j = i
          · subst hji
            exact ⟨(loadedOk_append _ _ _).mpr (Or.inl cOk),
              (ended_append _ _ _ _).mpr (Or.inl cNext)⟩
          · obtain ⟨h2, h3⟩ := i7 h1 j (by omega) hjn
            exact ⟨(loadedOk_append _ _ _).mpr (Or.inr h2),
              (ended_append _ _ _ _).mpr (Or.inr h3)⟩
      · rcases (drawn_append _ _ _).mp hg with h1 | h1
        · exact absurd h1 cO
        · obtain ⟨j, hj⟩ := i8 h1
          exact ⟨j, (ended_append _ _ _ _).mpr (Or.inr hj)⟩
      · apply i9
        constructor
        · rcases (drawn_append _ _ _).mp hb2.1 with h1 | h1
          · exact absurd h1 cW
          · exact h1
        · rcases (drawn_append _ _ _).mp hb2.2 with h1 | h1
          · exact absurd h1 cO
          · exact h1

/-- What a run of the level loop that meets no undefined behaviour goes on to do
after the frame that ends a level. -/
theorem level_loop_progress {I : Type} (E : Env I) (n : Nat) (rest : List String) :
    ∀ (i fuel : Nat) (s : MainState I) (T : List Event) (e : LoopEnd),
      i + rest.length = n → level_loop E n rest i fuel s = (T, e) → (∀ f, e ≠ .fault f) →
      (∀ j, i ≤ j → j + 1 < n → Ended T j NEXT_LEVEL → LoadTried T (j + 1))
        ∧ (∀ j, Ended T j QUIT_GAME →
            Unloaded T j ∧ Drawn T .DRAW_GAME_OVER ∧ ∀ j1, LoadTried T j1 → j1 ≤ j)
        ∧ (Ended T (n - 1) NEXT_LEVEL → Drawn T .DRAW_WIN ∧ Unloaded T (n - 1))
        ∧ (∀ j, Ended T j NEXT_LEVEL → Unloaded T j) := by
  induction rest with
  | nil =>
    intro i fuel s T e _ h _
    simp only [level_loop, Prod.mk.injEq] at h
    obtain ⟨hT, _⟩ := h
    subst hT
    have hnil := fun (j : Nat) (r : Int) (m : DrawMode) => trace_nil j r m
    exact ⟨fun j _ _ hj => absurd hj (hnil j NEXT_LEVEL .DRAW_WIN).2.2.2.1,
      fun j hj => absurd hj (hnil j QUIT_GAME .DRAW_WIN).2.2.2.1,
      fun hj => absurd hj (hnil (n - 1) NEXT_LEVEL .DRAW_WIN).2.2.2.1,
      fun j hj => absurd hj (hnil j NEXT_LEVEL .DRAW_WIN).2.2.2.1⟩
  | cons name rest ih =>
    intro i fuel s T e hlen h hnf
    simp only [List.length_cons] at hlen
    obtain ⟨evs, ctl, hb, hcase⟩ := level_loop_cons E n name rest i fuel s T e h
    obtain ⟨_, hLT, hE, hU, _⟩ := level_body_facts E n i name fuel s evs ctl hb
    obtain ⟨_, _, _, gC, gP, _⟩ := level_body_end_facts E n i name fuel s evs ctl hb
    rcases hcase with ⟨hT, hend⟩ | ⟨fuel1, s1, T1, hctl, hrec, hT⟩
    · subst hT
      have hctlnf : ∀ f, ctl ≠ .fault f := by
        intro f hf
        rcases hend with ⟨h1, _⟩ | ⟨f1, h1, h2⟩ | ⟨h1, _⟩
        · rw [h1] at hf; cases hf
        · exact hnf f1 h2
        · rw [h1] at hf; cases hf
      have hnc : ∀ fuel1 s1, ctl ≠ .cont fuel1 s1 := by
        intro fuel1 s1 hf
        rcases hend with ⟨h1, _⟩ | ⟨f1, h1, _⟩ | ⟨h1, _⟩ <;> rw [h1] at hf <;> cases hf
      obtain ⟨pQ, pN⟩ := gP hctlnf
      refine ⟨fun j hij hjn hj => ?_, fun j hj => ?_, fun hj => ?_, fun j hj => ?_⟩
      · have h1 := (hE _ _ hj).1
        subst h1
        obtain ⟨fuel1, s1, hc⟩ := (pN hj).2.2 (by omega)
        exact absurd hc (hnc fuel1 s1)
      · have h1 := (hE _ _ hj).1
        subst h1
        obtain ⟨h2, h3, _⟩ := pQ hj
        exact ⟨h2, h3, fun j1 hj1 => le_of_eq ((hLT j1).mp hj1)⟩
      · have h1 := (hE _ _ hj).1
        rw [h1] at hj ⊢
        obtain ⟨h2, h3, _⟩ := pN hj
        exact ⟨h3 (by omega), h2⟩
      · have h1 := (hE _ _ hj).1
        subst h1
        exact (pN hj).1
    · subst hT
      obtain ⟨hin, _, _, cQ, _, _, cU, _⟩ := gC fuel1 s1 hctl
      obtain ⟨_, _, a3, _, _, _, _, _, _, a10⟩ :=
        level_loop_shape E n rest (i + 1) fuel1 s1 T1 e (by omega) hrec
      obtain ⟨b1, b2, b3, b4⟩ := ih (i + 1) fuel1 s1 T1 e (by omega) hrec hnf
      refine ⟨fun j hij hjn hj => ?_, fun j hj => ?_, fun hj => ?_, fun j hj => ?_⟩
      · by_cases hji : j = i
        · subst hji
          have hne : rest ≠ [] := by
            intro h0
            subst h0
            simp at hlen
            omega
          exact (loadTried_append _ _ _).mpr (Or.inr (a10 hne))
        · rcases (ended_append _ _ _ _).mp hj with h1 | h1
          · exact absurd (hE _ _ h1).1 hji
          · exact (loadTried_append _ _ _).mpr (Or.inr (b1 j (by omega) hjn h1))
      · rcases (ended_append _ _ _ _).mp hj with h1 | h1
        · have h2 := (hE _ _ h1).1
          subst h2
          exact absurd h1 cQ
        · obtain ⟨h2, h3, h4⟩ := b2 j h1
          refine ⟨(unloaded_append _ _ _).mpr (Or.inr h2),
            (drawn_append _ _ _).mpr (Or.inr h3), fun j1 hj1 => ?_⟩
          rcases (loadTried_append _ _ _).mp hj1 with h5 | h5
          · have h6 := (hLT j1).mp h5
            have h7 := (a3 j _ h1).1
            omega
          · exact h4 j1 h5
      · rcases (ended_append _ _ _ _).mp hj with h1 | h1
        · have h2 := (hE _ _ h1).1
          omega
        · obtain ⟨h2, h3⟩ := b3 h1
          exact ⟨(drawn_append _ _ _).mpr (Or.inr h2), (unloaded_append _ _ _).mpr (Or.inr h3)⟩
      · rcases (ended_append _ _ _ _).mp hj with h1 | h1
        · have h2 := (hE _ _ h1).1
          subst h2
          exact (unloaded_append _ _ _).mpr (Or.inl cU)
        · exact (unloaded_append _ _ _).mpr (Or.inr (b4 j h1))

/-- What a load failure leaves in the trace of the level loop: the loop ends,
the level is never played or unloaded, nothing is loaded after it and no final
screen is drawn. -/
theorem level_loop_load_failed {I : Type} (E : Env I) (n : Nat) (rest : List String) :
    ∀ (i fuel : Nat) (s : MainState I) (T : List Event) (e : LoopEnd),
      i + rest.length = n → level_loop E n rest i fuel s = (T, e) →
      ∀ j, LoadFailed T j →
        e = .finished ∧ ¬ LoadedOk T j ∧ ¬ Unloaded T j ∧ (∀ r, ¬ Ended T j r)
          ∧ (∀ j1, LoadTried T j1 → j1 ≤ j)
          ∧ ¬ Drawn T .DRAW_WIN ∧ ¬ Drawn T .DRAW_GAME_OVER := by
  induction rest with
  | nil =>
    intro i fuel s T e _ h j hj
    simp only [level_loop, Prod.mk.injEq] at h
    obtain ⟨hT, _⟩ := h
    subst hT
    exact absurd hj (trace_nil j 0 .DRAW_WIN).2.2.1
  | cons name rest ih =>
    intro i fuel s T e hlen h j hj
    simp only [List.length_cons] at hlen
    obtain ⟨evs, ctl, hb, hcase⟩ := level_loop_cons E n name rest i fuel s T e h
    obtain ⟨_, hLT, hE, hU, _⟩ := level_body_facts E n i name fuel s evs ctl hb
    obtain ⟨gW, gO, _, gC, _, gF⟩ := level_body_end_facts E n i name fuel s evs ctl hb
    have hLF : ∀ j, LoadFailed evs j → j = i := by
      rintro j ⟨name1, b, ret, _, hm⟩
      exact (hLT j).mp ⟨name1, b, ret, hm⟩
    have hLO : ∀ j, LoadedOk evs j → j = i := by
      rintro j ⟨name1, b, hm⟩
      exact (hLT j).mp ⟨name1, b, 0, hm⟩
    rcases hcase with ⟨hT, hend⟩ | ⟨fuel1, s1, T1, hctl, hrec, hT⟩
    · subst hT
      have hji := hLF j hj
      subst hji
      obtain ⟨h1, h2, h3, h4⟩ := gF hj
      refine ⟨?_, h2, h3 j, fun r => h4 j r, fun j1 hj1 => le_of_eq ((hLT j1).mp hj1),
        fun hw => ?_, fun hg => ?_⟩
      · rcases hend with ⟨_, h5⟩ | ⟨f1, h5, _⟩ | ⟨h5, _⟩
        · exact h5
        · rw [h1] at h5; cases h5
        · rw [h1] at h5; cases h5
      · exact h4 j _ (gW hw).1
      · exact h4 j _ (gO hg).1
    · subst hT
      obtain ⟨hin, _, _, _, cW, cO, _, cF⟩ := gC fuel1 s1 hctl
      obtain ⟨_, a2, a3, a4, _, _, _, _, _, _⟩ :=
        level_loop_shape E n rest (i + 1) fuel1 s1 T1 e (by omega) hrec
      have hj1 : LoadFailed T1 j := by
        rcases (loadFailed_append _ _ _).mp hj with h1 | h1
        · have := hLF j h1
          subst this
          exact absurd h1 cF
        · exact h1
      have hij : i + 1 ≤ j := by
        obtain ⟨name1, b, ret, _, hm⟩ := hj1
        exact a2 j ⟨name1, b, ret, hm⟩
      obtain ⟨c1, c2, c3, c4, c5, c6, c7⟩ := ih (i + 1) fuel1 s1 T1 e (by omega) hrec j hj1
      refine ⟨c1, fun hk => ?_, fun hk => ?_, fun r hk => ?_, fun j1 hk => ?_, fun hk => ?_,
        fun hk => ?_⟩
      · rcases (loadedOk_append _ _ _).mp hk with h1 | h1
        · have := hLO j h1
          omega
        · exact c2 h1
      · rcases (unloaded_append _ _ _).mp hk with h1 | h1
        · have := hU j h1
          omega
        · exact c3 h1
      · rcases (ended_append _ _ _ _).mp hk with h1 | h1
        · have := (hE j r h1).1
          omega
        · exact c4 r h1
      · rcases (loadTried_append _ _ _).mp hk with h1 | h1
        · have := (hLT j1).mp h1
          omega
        · exact c5 j1 h1
      · rcases (drawn_append _ _ _).mp hk with h1 | h1
        · exact cW h1
        · exact c6 h1
      · rcases (drawn_append _ _ _).mp hk with h1 | h1
        · exact cO h1
        · exact c7 h1

/-! ## The points across the frames of a run -/

theorem index_zero {α : Type} (xs : List α) (x : α) :
    index xs 0 = .ok x ↔ xs.head? = some x := by
  cases xs with
  | nil => simp [index]
  | cons y ys => simp [index]

/-- A frame starts on a board that has a pacman 0. -/
theorem play_board_has_pacman {I : Type} (E : Env I) (inp : I) (b : board_t) (fr : Frame I)
    (h : play_board E inp b = .ok fr) : ∃ pts, points0 b = some pts := by
  simp only [play_board, select_command] at h
  cases hp : index b.pacmans 0 with
  | error f => simp [hp, bind, Except.bind] at h
  | ok p =>
    refine ⟨p.points, ?_⟩
    simp [points0, (index_zero _ _).mp hp]

theorem restore_points_points0 (b b1 : board_t) (acc : Int) (hn : 0 < b.n_pacmans)
    (h : restore_points b acc = .ok b1) : points0 b1 = some acc := by
  simp only [restore_points, gt_iff_lt, hn, if_true] at h
  cases hp : b.pacmans with
  | nil => simp [hp] at h
  | cons p ps =>
    simp only [hp, Except.ok.injEq] at h
    subst h
    rfl

theorem update_points_points0 (b : board_t) (acc acc1 : Int) (hn : 0 < b.n_pacmans)
    (h : update_points b acc = .ok acc1) : points0 b = some acc1 := by
  simp only [update_points, gt_iff_lt, hn, if_true] at h
  cases hp : index b.pacmans 0 with
  | error f => simp [hp] at h
  | ok p =>
    simp only [hp, Except.ok.injEq] at h
    subst h
    simp [points0, (index_zero _ _).mp hp]

/-- The frames of one level follow each other with the same points; the first
starts on the board the loop was entered with, and the loop is left with the
points of the board of the last one. -/
theorem frame_loop_frames {I : Type} (E : Env I) (i fuel : Nat) (s : MainState I)
    (evs : List Event) (ex : FrameExit I) (h : frame_loop E i fuel s = (evs, ex)) :
    List.Chain' PointsCarried (frames evs)
      ∧ (∀ f ∈ (frames evs).head?, f.before = s.game_board)
      ∧ (∀ f ∈ frames evs, ∃ pts, points0 f.before = some pts)
      ∧ (∀ r fuel1 s1, ex = .done r fuel1 s1 →
          ∃ f, (frames evs).getLast? = some f
            ∧ (0 < f.after.n_pacmans → points0 f.after = some s1.accumulated_points)) := by
  induction fuel generalizing s evs ex with
  | zero =>
    simp only [frame_loop, Prod.mk.injEq] at h
    obtain ⟨h1, h2⟩ := h
    subst h1 h2
    exact ⟨List.chain'_nil, by simp [frames], by simp [frames],
      fun r fuel1 s1 hd => by cases hd⟩
  | succ fuel ih =>
    rcases frame_loop_succ E i fuel s evs ex h with
      ⟨f, _, hevs, hex⟩ | ⟨fr, f, hp, _, hevs, hex⟩ | ⟨fr, acc, hp, hu, hr, hevs, hex⟩
      | ⟨fr, acc, evs1, hp, hu, hr, hrec, hevs⟩
    · subst hevs hex
      exact ⟨List.chain'_nil, by simp [frames], by simp [frames],
        fun r fuel1 s1 hd => by cases hd⟩
    · subst hevs hex
      refine ⟨List.chain'_singleton _, ?_, ?_, fun r fuel1 s1 hd => by cases hd⟩
      · simp [frames, frame_of]
      · simp only [frames, List.filterMap_cons, frame_of, List.filterMap_nil,
          List.mem_singleton, forall_eq]
        exact play_board_has_pacman E _ _ fr hp
    · subst hevs hex
      refine ⟨List.chain'_singleton _, ?_, ?_, fun r fuel1 s1 hd => ?_⟩
      · simp [frames, frame_of]
      · simp only [frames, List.filterMap_cons, frame_of, List.filterMap_nil,
          List.mem_singleton, forall_eq]
        exact play_board_has_pacman E _ _ fr hp
      · cases hd
        refine ⟨⟨i, s.game_board, fr.board, fr.result⟩, rfl, fun hn => ?_⟩
        exact update_points_points0 _ _ _ hn hu
    · obtain ⟨c1, c2, c3, c4⟩ := ih _ evs1 ex hrec
      have hfr : frames evs = ⟨i, s.game_board, fr.board, fr.result⟩ :: frames evs1 := by
        subst hevs
        have : Event.play_board i s.game_board fr.calls fr.board fr.result
              :: (screen_refresh fr.board .DRAW_MENU ++ evs1)
            = [Event.play_board i s.game_board fr.calls fr.board fr.result]
              ++ (screen_refresh fr.board .DRAW_MENU ++ evs1) := rfl
        rw [this, frames_append, frames_append, frames_screen_refresh]
        rfl
      rw [hfr]
      refine ⟨List.chain'_cons'.mpr ⟨fun y hy => ?_, c1⟩, by simp, ?_,
        fun r fuel1 s1 hd => ?_⟩
      · obtain ⟨pts, hpts⟩ := c3 y (List.mem_of_mem_head? hy)
        refine ⟨pts, ?_, hpts⟩
        rw [← hpts, c2 y hy]
      · intro f hf
        rcases List.mem_cons.mp hf with h1 | h1
        · subst h1
          exact play_board_has_pacman E _ _ fr hp
        · exact c3 f h1
      · obtain ⟨f, hf1, hf2⟩ := c4 r fuel1 s1 hd
        refine ⟨f, ?_, hf2⟩
        cases hl : frames evs1 with
        | nil => simp [hl] at hf1
        | cons a l =>
          rw [hl] at hf1
          rw [List.getLast?_cons_cons]
          exact hf1

/-- The frames of one iteration of the level loop: they carry the points, the
first one starts with the points accumulated so far, and the iteration hands on
the points of the board of its last frame. -/
theorem level_body_points {I : Type} (E : Env I) (n i : Nat) (name : String) (fuel : Nat)
    (s : MainState I) (evs : List Event) (ctl : Control I)
    (h : level_body E n i name fuel s = (evs, ctl))
    (hload : ∀ j nm b, Event.load_level_filename j nm b 0 ∈ evs → 0 < b.n_pacmans)
    (hframe : ∀ f ∈ frames evs, 0 < f.after.n_pacmans) :
    List.Chain' PointsCarried (frames evs)
      ∧ (∀ f ∈ (frames evs).head?, points0 f.before = some s.accumulated_points)
      ∧ (∀ fuel1 s1, ctl = .cont fuel1 s1 →
          ∃ f, (frames evs).getLast? = some f
            ∧ points0 f.after = some s1.accumulated_points) := by
  rcases level_body_cases E n i name fuel s evs ctl h with
    ⟨hl, hevs, hctl⟩ | ⟨hl, f, _, hevs, hctl⟩ | ⟨hl, b, fevs, ex, hres, hf, hc⟩
  · subst hevs hctl
    exact ⟨List.chain'_nil, by simp [frames, frame_of], fun _ _ hc => by cases hc⟩
  · subst hevs hctl
    exact ⟨List.chain'_nil, by simp [frames, frame_of], fun _ _ hc => by cases hc⟩
  · obtain ⟨c1, c2, _, c4⟩ := frame_loop_frames E i fuel _ fevs ex hf
    have hfr : frames evs = frames fevs ∧ Event.load_level_filename i name
        (E.load_level_filename s.game_board name).1 0 ∈ evs := by
      rcases hc with ⟨f, _, _, hevs⟩ | ⟨_, _, hevs⟩ | ⟨fuel1, s1, _, _, hevs⟩
        | ⟨fuel1, s1, _, _, _, hevs⟩ | ⟨fuel1, s1, _, _, _, hevs⟩
      · subst hevs
        exact ⟨by rw [frames_append]; rfl, by simp⟩
      · subst hevs
        exact ⟨by rw [frames_append]; rfl, by simp⟩
      · subst hevs
        refine ⟨?_, by simp⟩
        rw [frames_append, frames_append, frames_append, frames_screen_refresh]
        simp [frames, frame_of]
      · subst hevs
        refine ⟨?_, by simp⟩
        rw [frames_append, frames_append, frames_append, frames_screen_refresh]
        simp [frames, frame_of]
      · subst hevs
        refine ⟨?_, by simp⟩
        rw [frames_append, frames_append]
        simp [frames, frame_of]
    obtain ⟨hfr1, hmem⟩ := hfr
    rw [hfr1] at hframe ⊢
    refine ⟨c1, fun f hf1 => ?_, fun fuel1 s1 hctl => ?_⟩
    · rw [c2 f hf1]
      exact restore_points_points0 _ _ _ (hload _ _ _ hmem) hres
    · rcases hc with ⟨f, _, hc1, _⟩ | ⟨_, hc1, _⟩ | ⟨fuel2, s2, _, hc1, _⟩
        | ⟨fuel2, s2, _, _, hc1, _⟩ | ⟨fuel2, s2, hex, _, hc1, _⟩
      · rw [hc1] at hctl; cases hctl
      · rw [hc1] at hctl; cases hctl
      · rw [hc1] at hctl; cases hctl
      · rw [hc1] at hctl; cases hctl
      · rw [hc1] at hctl
        cases hctl
        obtain ⟨f, hf1, hf2⟩ := c4 _ _ _ hex
        exact ⟨f, hf1, hf2 (hframe f (List.mem_of_mem_getLast? hf1))⟩

/-- The frames of the level loop carry the points of pacman 0 from each frame to
the next, across levels too, and the first frame starts with the points the
loop was entered with. -/
theorem level_loop_points {I : Type} (E : Env I) (n : Nat) (rest : List String) :
    ∀ (i fuel : Nat) (s : MainState I) (T : List Event) (e : LoopEnd),
      level_loop E n rest i fuel s = (T, e) →
      (∀ j nm b, Event.load_level_filename j nm b 0 ∈ T → 0 < b.n_pacmans) →
      (∀ f ∈ frames T, 0 < f.after.n_pacmans) →
      List.Chain' PointsCarried (frames T)
        ∧ (∀ f ∈ (frames T).head?, points0 f.before = some s.accumulated_points) := by
  induction rest with
  | nil =>
    intro i fuel s T e h _ _
    simp only [level_loop, Prod.mk.injEq] at h
    obtain ⟨hT, _⟩ := h
    subst hT
    exact ⟨List.chain'_nil, by simp [frames]⟩
  | cons name rest ih =>
    intro i fuel s T e h hload hframe
    obtain ⟨evs, ctl, hb, hcase⟩ := level_loop_cons E n name rest i fuel s T e h
    rcases hcase with ⟨hT, _⟩ | ⟨fuel1, s1, T1, hctl, hrec, hT⟩
    · subst hT
      obtain ⟨p1, p2, _⟩ := level_body_points E n i name fuel s T ctl hb hload hframe
      exact ⟨p1, p2⟩
    · subst hT
      rw [frames_append] at hframe ⊢
      obtain ⟨p1, p2, p3⟩ := level_body_points E n i name fuel s evs ctl hb
        (fun j nm b hm => hload j nm b (List.mem_append_left _ hm))
        (fun f hf => hframe f (List.mem_append_left _ hf))
      obtain ⟨q1, q2⟩ := ih (i + 1) fuel1 s1 T1 e hrec
        (fun j nm b hm => hload j nm b (List.mem_append_right _ hm))
        (fun f hf => hframe f (List.mem_append_right _ hf))
      obtain ⟨fl, hfl1, hfl2⟩ := p3 fuel1 s1 hctl
      refine ⟨List.chain'_append.mpr ⟨p1, q1, fun x hx y hy => ?_⟩, fun f hf => ?_⟩
      · rw [hfl1] at hx
        cases hx
        exact ⟨_, hfl2, q2 y hy⟩
      · cases hl : frames evs with
        | nil => simp [hl] at hfl1
        | cons a l =>
          rw [hl] at hf p2
          exact p2 f (by simpa using hf)

/-! ## The run of `main` -/

/-- The trace of a run is the trace of the level loop between `terminal_init`
and, when the loop was left, the two clean-up calls. -/
theorem main_progression_cases {I : Type} (E : Env I) (lista : List String) (fuel : Nat)
    (inp : I) :
    ∃ T e X, level_loop E lista.length lista 0 fuel ⟨zero_board, 0, inp⟩ = (T, e)
      ∧ (main_progression E lista fuel inp).trace = [Event.terminal_init] ++ T ++ X
      ∧ (X = [] ∨ X = [Event.terminal_cleanup, Event.close_debug_file])
      ∧ ((e = .finished ∧ (main_progression E lista fuel inp).status = .exited 0)
        ∨ (∃ f, e = .fault f ∧ (main_progression E lista fuel inp).status = .fault f)
        ∨ (e = .out_of_fuel ∧ (main_progression E lista fuel inp).status = .out_of_fuel)) := by
  cases h : level_loop E lista.length lista 0 fuel ⟨zero_board, 0, inp⟩ with
  | mk T e =>
    cases e with
    | finished =>
      refine ⟨T, _, [Event.terminal_cleanup, Event.close_debug_file], rfl, ?_, Or.inr rfl,
        Or.inl ⟨rfl, ?_⟩⟩ <;> simp [main_progression, h]
    | fault f =>
      refine ⟨T, _, [], rfl, ?_, Or.inl rfl, Or.inr (Or.inl ⟨f, rfl, ?_⟩)⟩ <;>
        simp [main_progression, h]
    | out_of_fuel =>
      refine ⟨T, _, [], rfl, ?_, Or.inl rfl, Or.inr (Or.inr ⟨rfl, ?_⟩)⟩ <;>
        simp [main_progression, h]

/-- The calls around the level loop are not loads, frames, drawings or unloads. -/
theorem main_trace_transfer (T X : List Event)
    (hX : X = [] ∨ X = [Event.terminal_cleanup, Event.close_debug_file]) :
    loads ([Event.terminal_init] ++ T ++ X) = loads T
      ∧ frames ([Event.terminal_init] ++ T ++ X) = frames T
      ∧ loaded_boards ([Event.terminal_init] ++ T ++ X) = loaded_boards T
      ∧ (∀ j, LoadTried ([Event.terminal_init] ++ T ++ X) j ↔ LoadTried T j)
      ∧ (∀ j, LoadedOk ([Event.terminal_init] ++ T ++ X) j ↔ LoadedOk T j)
      ∧ (∀ j, LoadFailed ([Event.terminal_init] ++ T ++ X) j ↔ LoadFailed T j)
      ∧ (∀ j r, Ended ([Event.terminal_init] ++ T ++ X) j r ↔ Ended T j r)
      ∧ (∀ m, Drawn ([Event.terminal_init] ++ T ++ X) m ↔ Drawn T m)
      ∧ (∀ j, Unloaded ([Event.terminal_init] ++ T ++ X) j ↔ Unloaded T j) := by
  have hnil := fun (j : Nat) (r : Int) (m : DrawMode) => trace_nil j r m
  rcases hX with hX | hX <;> subst hX
  · refine ⟨?_, ?_, ?_, fun j => ?_, fun j => ?_, fun j => ?_, fun j r => ?_, fun m => ?_,
      fun j => ?_⟩
    · simp [loads, load_of]
    · simp [frames, frame_of]
    · simp [loaded_boards, loaded_board_of]
    · simp [loadTried_append, loadTried_cons, (hnil j 0 .DRAW_WIN).1]
    · simp [loadedOk_append, loadedOk_cons, (hnil j 0 .DRAW_WIN).2.1]
    · simp [loadFailed_append, loadFailed_cons, (hnil j 0 .DRAW_WIN).2.2.1]
    · simp [ended_append, ended_cons, (hnil j r .DRAW_WIN).2.2.2.1]
    · simp [drawn_append, drawn_cons, (hnil 0 0 m).2.2.2.2.1]
    · simp [unloaded_append, unloaded_cons, (hnil j 0 .DRAW_WIN).2.2.2.2.2]
  · refine ⟨?_, ?_, ?_, fun j => ?_, fun j => ?_, fun j => ?_, fun j r => ?_, fun m => ?_,
      fun j => ?_⟩
    · simp [loads, load_of]
    · simp [frames, frame_of]
    · simp [loaded_boards, loaded_board_of]
    · simp [loadTried_append, loadTried_cons, (hnil j 0 .DRAW_WIN).1]
    · simp [loadedOk_append, loadedOk_cons, (hnil j 0 .DRAW_WIN).2.1]
    · simp [loadFailed_append, loadFailed_cons, (hnil j 0 .DRAW_WIN).2.2.1]
    · simp [ended_append, ended_cons, (hnil j r .DRAW_WIN).2.2.2.1]
    · simp [drawn_append, drawn_cons, (hnil 0 0 m).2.2.2.2.1]
    · simp [unloaded_append, unloaded_cons, (hnil j 0 .DRAW_WIN).2.2.2.2.2]

theorem no_fault_of_exited (r : Run) (code : Int) (h : r.status = .exited code) :
    r.no_fault := by
  intro f hf
  rw [h] at hf
  cases hf

theorem frames_eq_nil (tr : List Event)
    (h : ∀ j b c b1 r, Event.play_board j b c b1 r ∉ tr) : frames tr = [] := by
  simp only [frames, List.filterMap_eq_nil_iff]
  intro e he
  cases e <;> first | rfl | exact absurd he (h _ _ _ _ _)

theorem mem_loaded_boards (tr : List Event) (j : Nat) (nm : String) (b : board_t)
    (h : Event.load_level_filename j nm b 0 ∈ tr) : b ∈ loaded_boards tr := by
  simp only [loaded_boards, List.mem_filterMap]
  exact ⟨_, h, by simp [loaded_board_of]⟩

/-! ## The claims about the level progression -/

/-- C7. In every run of the progression in which each level has at least one
pacman (when it is loaded and after each of its frames), the first frame starts
with 0 points for pacman 0, and the first frame of level `k + 1` starts with the
points pacman 0 had after the last frame of level `k`, whatever points the
loader put in the board. -/
theorem main_points_carried {I : Type} (E : Env I) (lista : List String) (fuel : Nat) (inp : I)
    (hload : ∀ b ∈ loaded_boards (main_progression E lista fuel inp).trace, 0 < b.n_pacmans)
    (hframe : ∀ f ∈ frames (main_progression E lista fuel inp).trace, 0 < f.after.n_pacmans) :
    (∀ pre post j b c b1 r,
        (main_progression E lista fuel inp).trace = pre ++ (Event.play_board j b c b1 r :: post) →
        (∀ j2 b2 c2 b3 r2, Event.play_board j2 b2 c2 b3 r2 ∉ pre) →
        points0 b = some 0)
      ∧ (∀ pre mid post k b c b1 r b2 c2 b3 r2,
        (main_progression E lista fuel inp).trace
          = pre ++ (Event.play_board k b c b1 r
              :: (mid ++ (Event.play_board (k + 1) b2 c2 b3 r2 :: post))) →
        (∀ j4 b4 c4 b5 r4, Event.play_board j4 b4 c4 b5 r4 ∉ mid) →
        ∃ pts, points0 b1 = some pts ∧ points0 b2 = some pts) := by
  obtain ⟨T, e, X, hT, htr, hX, _⟩ := main_progression_cases E lista fuel inp
  obtain ⟨_, t2, t3, _⟩ := main_trace_transfer T X hX
  rw [htr] at hload hframe ⊢
  rw [t3] at hload
  rw [t2] at hframe
  obtain ⟨hchain, hhead⟩ := level_loop_points E lista.length lista 0 fuel _ T e hT
    (fun j nm b hm => hload b (mem_loaded_boards T j nm b hm)) hframe
  rw [← t2] at hchain hhead
  refine ⟨fun pre post j b c b1 r hsplit hpre => ?_,
    fun pre mid post k b c b1 r b2 c2 b3 r2 hsplit hmid => ?_⟩
  · rw [hsplit] at hhead
    have hfr : frames (pre ++ (Event.play_board j b c b1 r :: post))
        = ⟨j, b, b1, r⟩ :: frames post := by
      rw [frames_append, frames_eq_nil pre hpre]
      rfl
    rw [hfr] at hhead
    exact hhead ⟨j, b, b1, r⟩ (by simp)
  · rw [hsplit] at hchain
    have hfr : frames (pre ++ (Event.play_board k b c b1 r
          :: (mid ++ (Event.play_board (k + 1) b2 c2 b3 r2 :: post))))
        = frames pre ++ (⟨k, b, b1, r⟩ :: ⟨k + 1, b2, b3, r2⟩ :: frames post) := by
      have h1 : Event.play_board k b c b1 r
          :: (mid ++ (Event.play_board (k + 1) b2 c2 b3 r2 :: post))
          = [Event.play_board k b c b1 r]
            ++ (mid ++ ([Event.play_board (k + 1) b2 c2 b3 r2] ++ post)) := rfl
      rw [h1, frames_append, frames_append, frames_append, frames_append,
        frames_eq_nil mid hmid]
      rfl
    rw [hfr] at hchain
    exact (List.chain'_cons.mp (List.chain'_append.mp hchain).2.1).1

/-- C8. In every run of the progression that meets no undefined behaviour, the
levels are loaded in list order, each at most once; level `i + 1` is loaded if
and only if level `i` loaded successfully and one of its frames returned
`NEXT_LEVEL`; and once a frame of level `i` returns `QUIT_GAME`, level `i` is
unloaded and no level after `i` is loaded. -/
theorem main_levels_in_order {I : Type} (E : Env I) (lista : List String) (fuel : Nat) (inp : I)
    (hnf : (main_progression E lista fuel inp).no_fault) :
    (∃ k, k ≤ lista.length
        ∧ loads (main_progression E lista fuel inp).trace = (lista.take k).enum)
      ∧ (∀ i, i + 1 < lista.length →
          (LoadTried (main_progression E lista fuel inp).trace (i + 1)
            ↔ LoadedOk (main_progression E lista fuel inp).trace i
              ∧ Ended (main_progression E lista fuel inp).trace i NEXT_LEVEL))
      ∧ (∀ i, Ended (main_progression E lista fuel inp).trace i QUIT_GAME →
          Unloaded (main_progression E lista fuel inp).trace i
            ∧ ∀ j, LoadTried (main_progression E lista fuel inp).trace j → j ≤ i) := by
  obtain ⟨T, e, X, hT, htr, hX, hst⟩ := main_progression_cases E lista fuel inp
  obtain ⟨t1, _, _, t4, t5, _, t7, _, t9⟩ := main_trace_transfer T X hX
  have hnfe : ∀ f, e ≠ .fault f := by
    intro f hf
    rcases hst with ⟨h1, _⟩ | ⟨f1, _, h2⟩ | ⟨h1, _⟩
    · rw [h1] at hf; cases hf
    · exact hnf f1 h2
    · rw [h1] at hf; cases hf
  obtain ⟨a1, _, _, _, a5, _⟩ :=
    level_loop_shape E lista.length lista 0 fuel _ T e (by simp) hT
  obtain ⟨b1, b2, _, _⟩ :=
    level_loop_progress E lista.length lista 0 fuel _ T e (by simp) hT hnfe
  rw [htr]
  refine ⟨?_, fun i hi => ?_, fun i hq => ?_⟩
  · obtain ⟨k, hk, hkl⟩ := a1
    exact ⟨k, hk, by rw [t1, hkl]; rfl⟩
  · rw [t4, t5, t7]
    exact ⟨a5 i (Nat.zero_le _), fun h => b1 i (Nat.zero_le _) hi h.2⟩
  · rw [t7] at hq
    obtain ⟨h1, _, h3⟩ := b2 i hq
    exact ⟨(t9 i).mpr h1, fun j hj => h3 j ((t4 j).mp hj)⟩

/-- C9. In every run of the progression that meets no undefined behaviour, the
victory screen is drawn if and only if a frame of the last level returned
`NEXT_LEVEL`, which requires every level to have loaded and ended with
`NEXT_LEVEL`; the game-over screen is drawn if and only if a frame of some level
returned `QUIT_GAME`; and the two screens are never both drawn. -/
theorem main_victory_or_game_over {I : Type} (E : Env I) (lista : List String) (fuel : Nat)
    (inp : I) (hnf : (main_progression E lista fuel inp).no_fault) :
    (Drawn (main_progression E lista fuel inp).trace .DRAW_WIN
        ↔ Ended (main_progression E lista fuel inp).trace (lista.length - 1) NEXT_LEVEL)
      ∧ (Ended (main_progression E lista fuel inp).trace (lista.length - 1) NEXT_LEVEL →
          ∀ j, j < lista.length →
            LoadedOk (main_progression E lista fuel inp).trace j
              ∧ Ended (main_progression E lista fuel inp).trace j NEXT_LEVEL)
      ∧ (Drawn (main_progression E lista fuel inp).trace .DRAW_GAME_OVER
        ↔ ∃ i, Ended (main_progression E lista fuel inp).trace i QUIT_GAME)
      ∧ ¬ (Drawn (main_progression E lista fuel inp).trace .DRAW_WIN
        ∧ Drawn (main_progression E lista fuel inp).trace .DRAW_GAME_OVER) := by
  obtain ⟨T, e, X, hT, htr, hX, hst⟩ := main_progression_cases E lista fuel inp
  obtain ⟨_, _, _, _, t5, _, t7, t8, _⟩ := main_trace_transfer T X hX
  have hnfe : ∀ f, e ≠ .fault f := by
    intro f hf
    rcases hst with ⟨h1, _⟩ | ⟨f1, _, h2⟩ | ⟨h1, _⟩
    · rw [h1] at hf; cases hf
    · exact hnf f1 h2
    · rw [h1] at hf; cases hf
  obtain ⟨_, _, _, _, _, a6, a7, a8, a9, _⟩ :=
    level_loop_shape E lista.length lista 0 fuel _ T e (by simp) hT
  obtain ⟨_, b2, b3, _⟩ :=
    level_loop_progress E lista.length lista 0 fuel _ T e (by simp) hT hnfe
  rw [htr]
  refine ⟨?_, fun hq j hj => ?_, ?_, ?_⟩
  · rw [t8, t7]
    exact ⟨a6, fun h => (b3 h).1⟩
  · rw [t7] at hq
    rw [t5, t7]
    exact a7 hq j (Nat.zero_le _) hj
  · rw [t8]
    constructor
    · intro h
      obtain ⟨i, hi⟩ := a8 h
      exact ⟨i, (t7 i _).mpr hi⟩
    · rintro ⟨i, hi⟩
      exact (b2 i ((t7 i _).mp hi)).2.1
  · rw [t8, t8]
    exact a9

/-- Witness of C7: two levels played one after the other; the loader puts 50
points in each board, the second level nevertheless starts with the point won
on the first. -/
theorem main_points_carried_witness :
    (∀ pre post j b c b1 r,
        (main_progression demo_env ["a.lvl", "a.lvl"] 5 []).trace
          = pre ++ (Event.play_board j b c b1 r :: post) →
        (∀ j2 b2 c2 b3 r2, Event.play_board j2 b2 c2 b3 r2 ∉ pre) →
        points0 b = some 0)
      ∧ (∀ pre mid post k b c b1 r b2 c2 b3 r2,
        (main_progression demo_env ["a.lvl", "a.lvl"] 5 []).trace
          = pre ++ (Event.play_board k b c b1 r
              :: (mid ++ (Event.play_board (k + 1) b2 c2 b3 r2 :: post))) →
        (∀ j4 b4 c4 b5 r4, Event.play_board j4 b4 c4 b5 r4 ∉ mid) →
        ∃ pts, points0 b1 = some pts ∧ points0 b2 = some pts) :=
  main_points_carried demo_env ["a.lvl", "a.lvl"] 5 [] (by decide) (by decide)

/-- Witness of C8: the first level is cleared, the second is lost, the third is
never loaded. -/
theorem main_levels_in_order_witness :
    (∃ k, k ≤ ["a.lvl", "b.lvl", "c.lvl"].length
        ∧ loads (main_progression demo_env ["a.lvl", "b.lvl", "c.lvl"] 5 []).trace
          = (["a.lvl", "b.lvl", "c.lvl"].take k).enum)
      ∧ (∀ i, i + 1 < ["a.lvl", "b.lvl", "c.lvl"].length →
          (LoadTried (main_progression demo_env ["a.lvl", "b.lvl", "c.lvl"] 5 []).trace (i + 1)
            ↔ LoadedOk (main_progression demo_env ["a.lvl", "b.lvl", "c.lvl"] 5 []).trace i
              ∧ Ended (main_progression demo_env ["a.lvl", "b.lvl", "c.lvl"] 5 []).trace i
                  NEXT_LEVEL))
      ∧ (∀ i, Ended (main_progression demo_env ["a.lvl", "b.lvl", "c.lvl"] 5 []).trace i
            QUIT_GAME →
          Unloaded (main_progression demo_env ["a.lvl", "b.lvl", "c.lvl"] 5 []).trace i
            ∧ ∀ j, LoadTried (main_progression demo_env ["a.lvl", "b.lvl", "c.lvl"] 5 []).trace j →
                j ≤ i) :=
  main_levels_in_order demo_env ["a.lvl", "b.lvl", "c.lvl"] 5 []
    (no_fault_of_exited _ 0 (by decide))

/-- Witness of C9: two levels cleared, the run ends in victory. -/
theorem main_victory_or_game_over_witness :
    (Drawn (main_progression demo_env ["a.lvl", "a.lvl"] 5 []).trace .DRAW_WIN
        ↔ Ended (main_progression demo_env ["a.lvl", "a.lvl"] 5 []).trace
            (["a.lvl", "a.lvl"].length - 1) NEXT_LEVEL)
      ∧ (Ended (main_progression demo_env ["a.lvl", "a.lvl"] 5 []).trace
            (["a.lvl", "a.lvl"].length - 1) NEXT_LEVEL →
          ∀ j, j < ["a.lvl", "a.lvl"].length →
            LoadedOk (main_progression demo_env ["a.lvl", "a.lvl"] 5 []).trace j
              ∧ Ended (main_progression demo_env ["a.lvl", "a.lvl"] 5 []).trace j NEXT_LEVEL)
      ∧ (Drawn (main_progression demo_env ["a.lvl", "a.lvl"] 5 []).trace .DRAW_GAME_OVER
        ↔ ∃ i, Ended (main_progression demo_env ["a.lvl", "a.lvl"] 5 []).trace i QUIT_GAME)
      ∧ ¬ (Drawn (main_progression demo_env ["a.lvl", "a.lvl"] 5 []).trace .DRAW_WIN
        ∧ Drawn (main_progression demo_env ["a.lvl", "a.lvl"] 5 []).trace .DRAW_GAME_OVER) :=
  main_victory_or_game_over demo_env ["a.lvl", "a.lvl"] 5 []
    (no_fault_of_exited _ 0 (by decide))

/-- A load failure in a run of the progression: the run exits with status 0, the
level is neither played nor unloaded, nothing is loaded after it and no final
screen is drawn. -/
theorem main_load_failed_facts {I : Type} (E : Env I) (lista : List String) (fuel : Nat)
    (inp : I) (j : Nat) (hj : LoadFailed (main_progression E lista fuel inp).trace j) :
    (main_progression E lista fuel inp).status = .exited 0
      ∧ ¬ Unloaded (main_progression E lista fuel inp).trace j
      ∧ (∀ r, ¬ Ended (main_progression E lista fuel inp).trace j r)
      ∧ (∀ j1, LoadTried (main_progression E lista fuel inp).trace j1 → j1 ≤ j)
      ∧ ¬ Drawn (main_progression E lista fuel inp).trace .DRAW_WIN
      ∧ ¬ Drawn (main_progression E lista fuel inp).trace .DRAW_GAME_OVER := by
  obtain ⟨T, e, X, hT, htr, hX, hst⟩ := main_progression_cases E lista fuel inp
  obtain ⟨_, _, _, t4, _, t6, t7, t8, t9⟩ := main_trace_transfer T X hX
  rw [htr] at hj ⊢
  obtain ⟨c1, _, c3, c4, c5, c6, c7⟩ :=
    level_loop_load_failed E lista.length lista 0 fuel _ T e (by simp) hT j ((t6 j).mp hj)
  refine ⟨?_, fun h => c3 ((t9 j).mp h), fun r h => c4 r ((t7 j r).mp h),
    fun j1 h => c5 j1 ((t4 j1).mp h), fun h => c6 ((t8 _).mp h), fun h => c7 ((t8 _).mp h)⟩
  rcases hst with ⟨_, h2⟩ | ⟨f1, h1, _⟩ | ⟨h1, _⟩
  · exact h2
  · rw [c1] at h1; cases h1
  · rw [c1] at h1; cases h1

/-- C10 (the code at a failing load). The level `x.lvl` fails to load: the run
of the progression logs the failure, calls no `unload_level`, and exits with
status 0, the status with which the victorious run over `a.lvl` exits too. -/
theorem main_load_failure_exit_status :
    main_progression demo_env ["x.lvl"] 5 []
        = ⟨.exited 0,
            [Event.terminal_init, Event.load_level_filename 0 "x.lvl" zero_board 1,
              Event.debug "Erro ao carregar o nível: x.lvl\n",
              Event.terminal_cleanup, Event.close_debug_file]⟩
      ∧ (main_progression demo_env ["a.lvl"] 5 []).status = .exited 0
      ∧ Event.draw_board
          (demo_move_pacman (demo_board (demo_pacman 8 [⟨'D', 1⟩]) [demo_ghost [⟨'A', 1⟩]])
            0 ⟨'D', 1⟩).1 .DRAW_WIN
          ∈ (main_progression demo_env ["a.lvl"] 5 []).trace := by
  refine ⟨by decide, by decide, by decide⟩

/-! ## Load failures -/

theorem loadTried_iff_mem_loads (tr : List Event) (j : Nat) :
    LoadTried tr j ↔ ∃ nm, (j, nm) ∈ loads tr := by
  simp only [LoadTried, loads, List.mem_filterMap]
  constructor
  · rintro ⟨nm, b, ret, hm⟩
    exact ⟨nm, _, hm, rfl⟩
  · rintro ⟨nm, e, he, hl⟩
    cases e <;> simp [load_of] at hl
    obtain ⟨h1, h2⟩ := hl
    subst h1 h2
    exact ⟨_, _, _, he⟩

/-- C11. When `load_level_filename` reports a failure for level `j`, no frame is
played on that level, the loads of the run are exactly the levels `0, ..., j` of
the list, each loaded once and `j` last (so the file is not loaded again), and
no level after `j` is loaded. -/
theorem main_load_failure_stops {I : Type} (E : Env I) (lista : List String) (fuel : Nat)
    (inp : I) (j : Nat) (hj : LoadFailed (main_progression E lista fuel inp).trace j) :
    (∀ r, ¬ Ended (main_progression E lista fuel inp).trace j r)
      ∧ loads (main_progression E lista fuel inp).trace = (lista.take (j + 1)).enum
      ∧ j < lista.length
      ∧ (∀ j1, LoadTried (main_progression E lista fuel inp).trace j1 → j1 ≤ j) := by
  obtain ⟨T, e, X, hT, htr, hX, _⟩ := main_progression_cases E lista fuel inp
  obtain ⟨t1, _, _, t4, _, t6, t7, _, _⟩ := main_trace_transfer T X hX
  rw [htr] at hj ⊢
  obtain ⟨_, _, _, c4, c5, _, _⟩ :=
    level_loop_load_failed E lista.length lista 0 fuel _ T e (by simp) hT j ((t6 j).mp hj)
  obtain ⟨⟨k, hk, hkl⟩, _⟩ := level_loop_shape E lista.length lista 0 fuel _ T e (by simp) hT
  have hkl2 : loads T = (lista.take k).enum := hkl
  have hjT : LoadTried T j := by
    obtain ⟨nm, b, ret, _, hm⟩ := (t6 j).mp hj
    exact ⟨nm, b, ret, hm⟩
  have hjk : j < k := by
    obtain ⟨nm, hm⟩ := (loadTried_iff_mem_loads T j).mp hjT
    rw [hkl2] at hm
    have := List.fst_lt_of_mem_enum hm
    simp only [List.length_take] at this
    omega
  have hkj : k ≤ j + 1 := by
    by_contra hcon
    have hlt : j + 1 < (lista.take k).length := by
      simp only [List.length_take]
      omega
    have hmem : (j + 1, (lista.take k)[j + 1]) ∈ (lista.take k).enum :=
      List.mk_mem_enum_iff_getElem?.mpr (List.getElem?_eq_getElem hlt)
    rw [← hkl2] at hmem
    have := c5 (j + 1) ((loadTried_iff_mem_loads T (j + 1)).mpr ⟨_, hmem⟩)
    omega
  have hkeq : k = j + 1 := by omega
  refine ⟨fun r h => c4 r ((t7 j r).mp h), ?_, by omega, fun j1 h => c5 j1 ((t4 j1).mp h)⟩
  rw [t1, hkl2, hkeq]

/-- Witness of C11: the second level of three fails to load. -/
theorem main_load_failure_stops_witness :
    (∀ r, ¬ Ended (main_progression demo_env ["a.lvl", "x.lvl", "b.lvl"] 5 []).trace 1 r)
      ∧ loads (main_progression demo_env ["a.lvl", "x.lvl", "b.lvl"] 5 []).trace
          = (["a.lvl", "x.lvl", "b.lvl"].take (1 + 1)).enum
      ∧ 1 < ["a.lvl", "x.lvl", "b.lvl"].length
      ∧ (∀ j1, LoadTried (main_progression demo_env ["a.lvl", "x.lvl", "b.lvl"] 5 []).trace j1 →
          j1 ≤ 1) :=
  main_load_failure_stops demo_env ["a.lvl", "x.lvl", "b.lvl"] 5 [] 1
    ⟨"x.lvl", zero_board, 1, by decide, by decide⟩

/-! ## The command of pacman -/

/-- The C remainder of a non-negative cursor by a positive script length. -/
theorem c_mod_of_nonneg (a b : Int) (ha : 0 ≤ a) (hb : 0 < b) :
    c_mod a b = .ok (a % b) := by
  have hb0 : b ≠ 0 := by omega
  have hb1 : ¬ (a = INT_MIN ∧ b = -1) := by
    rintro ⟨_, h⟩
    omega
  simp only [c_mod, hb0, hb1, if_false]
  rw [Int.tmod_eq_emod ha (by omega)]

theorem index_of_lt {α : Type} (xs : List α) (k : Int) (h0 : 0 ≤ k) (h1 : k < xs.length) :
    ∃ x, index xs k = .ok x ∧ xs[k.toNat]? = some x := by
  have hlt : k.toNat < xs.length := by omega
  refine ⟨xs[k.toNat], ?_, List.getElem?_eq_getElem hlt⟩
  simp [index, h0, List.getElem?_eq_getElem hlt]

/-- The calls of the ghost loop are `move_ghost` calls. -/
theorem ghost_loop_only_ghosts {I : Type} (E : Env I) (room : Nat) (i : Int) (b b2 : board_t)
    (gcalls : List Call) (h : ghost_loop E room i b = .ok (b2, gcalls)) :
    ∀ c ∈ gcalls, ∃ k cmd, c = Call.move_ghost k cmd := by
  induction room generalizing i b b2 gcalls with
  | zero => simp [ghost_loop] at h
  | succ room ih =>
    simp only [ghost_loop] at h
    by_cases hi : i < b.n_ghosts
    · simp only [hi, if_true] at h
      cases hc : ghost_command b i with
      | error f => simp [hc, bind, Except.bind] at h
      | ok cmd =>
        simp only [hc, bind, Except.bind] at h
        cases hr : ghost_loop E room (i + 1) (E.move_ghost b i cmd).1 with
        | error f => simp [hr] at h
        | ok r =>
          obtain ⟨b1, calls⟩ := r
          simp only [hr, pure, Except.pure, Except.ok.injEq, Prod.mk.injEq] at h
          obtain ⟨_, hcalls⟩ := h
          subst hcalls
          intro c hc1
          rcases List.mem_cons.mp hc1 with h1 | h1
          · exact ⟨i, cmd, h1⟩
          · exact ih _ _ b1 calls hr c h1
    · simp only [hi, if_false, pure, Except.pure, Except.ok.injEq, Prod.mk.injEq] at h
      obtain ⟨_, hcalls⟩ := h
      subst hcalls
      intro c hc1
      simp at hc1

/-- The call log of a frame once the command is selected: the key is logged,
then, unless it is the quit command, pacman 0 is moved with it, then the ghosts
are moved; the input source is not touched. -/
theorem resolve_frame_calls {I : Type} (E : Env I) (inp : I) (b : board_t) (play : command_t)
    (calls : List Call) (fr : Frame I) (h : resolve_frame E inp b play calls = .ok fr) :
    fr.input = inp
      ∧ ((play.command = 'Q' ∧ fr.calls = calls ++ [Call.debug_key play.command])
        ∨ (play.command ≠ 'Q' ∧ ∃ gl,
            fr.calls = calls ++ [Call.debug_key play.command, Call.move_pacman 0 play] ++ gl
            ∧ ∀ c ∈ gl, ∃ k cmd, c = Call.move_ghost k cmd)) := by
  simp only [resolve_frame] at h
  by_cases hq : play.command = 'Q'
  · simp only [hq, if_true, Except.ok.injEq] at h
    subst h
    exact ⟨rfl, Or.inl ⟨hq, by simp [hq]⟩⟩
  · simp only [hq, if_false] at h
    by_cases h1 : (E.move_pacman b 0 play).2 = E.REACHED_PORTAL
    · simp only [h1, if_true, Except.ok.injEq] at h
      subst h
      exact ⟨rfl, Or.inr ⟨hq, [], by simp, by simp⟩⟩
    · simp only [h1, if_false] at h
      by_cases h2 : (E.move_pacman b 0 play).2 = E.DEAD_PACMAN
      · simp only [h2, if_true, Except.ok.injEq] at h
        subst h
        exact ⟨rfl, Or.inr ⟨hq, [], by simp, by simp⟩⟩
      · simp only [h2, if_false] at h
        cases hg : move_ghosts E (E.move_pacman b 0 play).1 with
        | error f => simp [hg, bind, Except.bind] at h
        | ok r =>
          obtain ⟨b2, gcalls⟩ := r
          simp only [hg, bind, Except.bind] at h
          have hgl := ghost_loop_only_ghosts E _ 0 _ b2 gcalls hg
          cases hp : index b2.pacmans 0 with
          | error f => simp [hp] at h
          | ok pacman0 =>
            simp only [hp] at h
            by_cases ha : pacman0.alive = 0
            · simp only [ha, if_true, pure, Except.pure, Except.ok.injEq] at h
              subst h
              exact ⟨rfl, Or.inr ⟨hq, gcalls, rfl, hgl⟩⟩
            · simp only [ha, if_false, pure, Except.pure, Except.ok.injEq] at h
              subst h
              exact ⟨rfl, Or.inr ⟨hq, gcalls, rfl, hgl⟩⟩

/-- The selection of a scripted pacman. -/
theorem select_command_scripted {I : Type} (E : Env I) (inp : I) (b : board_t) (p : pacman_t)
    (play : command_t) (hp : index b.pacmans 0 = .ok p) (hn : 0 < p.n_moves)
    (hc : 0 ≤ p.current_move)
    (hplay : index p.moves (p.current_move % p.n_moves) = .ok play) :
    select_command E inp b = .ok ⟨some play, inp, []⟩ := by
  have hn0 : p.n_moves ≠ 0 := by omega
  simp [select_command, hp, hn0, c_mod_of_nonneg _ _ hc hn, hplay, bind, Except.bind, pure,
    Except.pure]

/-- C13. For every board whose pacman 0 has a non-empty script (`n_moves > 0`,
the script holding `n_moves` entries) and a non-negative cursor, the command
`play_board` resolves for pacman is the script entry at index
`current_move mod n_moves`; the input source is not consulted (no `get_input`
call, input state unchanged); and the script loops: the board with the cursor
advanced by `n_moves` selects the same entry. -/
theorem play_board_scripted {I : Type} (E : Env I) (inp : I) (b : board_t) (p : pacman_t)
    (hp : index b.pacmans 0 = .ok p) (hn : 0 < p.n_moves) (hc : 0 ≤ p.current_move)
    (hlen : p.n_moves ≤ p.moves.length) :
    ∃ play, p.moves[(p.current_move % p.n_moves).toNat]? = some play
      ∧ 0 ≤ p.current_move % p.n_moves ∧ p.current_move % p.n_moves < p.n_moves
      ∧ select_command E inp b = .ok ⟨some play, inp, []⟩
      ∧ play_board E inp b = resolve_frame E inp b play []
      ∧ (∀ fr, play_board E inp b = .ok fr →
          fr.input = inp ∧ ∀ key, Call.get_input key ∉ fr.calls)
      ∧ select_command E inp
          (set_pacman0 b (fun q => { q with current_move := q.current_move + q.n_moves }))
          = .ok ⟨some play, inp, []⟩ := by
  have h0 : 0 ≤ p.current_move % p.n_moves := Int.emod_nonneg _ (by omega)
  have h1 : p.current_move % p.n_moves < p.n_moves := Int.emod_lt_of_pos _ hn
  obtain ⟨play, hidx, hget⟩ := index_of_lt p.moves _ h0 (by omega)
  have hsel := select_command_scripted E inp b p play hp hn hc hidx
  have hpb := play_board_of_selection E inp b _ play hsel rfl
  refine ⟨play, hget, h0, h1, hsel, hpb, fun fr hfr => ?_, ?_⟩
  · rw [hpb] at hfr
    obtain ⟨hin, hcalls⟩ := resolve_frame_calls E inp b play [] fr hfr
    refine ⟨hin, fun key hmem => ?_⟩
    rcases hcalls with ⟨_, hc1⟩ | ⟨_, gl, hc1, hgl⟩
    · rw [hc1] at hmem
      simp at hmem
    · rw [hc1] at hmem
      simp only [List.nil_append, List.cons_append, List.mem_cons, reduceCtorEq, false_or]
        at hmem
      obtain ⟨k, cmd, hk⟩ := hgl _ hmem
      cases hk
  · have hp2 := (index_zero _ _).mp hp
    cases hps : b.pacmans with
    | nil => simp [hps] at hp2
    | cons q qs =>
      rw [hps] at hp2
      simp only [List.head?_cons, Option.some.injEq] at hp2
      subst hp2
      apply select_command_scripted E inp _
        { q with current_move := q.current_move + q.n_moves } play
      · simp [set_pacman0, hps, index]
      · exact hn
      · show 0 ≤ q.current_move + q.n_moves
        omega
      · show index q.moves ((q.current_move + q.n_moves) % q.n_moves) = .ok play
        rw [Int.add_emod_self]
        exact hidx

/-- Witness of C13: a script of two entries with the cursor at 3. -/
theorem play_board_scripted_witness :
    ∃ play, [(⟨'W', 1⟩ : command_t), ⟨'D', 2⟩][((3 : Int) % 2).toNat]? = some play
      ∧ 0 ≤ (3 : Int) % 2 ∧ (3 : Int) % 2 < 2
      ∧ select_command demo_env ['A']
          (demo_board ⟨1, 1, 1, 0, [⟨'W', 1⟩, ⟨'D', 2⟩], 3, 2⟩ []) = .ok ⟨some play, ['A'], []⟩
      ∧ play_board demo_env ['A'] (demo_board ⟨1, 1, 1, 0, [⟨'W', 1⟩, ⟨'D', 2⟩], 3, 2⟩ [])
          = resolve_frame demo_env ['A']
              (demo_board ⟨1, 1, 1, 0, [⟨'W', 1⟩, ⟨'D', 2⟩], 3, 2⟩ []) play []
      ∧ (∀ fr, play_board demo_env ['A']
            (demo_board ⟨1, 1, 1, 0, [⟨'W', 1⟩, ⟨'D', 2⟩], 3, 2⟩ []) = .ok fr →
          fr.input = ['A'] ∧ ∀ key, Call.get_input key ∉ fr.calls)
      ∧ select_command demo_env ['A']
          (set_pacman0 (demo_board ⟨1, 1, 1, 0, [⟨'W', 1⟩, ⟨'D', 2⟩], 3, 2⟩ [])
            (fun q => { q with current_move := q.current_move + q.n_moves }))
          = .ok ⟨some play, ['A'], []⟩ :=
  play_board_scripted demo_env ['A'] (demo_board ⟨1, 1, 1, 0, [⟨'W', 1⟩, ⟨'D', 2⟩], 3, 2⟩ [])
    ⟨1, 1, 1, 0, [⟨'W', 1⟩, ⟨'D', 2⟩], 3, 2⟩ (by decide) (by decide) (by decide) (by decide)

/-- On a well-formed board the script command of every ghost in range is read
without fault, at an index within `[0, n_moves)`. -/
theorem ghost_command_ok (b : board_t) (hb : board_ok b) (i : Int) (h0 : 0 ≤ i)
    (h1 : i < b.n_ghosts) :
    ∃ ghost idx cmd, index b.ghosts i = .ok ghost
      ∧ c_mod ghost.current_move ghost.n_moves = .ok idx
      ∧ 0 ≤ idx ∧ idx < ghost.n_moves
      ∧ index ghost.moves idx = .ok cmd ∧ ghost_command b i = .ok cmd := by
  obtain ⟨_, hlen, _, hg⟩ := hb
  obtain ⟨ghost, hgi, _⟩ := index_of_lt b.ghosts i h0 (by omega)
  obtain ⟨hn, hc, hl⟩ := hg i ghost h0 h1 hgi
  have hi0 : 0 ≤ ghost.current_move % ghost.n_moves := Int.emod_nonneg _ (by omega)
  have hi1 : ghost.current_move % ghost.n_moves < ghost.n_moves := Int.emod_lt_of_pos _ hn
  obtain ⟨cmd, hcmd, _⟩ := index_of_lt ghost.moves _ hi0 (by omega)
  refine ⟨ghost, _, cmd, hgi, c_mod_of_nonneg _ _ hc hn, hi0, hi1, hcmd, ?_⟩
  simp [ghost_command, hgi, c_mod_of_nonneg _ _ hc hn, hcmd, bind, Except.bind]

/-- The ghost loop runs to its end on well-formed boards. -/
theorem ghost_loop_total {I : Type} (E : Env I)
    (hmg : ∀ b i c, board_ok b → board_ok (E.move_ghost b i c).1)
    (room : Nat) (i : Int) (b : board_t) (hb : board_ok b) (h0 : 0 ≤ i)
    (hroom : (room : Int) + i = 2147483648) (himax : i ≤ INT_MAX) :
    ∃ b2 gcalls, ghost_loop E room i b = .ok (b2, gcalls) ∧ board_ok b2 := by
  induction room generalizing i b with
  | zero =>
    simp only [INT_MAX] at himax
    simp at hroom
    omega
  | succ room ih =>
    simp only [ghost_loop]
    by_cases hi : i < b.n_ghosts
    · obtain ⟨_, _, cmd, _, _, _, _, _, hcmd⟩ := ghost_command_ok b hb i h0 hi
      obtain ⟨b2, gcalls, hrec, hb2⟩ :=
        ih (i + 1) (E.move_ghost b i cmd).1 (hmg b i cmd hb) (by omega)
          (by push_cast at hroom ⊢; omega) (by have := hb.2.2.1; omega)
      exact ⟨b2, Call.move_ghost i cmd :: gcalls,
        by simp [hi, hcmd, hrec, bind, Except.bind, pure, Except.pure], hb2⟩
    · exact ⟨b, [], by simp [hi, pure, Except.pure], hb⟩

/-- An array read can only fault with an index out of range. -/
theorem index_error {α : Type} (xs : List α) (j : Int) (f : Fault)
    (h : index xs j = .error f) : f = .index_out_of_range := by
  simp only [index] at h
  split at h
  · split at h
    · cases h
    · cases h; rfl
  · cases h; rfl

/-- The remainder faults with a modulo by zero exactly on a zero divisor. -/
theorem c_mod_error (a b : Int) (f : Fault) (h : c_mod a b = .error f) :
    (f = .div_by_zero ∧ b = 0) ∨ (f = .overflow ∧ b ≠ 0) := by
  simp only [c_mod] at h
  split at h
  · cases h
    exact Or.inl ⟨rfl, by assumption⟩
  · split at h
    · cases h
      exact Or.inr ⟨rfl, by assumption⟩
    · cases h

/-- The argument of `move_ghost` faults with a modulo by zero exactly when the
ghost read has `n_moves == 0`. -/
theorem ghost_command_div_by_zero (b : board_t) (i : Int) :
    ghost_command b i = .error .div_by_zero
      ↔ ∃ ghost, index b.ghosts i = .ok ghost ∧ ghost.n_moves = 0 := by
  constructor
  · intro hc
    simp only [ghost_command, bind, Except.bind] at hc
    cases hg : index b.ghosts i with
    | error f1 =>
      simp only [hg, Except.error.injEq] at hc
      subst hc
      have := index_error _ _ _ hg
      cases this
    | ok ghost =>
      simp only [hg] at hc
      refine ⟨ghost, rfl, ?_⟩
      cases hm : c_mod ghost.current_move ghost.n_moves with
      | error f1 =>
        simp only [hm, Except.error.injEq] at hc
        subst hc
        rcases c_mod_error _ _ _ hm with ⟨_, h2⟩ | ⟨h1, _⟩
        · exact h2
        · cases h1
      | ok idx =>
        simp only [hm] at hc
        have := index_error _ _ _ hc
        cases this
  · rintro ⟨ghost, hg, hn⟩
    simp [ghost_command, hg, hn, c_mod, bind, Except.bind]

/-- A modulo by zero in the ghost loop comes from a ghost with `n_moves == 0` in
the board at the head of the iteration that reads it. -/
theorem ghost_loop_div_by_zero {I : Type} (E : Env I) (room : Nat) (i : Int) (b : board_t)
    (h : ghost_loop E room i b = .error .div_by_zero) :
    ∃ (n : Nat) (B : board_t) (ghost : ghost_t), n < room
      ∧ ghost_loop_head E n i b = .ok (some B) ∧ i + n < B.n_ghosts
      ∧ index B.ghosts (i + n) = .ok ghost ∧ ghost.n_moves = 0 := by
  induction room generalizing i b with
  | zero => simp [ghost_loop] at h
  | succ room ih =>
    simp only [ghost_loop] at h
    by_cases hi : i < b.n_ghosts
    · simp only [hi, if_true] at h
      cases hc : ghost_command b i with
      | error f =>
        simp only [hc, bind, Except.bind, Except.error.injEq] at h
        subst h
        obtain ⟨ghost, hg, hn⟩ := (ghost_command_div_by_zero b i).mp hc
        exact ⟨0, b, ghost, Nat.succ_pos _, rfl, by simpa using hi, by simpa using hg, hn⟩
      | ok cmd =>
        simp only [hc, bind, Except.bind] at h
        cases hr : ghost_loop E room (i + 1) (E.move_ghost b i cmd).1 with
        | error f =>
          simp only [hr, Except.error.injEq] at h
          subst h
          obtain ⟨n, B, ghost, hn, hhead, hlt, hg, hz⟩ := ih (i + 1) _ hr
          have hcast : i + ((n + 1 : Nat) : Int) = i + 1 + (n : Int) := by
            push_cast
            omega
          refine ⟨n + 1, B, ghost, Nat.succ_lt_succ hn, ?_, by rw [hcast]; exact hlt,
            by rw [hcast]; exact hg, hz⟩
          simp only [ghost_loop_head, hi, if_true, hc, bind, Except.bind]
          exact hhead
        | ok r => simp [hr, pure, Except.pure] at h
    · simp [hi, pure, Except.pure] at h

/-- A ghost with `n_moves == 0` at the head of an iteration the ghost loop
reaches makes the loop fault with a modulo by zero. -/
theorem ghost_loop_head_div_by_zero {I : Type} (E : Env I) (n : Nat) (room : Nat) (i : Int)
    (b B : board_t) (ghost : ghost_t) (hroom : n < room)
    (hhead : ghost_loop_head E n i b = .ok (some B)) (hlt : i + n < B.n_ghosts)
    (hg : index B.ghosts (i + n) = .ok ghost) (hz : ghost.n_moves = 0) :
    ghost_loop E room i b = .error .div_by_zero := by
  induction n generalizing room i b with
  | zero =>
    simp only [ghost_loop_head, Except.ok.injEq, Option.some.injEq] at hhead
    subst hhead
    simp only [Nat.cast_zero, add_zero] at hlt hg
    have hc := (ghost_command_div_by_zero b i).mpr ⟨ghost, hg, hz⟩
    cases room with
    | zero => omega
    | succ room => simp [ghost_loop, hlt, hc, bind, Except.bind]
  | succ n ih =>
    have hcast : i + ((n + 1 : Nat) : Int) = i + 1 + (n : Int) := by
      push_cast
      omega
    rw [hcast] at hlt hg
    simp only [ghost_loop_head] at hhead
    by_cases hi : i < b.n_ghosts
    · simp only [hi, if_true] at hhead
      cases hc : ghost_command b i with
      | error f => simp [hc, bind, Except.bind] at hhead
      | ok cmd =>
        simp only [hc, bind, Except.bind] at hhead
        cases room with
        | zero => omega
        | succ room =>
          have hr := ih room (i + 1) _ (by omega) hhead hlt hg
          simp [ghost_loop, hi, hc, hr, bind, Except.bind]
    · simp [hi] at hhead

/-- The only way of `play_board` to a modulo by zero: the frame reaches the
ghost loop, and the ghost read at the head of some iteration the loop reaches
has `n_moves == 0` in the board of that moment. -/
theorem play_board_div_by_zero {I : Type} (E : Env I) (inp : I) (b : board_t) :
    play_board E inp b = .error .div_by_zero
      ↔ ∃ (sel : Selection I) (play : command_t) (n : Nat) (B : board_t) (ghost : ghost_t),
        select_command E inp b = .ok sel ∧ sel.play = some play ∧ play.command ≠ 'Q'
          ∧ (E.move_pacman b 0 play).2 ≠ E.REACHED_PORTAL
          ∧ (E.move_pacman b 0 play).2 ≠ E.DEAD_PACMAN
          ∧ n < 2147483648
          ∧ ghost_loop_head E n 0 (E.move_pacman b 0 play).1 = .ok (some B)
          ∧ (n : Int) < B.n_ghosts ∧ index B.ghosts n = .ok ghost ∧ ghost.n_moves = 0 := by
  have hidx : ∀ {α : Type} (xs : List α) (j : Int), index xs j ≠ .error .div_by_zero := by
    intro α xs j hj
    have := index_error _ _ _ hj
    cases this
  constructor
  · intro h
    cases hsel : select_command E inp b with
    | error f =>
      exfalso
      have hf : f = .div_by_zero := by
        simp [play_board, hsel, bind, Except.bind] at h
        exact h
      subst hf
      simp only [select_command, bind, Except.bind] at hsel
      cases hp : index b.pacmans 0 with
      | error f1 =>
        simp only [hp, Except.error.injEq] at hsel
        subst hsel
        exact hidx _ _ hp
      | ok p =>
        simp only [hp] at hsel
        by_cases hn : p.n_moves = 0
        · simp only [hn, if_true] at hsel
          split at hsel <;> cases hsel
        · simp only [hn, if_false] at hsel
          cases hm : c_mod p.current_move p.n_moves with
          | error f1 =>
            simp only [hm, Except.error.injEq] at hsel
            subst hsel
            rcases c_mod_error _ _ _ hm with ⟨_, h2⟩ | ⟨h1, _⟩
            · exact hn h2
            · cases h1
          | ok idx =>
            simp only [hm] at hsel
            cases hi : index p.moves idx with
            | error f1 =>
              simp only [hi, Except.error.injEq] at hsel
              subst hsel
              exact hidx _ _ hi
            | ok play => simp [hi, pure, Except.pure] at hsel
    | ok sel =>
      cases hplay : sel.play with
      | none => simp [play_board, hsel, hplay, bind, Except.bind, pure, Except.pure] at h
      | some play =>
        rw [play_board_of_selection E inp b sel play hsel hplay] at h
        simp only [resolve_frame] at h
        by_cases hq : play.command = 'Q'
        · simp [hq] at h
        · simp only [hq, if_false] at h
          by_cases h1 : (E.move_pacman b 0 play).2 = E.REACHED_PORTAL
          · simp [h1] at h
          · simp only [h1, if_false] at h
            by_cases h2 : (E.move_pacman b 0 play).2 = E.DEAD_PACMAN
            · simp [h2] at h
            · simp only [h2, if_false] at h
              cases hg : move_ghosts E (E.move_pacman b 0 play).1 with
              | error f =>
                simp only [hg, bind, Except.bind, Except.error.injEq] at h
                subst h
                obtain ⟨n, B, ghost, hn, hhead, hlt, hgi, hgn⟩ :=
                  ghost_loop_div_by_zero E _ 0 _ hg
                exact ⟨sel, play, n, B, ghost, rfl, hplay, hq, h1, h2, hn, hhead,
                  by simpa using hlt, by simpa using hgi, hgn⟩
              | ok r =>
                exfalso
                obtain ⟨b2, gcalls⟩ := r
                simp only [hg, bind, Except.bind] at h
                cases hp : index b2.pacmans 0 with
                | error f =>
                  simp only [hp, Except.error.injEq] at h
                  subst h
                  exact hidx _ _ hp
                | ok p0 =>
                  simp only [hp] at h
                  split at h <;> cases h
  · rintro ⟨sel, play, n, B, ghost, hsel, hplay, hq, h1, h2, hn, hhead, hlt, hgi, hgn⟩
    have hg : move_ghosts E (E.move_pacman b 0 play).1 = .error .div_by_zero :=
      ghost_loop_head_div_by_zero E n 2147483648 0 _ B ghost hn hhead (by simpa using hlt)
        (by simpa using hgi) hgn
    rw [play_board_of_selection E inp b sel play hsel hplay]
    simp [resolve_frame, hq, h1, h2, hg, bind, Except.bind]

/-- C17. On every well-formed board (a pacman 0 with `n_moves ≥ 0`, every ghost
with `n_moves > 0`, cursors non-negative, scripts and counts within their
arrays), with moves that keep boards well-formed, `play_board` returns without
reaching an error branch; every script index `current_move mod n_moves` it
computes, for pacman and for every ghost index in range, lies in `[0, n_moves)`
and is read without fault; and on any board, `play_board` reaches a modulo by
zero exactly when the frame reaches the ghost loop and the ghost read at the
head of some iteration `n` the loop reaches has `n_moves == 0` in the board the
moves of pacman and of the ghosts before `n` have left. -/
theorem play_board_total {I : Type} (E : Env I) (inp : I) (b : board_t)
    (hmp : ∀ b i c, board_ok b → board_ok (E.move_pacman b i c).1)
    (hmg : ∀ b i c, board_ok b → board_ok (E.move_ghost b i c).1)
    (hb : board_ok b) :
    (∃ fr, play_board E inp b = .ok fr ∧ board_ok fr.board)
      ∧ (∀ p, index b.pacmans 0 = .ok p → p.n_moves ≠ 0 →
          ∃ idx play, c_mod p.current_move p.n_moves = .ok idx ∧ 0 ≤ idx ∧ idx < p.n_moves
            ∧ index p.moves idx = .ok play)
      ∧ (∀ (B : board_t) (i : Int), board_ok B → 0 ≤ i → i < B.n_ghosts →
          ∃ ghost idx cmd, index B.ghosts i = .ok ghost
            ∧ c_mod ghost.current_move ghost.n_moves = .ok idx
            ∧ 0 ≤ idx ∧ idx < ghost.n_moves ∧ index ghost.moves idx = .ok cmd)
      ∧ (∀ inp1 b1, play_board E inp1 b1 = .error .div_by_zero
          ↔ ∃ (sel : Selection I) (play : command_t) (n : Nat) (B : board_t) (ghost : ghost_t),
            select_command E inp1 b1 = .ok sel ∧ sel.play = some play ∧ play.command ≠ 'Q'
              ∧ (E.move_pacman b1 0 play).2 ≠ E.REACHED_PORTAL
              ∧ (E.move_pacman b1 0 play).2 ≠ E.DEAD_PACMAN
              ∧ n < 2147483648
              ∧ ghost_loop_head E n 0 (E.move_pacman b1 0 play).1 = .ok (some B)
              ∧ (n : Int) < B.n_ghosts ∧ index B.ghosts n = .ok ghost
              ∧ ghost.n_moves = 0) := by
  have hpac : ∀ p, index b.pacmans 0 = .ok p → p.n_moves ≠ 0 →
      ∃ idx play, c_mod p.current_move p.n_moves = .ok idx ∧ 0 ≤ idx ∧ idx < p.n_moves
        ∧ index p.moves idx = .ok play := by
    intro p hp hn
    obtain ⟨⟨p1, hp1, hn1, hc1, hl1⟩, _⟩ := hb
    rw [hp] at hp1
    cases hp1
    have hpos : 0 < p.n_moves := by omega
    have hi0 : 0 ≤ p.current_move % p.n_moves := Int.emod_nonneg _ hn
    have hi1 : p.current_move % p.n_moves < p.n_moves := Int.emod_lt_of_pos _ hpos
    obtain ⟨play, hplay, _⟩ := index_of_lt p.moves _ hi0 (by omega)
    exact ⟨_, play, c_mod_of_nonneg _ _ hc1 hpos, hi0, hi1, hplay⟩
  refine ⟨?_, hpac, ?_, fun inp1 b1 => play_board_div_by_zero E inp1 b1⟩
  · obtain ⟨p, hp, _, _, _⟩ := hb.1
    have hsel : ∃ sel, select_command E inp b = .ok sel := by
      by_cases hn : p.n_moves = 0
      · by_cases hk : (E.get_input inp).1 = NUL
        · simp only [select_command, hp, hn, hk, bind, Except.bind, pure, Except.pure, if_true]
          exact ⟨_, rfl⟩
        · simp only [select_command, hp, hn, hk, bind, Except.bind, pure, Except.pure, if_true,
            if_false]
          exact ⟨_, rfl⟩
      · obtain ⟨idx, play, h1, _, _, h2⟩ := hpac p hp hn
        simp only [select_command, hp, hn, h1, h2, bind, Except.bind, pure, Except.pure,
          if_false]
        exact ⟨_, rfl⟩
    obtain ⟨sel, hsel⟩ := hsel
    cases hplay : sel.play with
    | none =>
      simp only [play_board, hsel, hplay, bind, Except.bind, pure, Except.pure]
      exact ⟨_, rfl, hb⟩
    | some play =>
      rw [play_board_of_selection E inp b sel play hsel hplay]
      simp only [resolve_frame]
      by_cases hq : play.command = 'Q'
      · simp only [hq, if_true]
        exact ⟨_, rfl, hb⟩
      · by_cases h1 : (E.move_pacman b 0 play).2 = E.REACHED_PORTAL
        · simp only [hq, h1, if_true, if_false]
          exact ⟨_, rfl, hmp b 0 play hb⟩
        · by_cases h2 : (E.move_pacman b 0 play).2 = E.DEAD_PACMAN
          · have hne : ¬ E.DEAD_PACMAN = E.REACHED_PORTAL := by
              rw [← h2]
              exact h1
            simp only [hq, h2, hne, if_true, if_false]
            exact ⟨_, rfl, hmp b 0 play hb⟩
          · obtain ⟨b2, gcalls, hg, hb2⟩ := ghost_loop_total E hmg 2147483648 0
              (E.move_pacman b 0 play).1 (hmp b 0 play hb) (le_refl _) (by norm_num)
              (by simp [INT_MAX])
            obtain ⟨p0, hp0, _⟩ := hb2.1
            by_cases ha : p0.alive = 0
            · simp only [hq, h1, h2, move_ghosts, hg, hp0, ha, bind, Except.bind, pure,
                Except.pure, if_true, if_false]
              exact ⟨_, rfl, hb2⟩
            · simp only [hq, h1, h2, move_ghosts, hg, hp0, ha, bind, Except.bind, pure,
                Except.pure, if_false]
              exact ⟨_, rfl, hb2⟩
  · intro B i hB h0 h1
    obtain ⟨ghost, idx, cmd, g1, g2, g3, g4, g5, _⟩ := ghost_command_ok B hB i h0 h1
    exact ⟨ghost, idx, cmd, g1, g2, g3, g4, g5⟩

/-! ## The concrete game keeps boards well-formed -/

theorem set_pacman0_ok (b : board_t) (f : pacman_t → pacman_t)
    (hf : ∀ p, (f p).n_moves = p.n_moves ∧ (f p).moves = p.moves
      ∧ (0 ≤ p.current_move → 0 ≤ (f p).current_move))
    (hb : board_ok b) : board_ok (set_pacman0 b f) := by
  obtain ⟨⟨p, hp, hn, hc, hl⟩, hg⟩ := hb
  have hp2 := (index_zero _ _).mp hp
  cases hps : b.pacmans with
  | nil => simp [hps] at hp2
  | cons q qs =>
    rw [hps] at hp2
    simp only [List.head?_cons, Option.some.injEq] at hp2
    subst hp2
    simp only [set_pacman0, hps]
    obtain ⟨f1, f2, f3⟩ := hf q
    refine ⟨⟨f q, by simp [index], by rw [f1]; exact hn, f3 hc, by rw [f1, f2]; exact hl⟩, hg⟩

theorem demo_move_pacman_ok (b : board_t) (i : Int) (c : command_t) (hb : board_ok b) :
    board_ok (demo_env.move_pacman b i c).1 := by
  have hstep : ∀ p : pacman_t, 0 ≤ p.current_move → 0 ≤ p.current_move + 1 := by
    intro p h
    omega
  simp only [demo_env, demo_move_pacman]
  split
  · exact set_pacman0_ok b _ (fun p => ⟨rfl, rfl, fun h => h⟩) hb
  · split
    · split
      · exact set_pacman0_ok b _ (fun p => ⟨rfl, rfl, hstep p⟩) hb
      · split
        · exact set_pacman0_ok b _ (fun p => ⟨rfl, rfl, hstep p⟩) hb
        · exact set_pacman0_ok b _ (fun p => ⟨rfl, rfl, hstep p⟩) hb
    · exact set_pacman0_ok b _ (fun p => ⟨rfl, rfl, hstep p⟩) hb

theorem demo_ghosts_ok (b : board_t) (idx : Int) (hb : board_ok b) :
    board_ok { b with ghosts := b.ghosts.enum.map (fun (ig : Nat × ghost_t) =>
      if (ig.1 : Int) = idx then { ig.2 with current_move := ig.2.current_move + 1 }
      else ig.2) } := by
  obtain ⟨hp, hlen, hmax, hg⟩ := hb
  refine ⟨hp, by simpa using hlen, hmax, fun i g h0 h1 hi => ?_⟩
  simp only [index, h0, if_true, List.getElem?_map, List.getElem?_enum] at hi
  cases hget : b.ghosts[i.toNat]? with
  | none => simp [hget] at hi
  | some g0 =>
    simp only [hget, Option.map_some', Except.ok.injEq] at hi
    have hidx : index b.ghosts i = .ok g0 := by simp [index, h0, hget]
    obtain ⟨hn, hc, hl⟩ := hg i g0 h0 h1 hidx
    subst hi
    split
    · exact ⟨hn, by show 0 ≤ g0.current_move + 1; omega, hl⟩
    · exact ⟨hn, hc, hl⟩

theorem demo_move_ghost_ok (b : board_t) (i : Int) (c : command_t) (hb : board_ok b) :
    board_ok (demo_env.move_ghost b i c).1 := by
  simp only [demo_env, demo_move_ghost]
  split
  · exact set_pacman0_ok _ _ (fun p => ⟨rfl, rfl, fun h => h⟩) (demo_ghosts_ok b i hb)
  · exact demo_ghosts_ok b i hb

theorem demo_board_ok (p : pacman_t) (ghosts : List ghost_t)
    (hp : 0 ≤ p.n_moves ∧ script_ok p.n_moves p.current_move p.moves)
    (hg : ∀ g ∈ ghosts, 0 < g.n_moves ∧ script_ok g.n_moves g.current_move g.moves)
    (hlen : (ghosts.length : Int) ≤ INT_MAX) : board_ok (demo_board p ghosts) := by
  refine ⟨⟨p, by simp [demo_board, index], hp.1, hp.2⟩, by simp [demo_board], hlen,
    fun i g h0 _ hi => ?_⟩
  apply hg
  simp only [demo_board, index, h0, if_true] at hi
  cases hget : ghosts[i.toNat]? with
  | none => simp [hget] at hi
  | some g0 =>
    simp only [hget, Except.ok.injEq] at hi
    subst hi
    exact List.getElem?_mem hget

/-- Witness of C17: a frame of a level with a scripted pacman and two ghosts
returns; with the script of the second ghost emptied the frame faults with a
modulo by zero, and a ghost with `n_moves == 0` is read at the head of an
iteration the ghost loop reaches. -/
theorem play_board_total_witness :
    (∃ fr, play_board demo_env []
        (demo_board (demo_pacman 1 [⟨'W', 1⟩])
          [demo_ghost [⟨'A', 1⟩], demo_ghost [⟨'S', 2⟩, ⟨'A', 1⟩]]) = .ok fr
      ∧ board_ok fr.board)
      ∧ ∃ (sel : Selection (List Char)) (play : command_t) (n : Nat) (B : board_t)
          (ghost : ghost_t),
          select_command demo_env []
              (demo_board (demo_pacman 1 [⟨'W', 1⟩]) [demo_ghost [⟨'A', 1⟩], demo_ghost []])
            = .ok sel
          ∧ sel.play = some play ∧ play.command ≠ 'Q'
          ∧ (demo_env.move_pacman
              (demo_board (demo_pacman 1 [⟨'W', 1⟩]) [demo_ghost [⟨'A', 1⟩], demo_ghost []])
              0 play).2 ≠ demo_env.REACHED_PORTAL
          ∧ (demo_env.move_pacman
              (demo_board (demo_pacman 1 [⟨'W', 1⟩]) [demo_ghost [⟨'A', 1⟩], demo_ghost []])
              0 play).2 ≠ demo_env.DEAD_PACMAN
          ∧ n < 2147483648
          ∧ ghost_loop_head demo_env n 0
              (demo_env.move_pacman
                (demo_board (demo_pacman 1 [⟨'W', 1⟩]) [demo_ghost [⟨'A', 1⟩], demo_ghost []])
                0 play).1 = .ok (some B)
          ∧ (n : Int) < B.n_ghosts ∧ index B.ghosts n = .ok ghost ∧ ghost.n_moves = 0 :=
  ⟨(play_board_total demo_env []
      (demo_board (demo_pacman 1 [⟨'W', 1⟩])
        [demo_ghost [⟨'A', 1⟩], demo_ghost [⟨'S', 2⟩, ⟨'A', 1⟩]])
      demo_move_pacman_ok demo_move_ghost_ok
      (demo_board_ok _ _ (by simp [demo_pacman, script_ok])
        (by simp [demo_ghost, script_ok]) (by simp [INT_MAX]))).1,
    ((play_board_total demo_env []
      (demo_board (demo_pacman 1 [⟨'W', 1⟩])
        [demo_ghost [⟨'A', 1⟩], demo_ghost [⟨'S', 2⟩, ⟨'A', 1⟩]])
      demo_move_pacman_ok demo_move_ghost_ok
      (demo_board_ok _ _ (by simp [demo_pacman, script_ok])
        (by simp [demo_ghost, script_ok]) (by simp [INT_MAX]))).2.2.2 []
      (demo_board (demo_pacman 1 [⟨'W', 1⟩]) [demo_ghost [⟨'A', 1⟩], demo_ghost []])).mp
      (by decide)⟩

/-! ## Replaying a scripted level -/

/-- The ghost loop depends on the environment through `move_ghost` only. -/
theorem ghost_loop_same_moves {I1 I2 : Type} (E1 : Env I1) (E2 : Env I2)
    (h : E1.move_ghost = E2.move_ghost) (room : Nat) (i : Int) (b : board_t) :
    ghost_loop E1 room i b = ghost_loop E2 room i b := by
  induction room generalizing i b with
  | zero => rfl
  | succ room ih =>
    simp only [ghost_loop]
    split
    · cases hc : ghost_command b i with
      | error f => rfl
      | ok cmd => simp only [bind, Except.bind, h, ih]
    · rfl

/-- A property of boards kept by `move_ghost` is kept by the ghost loop. -/
theorem ghost_loop_preserves {I : Type} (E : Env I) (P : board_t → Prop)
    (hmg : ∀ b i c, P b → P (E.move_ghost b i c).1)
    (room : Nat) (i : Int) (b b2 : board_t) (gcalls : List Call)
    (h : ghost_loop E room i b = .ok (b2, gcalls)) (hb : P b) : P b2 := by
  induction room generalizing i b b2 gcalls with
  | zero => simp [ghost_loop] at h
  | succ room ih =>
    simp only [ghost_loop] at h
    by_cases hi : i < b.n_ghosts
    · simp only [hi, if_true] at h
      cases hc : ghost_command b i with
      | error f => simp [hc, bind, Except.bind] at h
      | ok cmd =>
        simp only [hc, bind, Except.bind] at h
        cases hr : ghost_loop E room (i + 1) (E.move_ghost b i cmd).1 with
        | error f => simp [hr] at h
        | ok r =>
          obtain ⟨b1, calls⟩ := r
          simp only [hr, pure, Except.pure, Except.ok.injEq, Prod.mk.injEq] at h
          obtain ⟨hb1, _⟩ := h
          subst hb1
          exact ih _ _ b1 calls hr (hmg b i cmd hb)
    · simp only [hi, if_false, pure, Except.pure, Except.ok.injEq, Prod.mk.injEq] at h
      obtain ⟨hb1, _⟩ := h
      subst hb1
      exact hb

/-- Once the command is selected, a frame depends on the environment through
the movement rules only. -/
theorem resolve_frame_same_moves {I1 I2 : Type} (E1 : Env I1) (E2 : Env I2)
    (hsame : same_moves E1 E2) (inp1 : I1) (inp2 : I2) (b : board_t) (play : command_t)
    (calls : List Call) :
    (resolve_frame E1 inp1 b play calls).map Frame.outcome
      = (resolve_frame E2 inp2 b play calls).map Frame.outcome := by
  obtain ⟨h1, h2, h3, h4⟩ := hsame
  simp only [resolve_frame, move_ghosts, ghost_loop_same_moves E1 E2 h2, h1, h3, h4]
  split
  · rfl
  · split
    · rfl
    · split
      · rfl
      · cases hg : ghost_loop E2 2147483648 0 (E2.move_pacman b 0 play).1 with
        | error f => rfl
        | ok r =>
          obtain ⟨b2, gcalls⟩ := r
          simp only [bind, Except.bind]
          cases hp : index b2.pacmans 0 with
          | error f => rfl
          | ok p0 =>
            simp only
            split <;> rfl

/-- A property of boards kept by the moves is kept by a frame. -/
theorem play_board_preserves {I : Type} (E : Env I) (P : board_t → Prop)
    (hmp : ∀ b i c, P b → P (E.move_pacman b i c).1)
    (hmg : ∀ b i c, P b → P (E.move_ghost b i c).1)
    (inp : I) (b : board_t) (fr : Frame I) (h : play_board E inp b = .ok fr) (hb : P b) :
    P fr.board := by
  cases hsel : select_command E inp b with
  | error f => simp [play_board, hsel, bind, Except.bind] at h
  | ok sel =>
    cases hplay : sel.play with
    | none =>
      simp only [play_board, hsel, hplay, bind, Except.bind, pure, Except.pure,
        Except.ok.injEq] at h
      subst h
      exact hb
    | some play =>
      rw [play_board_of_selection E inp b sel play hsel hplay] at h
      simp only [resolve_frame] at h
      split at h
      · cases h
        exact hb
      · split at h
        · cases h
          exact hmp b 0 play hb
        · split at h
          · cases h
            exact hmp b 0 play hb
          · cases hg : move_ghosts E (E.move_pacman b 0 play).1 with
            | error f => simp [hg, bind, Except.bind] at h
            | ok r =>
              obtain ⟨b2, gcalls⟩ := r
              have hb2 : P b2 :=
                ghost_loop_preserves E P hmg _ 0 _ b2 gcalls hg (hmp b 0 play hb)
              simp only [hg, bind, Except.bind] at h
              cases hp : index b2.pacmans 0 with
              | error f => simp [hp] at h
              | ok p0 =>
                simp only [hp] at h
                split at h
                · simp only [pure, Except.pure, Except.ok.injEq] at h
                  subst h
                  exact hb2
                · simp only [pure, Except.pure, Except.ok.injEq] at h
                  subst h
                  exact hb2

/-- A frame on a scripted board: its outcome, board and calls do not depend on
the input source, which is neither consulted nor advanced. -/
theorem play_board_same_moves {I1 I2 : Type} (E1 : Env I1) (E2 : Env I2)
    (hsame : same_moves E1 E2) (inp1 : I1) (inp2 : I2) (b : board_t) (hs : scripted b) :
    (play_board E1 inp1 b).map Frame.outcome = (play_board E2 inp2 b).map Frame.outcome
      ∧ ∀ fr, play_board E1 inp1 b = .ok fr →
          fr.input = inp1 ∧ ∀ key, Call.get_input key ∉ fr.calls := by
  obtain ⟨p, hp, hn⟩ := hs
  cases hm : c_mod p.current_move p.n_moves with
  | error f =>
    have e1 : play_board E1 inp1 b = .error f := by
      simp [play_board, select_command, hp, hn, hm, bind, Except.bind]
    have e2 : play_board E2 inp2 b = .error f := by
      simp [play_board, select_command, hp, hn, hm, bind, Except.bind]
    rw [e1, e2]
    exact ⟨rfl, fun fr h => by cases h⟩
  | ok k =>
    cases hi : index p.moves k with
    | error f =>
      have e1 : play_board E1 inp1 b = .error f := by
        simp [play_board, select_command, hp, hn, hm, hi, bind, Except.bind]
      have e2 : play_board E2 inp2 b = .error f := by
        simp [play_board, select_command, hp, hn, hm, hi, bind, Except.bind]
      rw [e1, e2]
      exact ⟨rfl, fun fr h => by cases h⟩
    | ok play =>
      have s1 : select_command E1 inp1 b = .ok ⟨some play, inp1, []⟩ := by
        simp [select_command, hp, hn, hm, hi, bind, Except.bind, pure, Except.pure]
      have s2 : select_command E2 inp2 b = .ok ⟨some play, inp2, []⟩ := by
        simp [select_command, hp, hn, hm, hi, bind, Except.bind, pure, Except.pure]
      rw [play_board_of_selection E1 inp1 b _ play s1 rfl,
        play_board_of_selection E2 inp2 b _ play s2 rfl]
      refine ⟨resolve_frame_same_moves E1 E2 hsame inp1 inp2 b play [], fun fr hfr => ?_⟩
      obtain ⟨hin, hcalls⟩ := resolve_frame_calls E1 inp1 b play [] fr hfr
      refine ⟨hin, fun key hmem => ?_⟩
      rcases hcalls with ⟨_, hc1⟩ | ⟨_, gl, hc1, hgl⟩
      · rw [hc1] at hmem
        simp at hmem
      · rw [hc1] at hmem
        simp only [List.nil_append, List.cons_append, List.mem_cons, reduceCtorEq, false_or]
          at hmem
        obtain ⟨k1, cmd, hk⟩ := hgl _ hmem
        cases hk

theorem same_moves_symm {I1 I2 : Type} (E1 : Env I1) (E2 : Env I2) (h : same_moves E1 E2) :
    same_moves E2 E1 :=
  ⟨h.1.symm, h.2.1.symm, h.2.2.1.symm, h.2.2.2.symm⟩

/-- C15. On a level whose pacman is scripted (and stays so under the moves), the
frame loop run with two environments that have the same movement rules but any
two input sources logs the same events: the same sequence of frames, with the
same boards before and after, the same calls and the same outcomes; it ends the
same way; and no frame consults the input source. -/
theorem frame_loop_replay {I1 I2 : Type} (E1 : Env I1) (E2 : Env I2)
    (hsame : same_moves E1 E2)
    (hmp : ∀ b i c, scripted b → scripted (E1.move_pacman b i c).1)
    (hmg : ∀ b i c, scripted b → scripted (E1.move_ghost b i c).1)
    (i fuel : Nat) (b : board_t) (acc : Int) (inp1 : I1) (inp2 : I2) (hs : scripted b) :
    (frame_loop E1 i fuel ⟨b, acc, inp1⟩).1 = (frame_loop E2 i fuel ⟨b, acc, inp2⟩).1
      ∧ (frame_loop E1 i fuel ⟨b, acc, inp1⟩).2.forget
          = (frame_loop E2 i fuel ⟨b, acc, inp2⟩).2.forget
      ∧ (∀ j b0 c b1 r, Event.play_board j b0 c b1 r ∈ (frame_loop E1 i fuel ⟨b, acc, inp1⟩).1 →
          ∀ key, Call.get_input key ∉ c) := by
  induction fuel generalizing b acc with
  | zero =>
    refine ⟨rfl, rfl, fun j b0 c b1 r hm => ?_⟩
    simp [frame_loop] at hm
  | succ fuel ih =>
    obtain ⟨hout, hin1⟩ := play_board_same_moves E1 E2 hsame inp1 inp2 b hs
    obtain ⟨_, hin2⟩ := play_board_same_moves E2 E1 (same_moves_symm E1 E2 hsame) inp2 inp1 b hs
    cases hp1 : play_board E1 inp1 b with
    | error f =>
      cases hp2 : play_board E2 inp2 b with
      | error f2 =>
        rw [hp1, hp2] at hout
        simp only [Except.map, Except.error.injEq] at hout
        subst hout
        refine ⟨by simp [frame_loop, hp1, hp2],
          by simp [frame_loop, hp1, hp2, FrameExit.forget], ?_⟩
        intro j b0 c b1 r hm
        simp [frame_loop, hp1] at hm
      | ok fr2 =>
        rw [hp1, hp2] at hout
        simp [Except.map] at hout
    | ok fr1 =>
      cases hp2 : play_board E2 inp2 b with
      | error f2 =>
        rw [hp1, hp2] at hout
        simp [Except.map] at hout
      | ok fr2 =>
        rw [hp1, hp2] at hout
        simp only [Except.map, Except.ok.injEq, Frame.outcome, Prod.mk.injEq] at hout
        obtain ⟨hr, hbd, hcl⟩ := hout
        obtain ⟨hi1, hno⟩ := hin1 fr1 hp1
        obtain ⟨hi2, _⟩ := hin2 fr2 hp2
        have hsb : scripted fr1.board :=
          play_board_preserves E1 scripted hmp hmg inp1 b fr1 hp1 hs
        simp only [frame_loop, hp1, hp2]
        rw [← hr, ← hbd, ← hcl]
        cases hu : update_points fr1.board acc with
        | error f =>
          refine ⟨rfl, rfl, fun j b0 c b1 r hm => ?_⟩
          simp only [List.mem_singleton, Event.play_board.injEq] at hm
          obtain ⟨_, _, h3, _, _⟩ := hm
          subst h3
          exact hno
        | ok acc1 =>
          simp only
          by_cases hres : fr1.result = NEXT_LEVEL ∨ fr1.result = QUIT_GAME
          · rw [if_pos hres, if_pos hres]
            refine ⟨rfl, rfl, fun j b0 c b1 r hm => ?_⟩
            simp only [List.mem_singleton, Event.play_board.injEq] at hm
            obtain ⟨_, _, h3, _, _⟩ := hm
            subst h3
            exact hno
          · simp only [hres, if_false]
            rw [hi1, hi2]
            obtain ⟨a1, a2, a3⟩ := ih fr1.board acc1 hsb
            refine ⟨by rw [a1], a2, fun j b0 c b1 r hm => ?_⟩
            simp only [List.mem_cons, Event.play_board.injEq, List.mem_append] at hm
            rcases hm with hm | hm | hm
            · obtain ⟨_, _, h3, _, _⟩ := hm
              subst h3
              exact hno
            · rcases screen_refresh_events _ _ _ hm with h1 | h1 | h1 | h1 <;> cases h1
            · exact a3 j b0 c b1 r hm

theorem set_pacman0_scripted (b : board_t) (f : pacman_t → pacman_t)
    (hf : ∀ p, (f p).n_moves = p.n_moves) (hb : scripted b) : scripted (set_pacman0 b f) := by
  obtain ⟨p, hp, hn⟩ := hb
  have hp2 := (index_zero _ _).mp hp
  cases hps : b.pacmans with
  | nil => simp [hps] at hp2
  | cons q qs =>
    rw [hps] at hp2
    simp only [List.head?_cons, Option.some.injEq] at hp2
    subst hp2
    simp only [set_pacman0, hps]
    exact ⟨f q, by simp [index], by rw [hf q]; exact hn⟩

theorem demo_move_pacman_scripted (b : board_t) (i : Int) (c : command_t) (hb : scripted b) :
    scripted (demo_env.move_pacman b i c).1 := by
  simp only [demo_env, demo_move_pacman]
  split
  · exact set_pacman0_scripted b _ (fun _ => rfl) hb
  · split
    · split
      · exact set_pacman0_scripted b _ (fun _ => rfl) hb
      · split
        · exact set_pacman0_scripted b _ (fun _ => rfl) hb
        · exact set_pacman0_scripted b _ (fun _ => rfl) hb
    · exact set_pacman0_scripted b _ (fun _ => rfl) hb

theorem demo_move_ghost_scripted (b : board_t) (i : Int) (c : command_t) (hb : scripted b) :
    scripted (demo_env.move_ghost b i c).1 := by
  simp only [demo_env, demo_move_ghost]
  split
  · exact set_pacman0_scripted _ _ (fun _ => rfl) hb
  · exact hb

/-- Witness of C15: a scripted level replayed with the keys `X`, `Q` waiting in
the input source, and with the input source that always answers `Q`. -/
theorem frame_loop_replay_witness :
    (frame_loop demo_env 0 5
        ⟨demo_board (demo_pacman 1 [⟨'W', 1⟩, ⟨'D', 1⟩]) [demo_ghost [⟨'A', 1⟩, ⟨'K', 1⟩]],
          0, ['X', 'Q']⟩).1
      = (frame_loop demo_env_quit 0 5
        ⟨demo_board (demo_pacman 1 [⟨'W', 1⟩, ⟨'D', 1⟩]) [demo_ghost [⟨'A', 1⟩, ⟨'K', 1⟩]],
          0, 7⟩).1
      ∧ (frame_loop demo_env 0 5
        ⟨demo_board (demo_pacman 1 [⟨'W', 1⟩, ⟨'D', 1⟩]) [demo_ghost [⟨'A', 1⟩, ⟨'K', 1⟩]],
          0, ['X', 'Q']⟩).2.forget
      = (frame_loop demo_env_quit 0 5
        ⟨demo_board (demo_pacman 1 [⟨'W', 1⟩, ⟨'D', 1⟩]) [demo_ghost [⟨'A', 1⟩, ⟨'K', 1⟩]],
          0, 7⟩).2.forget
      ∧ (∀ j b0 c b1 r, Event.play_board j b0 c b1 r ∈ (frame_loop demo_env 0 5
          ⟨demo_board (demo_pacman 1 [⟨'W', 1⟩, ⟨'D', 1⟩]) [demo_ghost [⟨'A', 1⟩, ⟨'K', 1⟩]],
            0, ['X', 'Q']⟩).1 →
          ∀ key, Call.get_input key ∉ c) :=
  frame_loop_replay demo_env demo_env_quit
    ⟨rfl, rfl, rfl, rfl⟩ demo_move_pacman_scripted demo_move_ghost_scripted 0 5
    (demo_board (demo_pacman 1 [⟨'W', 1⟩, ⟨'D', 1⟩]) [demo_ghost [⟨'A', 1⟩, ⟨'K', 1⟩]])
    0 ['X', 'Q'] 7 ⟨demo_pacman 1 [⟨'W', 1⟩, ⟨'D', 1⟩], by decide, by decide⟩

/-! ## Unloading -/

/-- The frame that ends the frame loop leaves the board the loop is left with. -/
theorem frame_loop_done_board {I : Type} (E : Env I) (i fuel : Nat) (s : MainState I)
    (evs : List Event) (r : Int) (fuel1 : Nat) (s1 : MainState I)
    (h : frame_loop E i fuel s = (evs, .done r fuel1 s1)) :
    ∃ b0 c, Event.play_board i b0 c s1.game_board r ∈ evs := by
  induction fuel generalizing s evs with
  | zero => simp [frame_loop] at h
  | succ fuel ih =>
    rcases frame_loop_succ E i fuel s evs _ h with
      ⟨f, _, _, hex⟩ | ⟨fr, f, _, _, _, hex⟩ | ⟨fr, acc, _, _, _, hevs, hex⟩
      | ⟨fr, acc, evs1, _, _, _, hrec, hevs⟩
    · cases hex
    · cases hex
    · cases hex
      subst hevs
      exact ⟨_, _, List.mem_singleton.mpr rfl⟩
    · obtain ⟨b0, c, hm⟩ := ih _ evs1 hrec
      subst hevs
      exact ⟨b0, c, List.mem_cons_of_mem _ (List.mem_append_right _ hm)⟩

theorem level_event_of_frame_loop {I : Type} (E : Env I) (i fuel : Nat) (s : MainState I)
    (evs : List Event) (ex : FrameExit I) (h : frame_loop E i fuel s = (evs, ex))
    (e : Event) (he : e ∈ evs) : level_event i e := by
  rcases frame_loop_events E i fuel s evs ex h e he with
    ⟨b, c, b1, r, h1⟩ | h1 | ⟨b, h1⟩ | h1 | ⟨ms, h1⟩
  · exact Or.inr (Or.inl ⟨b, c, b1, r, h1⟩)
  · exact Or.inr (Or.inr (Or.inl ⟨_, h1⟩))
  · exact Or.inr (Or.inr (Or.inr (Or.inl ⟨b, _, h1⟩)))
  · exact Or.inr (Or.inr (Or.inr (Or.inr (Or.inl h1))))
  · exact Or.inr (Or.inr (Or.inr (Or.inr (Or.inr ⟨ms, h1⟩))))

theorem level_event_of_screen_refresh (i : Nat) (b : board_t) (mode : DrawMode) (e : Event)
    (he : e ∈ screen_refresh b mode) : level_event i e := by
  rcases screen_refresh_events b mode e he with h1 | h1 | h1 | h1
  · exact Or.inr (Or.inr (Or.inl ⟨_, h1⟩))
  · exact Or.inr (Or.inr (Or.inr (Or.inl ⟨b, _, h1⟩)))
  · exact Or.inr (Or.inr (Or.inr (Or.inr (Or.inl h1))))
  · exact Or.inr (Or.inr (Or.inr (Or.inr (Or.inr ⟨_, h1⟩))))

/-- The events of one iteration of the level loop: events of the level, then at
most one unload, of the board left by the frame that ended the level. -/
theorem level_body_split {I : Type} (E : Env I) (n i : Nat) (name : String) (fuel : Nat)
    (s : MainState I) (evs : List Event) (ctl : Control I)
    (h : level_body E n i name fuel s = (evs, ctl)) :
    ∃ A U, evs = A ++ U ∧ (∀ e ∈ A, level_event i e)
      ∧ (U = [] ∨ ∃ b, U = [Event.unload_level i b]
          ∧ ∃ b0 c r, Event.play_board i b0 c b r ∈ A ∧ (r = NEXT_LEVEL ∨ r = QUIT_GAME)) := by
  have hload : ∀ b ret, level_event i (Event.load_level_filename i name b ret) :=
    fun b ret => Or.inl ⟨_, _, _, rfl⟩
  have hdebug : ∀ msg, level_event i (Event.debug msg) :=
    fun msg => Or.inr (Or.inr (Or.inl ⟨_, rfl⟩))
  have hdraw : ∀ b m, level_event i (Event.draw_board b m) :=
    fun b m => Or.inr (Or.inr (Or.inr (Or.inl ⟨_, _, rfl⟩)))
  have hrefresh : level_event i Event.refresh_screen :=
    Or.inr (Or.inr (Or.inr (Or.inr (Or.inl rfl))))
  have hsleep : ∀ ms, level_event i (Event.sleep_ms ms) :=
    fun ms => Or.inr (Or.inr (Or.inr (Or.inr (Or.inr ⟨_, rfl⟩))))
  rcases level_body_cases E n i name fuel s evs ctl h with
    ⟨_, hevs, _⟩ | ⟨_, f, _, hevs, _⟩ | ⟨_, b, fevs, ex, _, hf, hc⟩
  · refine ⟨evs, [], by simp, fun e he => ?_, Or.inl rfl⟩
    subst hevs
    simp only [List.mem_cons, List.mem_singleton, List.not_mem_nil, or_false] at he
    rcases he with he | he <;> subst he
    · exact hload _ _
    · exact hdebug _
  · refine ⟨evs, [], by simp, fun e he => ?_, Or.inl rfl⟩
    subst hevs
    simp only [List.mem_singleton] at he
    subst he
    exact hload _ _
  · have hfe := level_event_of_frame_loop E i fuel _ fevs ex hf
    have hpre : ∀ e ∈ [Event.load_level_filename i name
        (E.load_level_filename s.game_board name).1 0,
        Event.draw_board b .DRAW_MENU, Event.refresh_screen] ++ fevs, level_event i e := by
      intro e he
      simp only [List.cons_append, List.nil_append, List.mem_cons] at he
      rcases he with he | he | he | he
      · subst he; exact hload _ _
      · subst he; exact hdraw _ _
      · subst he; exact hrefresh
      · exact hfe e he
    rcases hc with ⟨f, _, _, hevs⟩ | ⟨_, _, hevs⟩ | ⟨fuel1, s1, hex, _, hevs⟩
      | ⟨fuel1, s1, hex, _, _, hevs⟩ | ⟨fuel1, s1, hex, _, _, hevs⟩
    · exact ⟨evs, [], by simp, by rw [hevs]; exact hpre, Or.inl rfl⟩
    · exact ⟨evs, [], by simp, by rw [hevs]; exact hpre, Or.inl rfl⟩
    · subst hex
      obtain ⟨b0, c, hm⟩ := frame_loop_done_board E i fuel _ fevs _ _ _ hf
      refine ⟨[Event.load_level_filename i name (E.load_level_filename s.game_board name).1 0,
          Event.draw_board b .DRAW_MENU, Event.refresh_screen] ++ fevs
          ++ screen_refresh s1.game_board .DRAW_GAME_OVER ++ [Event.sleep_ms 2000],
        [Event.unload_level i s1.game_board], by rw [hevs]; simp, fun e he => ?_,
        Or.inr ⟨_, rfl, b0, c, QUIT_GAME, by simp [hm], Or.inr rfl⟩⟩
      rcases List.mem_append.mp he with he | he
      · rcases List.mem_append.mp he with he | he
        · exact hpre e he
        · exact level_event_of_screen_refresh i _ _ e he
      · simp only [List.mem_singleton] at he
        subst he
        exact hsleep _
    · subst hex
      obtain ⟨b0, c, hm⟩ := frame_loop_done_board E i fuel _ fevs _ _ _ hf
      refine ⟨[Event.load_level_filename i name (E.load_level_filename s.game_board name).1 0,
          Event.draw_board b .DRAW_MENU, Event.refresh_screen] ++ fevs
          ++ screen_refresh s1.game_board .DRAW_WIN ++ [Event.sleep_ms 2000],
        [Event.unload_level i s1.game_board], by rw [hevs]; simp, fun e he => ?_,
        Or.inr ⟨_, rfl, b0, c, NEXT_LEVEL, by simp [hm], Or.inl rfl⟩⟩
      rcases List.mem_append.mp he with he | he
      · rcases List.mem_append.mp he with he | he
        · exact hpre e he
        · exact level_event_of_screen_refresh i _ _ e he
      · simp only [List.mem_singleton] at he
        subst he
        exact hsleep _
    · subst hex
      obtain ⟨b0, c, hm⟩ := frame_loop_done_board E i fuel _ fevs _ _ _ hf
      exact ⟨[Event.load_level_filename i name (E.load_level_filename s.game_board name).1 0,
          Event.draw_board b .DRAW_MENU, Event.refresh_screen] ++ fevs,
        [Event.unload_level i s1.game_board], hevs, hpre,
        Or.inr ⟨_, rfl, b0, c, NEXT_LEVEL, by simp [hm], Or.inl rfl⟩⟩

/-- Events of level `i`, its unload included, come in the right order before
those of a later level `j`. -/
theorem unload_order_cross (i j : Nat) (hij : i < j) (a b : Event)
    (ha : level_event i a ∨ ∃ x, a = Event.unload_level i x)
    (hb : level_event j b ∨ ∃ x, b = Event.unload_level j x) : unload_order a b := by
  refine ⟨fun j0 b0 h0 => ?_, fun j0 b0 h0 => ?_⟩
  · subst h0
    have hj0 : j0 = i := by
      rcases ha with ha | ⟨x, ha⟩
      · rcases ha with ⟨_, _, _, h⟩ | ⟨_, _, _, _, h⟩ | ⟨_, h⟩ | ⟨_, _, h⟩ | h | ⟨_, h⟩ <;>
          cases h
      · cases ha; rfl
    subst hj0
    refine ⟨fun b1 c b2 r hb1 => ?_, fun b1 hb1 => ?_, fun j1 nm b1 ret hb1 => ?_⟩
    · subst hb1
      rcases hb with hb | ⟨x, hb⟩
      · rcases hb with ⟨_, _, _, h⟩ | ⟨_, _, _, _, h⟩ | ⟨_, h⟩ | ⟨_, _, h⟩ | h | ⟨_, h⟩ <;>
          cases h
        omega
      · cases hb
    · subst hb1
      rcases hb with hb | ⟨x, hb⟩
      · rcases hb with ⟨_, _, _, h⟩ | ⟨_, _, _, _, h⟩ | ⟨_, h⟩ | ⟨_, _, h⟩ | h | ⟨_, h⟩ <;>
          cases h
      · cases hb
        omega
    · subst hb1
      rcases hb with hb | ⟨x, hb⟩
      · rcases hb with ⟨_, _, _, h⟩ | ⟨_, _, _, _, h⟩ | ⟨_, h⟩ | ⟨_, _, h⟩ | h | ⟨_, h⟩ <;>
          cases h
        exact hij
      · cases hb
  · subst h0
    have hj0 : j0 = j := by
      rcases hb with hb | ⟨x, hb⟩
      · rcases hb with ⟨_, _, _, h⟩ | ⟨_, _, _, _, h⟩ | ⟨_, h⟩ | ⟨_, _, h⟩ | h | ⟨_, h⟩ <;>
          cases h
      · cases hb; rfl
    subst hj0
    refine ⟨fun j1 nm b1 ret ha1 => ?_, fun ha1 => ?_, fun ha1 => ?_⟩
    · subst ha1
      rcases ha with ha | ⟨x, ha⟩
      · rcases ha with ⟨_, _, _, h⟩ | ⟨_, _, _, _, h⟩ | ⟨_, h⟩ | ⟨_, _, h⟩ | h | ⟨_, h⟩ <;>
          cases h
        omega
      · cases ha
    · subst ha1
      rcases ha with ha | ⟨x, ha⟩
      · rcases ha with ⟨_, _, _, h⟩ | ⟨_, _, _, _, h⟩ | ⟨_, h⟩ | ⟨_, _, h⟩ | h | ⟨_, h⟩ <;>
          cases h
      · cases ha
    · subst ha1
      rcases ha with ha | ⟨x, ha⟩
      · rcases ha with ⟨_, _, _, h⟩ | ⟨_, _, _, _, h⟩ | ⟨_, h⟩ | ⟨_, _, h⟩ | h | ⟨_, h⟩ <;>
          cases h
      · cases ha

/-- Within one level: the events of the level come in the right order before
its unload, and among themselves. -/
theorem unload_order_level (i : Nat) (a b : Event) (ha : level_event i a)
    (hb : level_event i b ∨ ∃ x, b = Event.unload_level i x) : unload_order a b := by
  refine ⟨fun j0 b0 h0 => ?_, fun j0 b0 h0 => ?_⟩
  · subst h0
    rcases ha with ⟨_, _, _, h⟩ | ⟨_, _, _, _, h⟩ | ⟨_, h⟩ | ⟨_, _, h⟩ | h | ⟨_, h⟩ <;> cases h
  · subst h0
    have hj0 : j0 = i := by
      rcases hb with hb | ⟨x, hb⟩
      · rcases hb with ⟨_, _, _, h⟩ | ⟨_, _, _, _, h⟩ | ⟨_, h⟩ | ⟨_, _, h⟩ | h | ⟨_, h⟩ <;>
          cases h
      · cases hb; rfl
    subst hj0
    refine ⟨fun j1 nm b1 ret ha1 => ?_, fun ha1 => ?_, fun ha1 => ?_⟩
    · subst ha1
      rcases ha with ⟨_, _, _, h⟩ | ⟨_, _, _, _, h⟩ | ⟨_, h⟩ | ⟨_, _, h⟩ | h | ⟨_, h⟩ <;>
        cases h
      exact le_refl _
    · subst ha1
      rcases ha with ⟨_, _, _, h⟩ | ⟨_, _, _, _, h⟩ | ⟨_, h⟩ | ⟨_, _, h⟩ | h | ⟨_, h⟩ <;>
        cases h
    · subst ha1
      rcases ha with ⟨_, _, _, h⟩ | ⟨_, _, _, _, h⟩ | ⟨_, h⟩ | ⟨_, _, h⟩ | h | ⟨_, h⟩ <;>
        cases h

/-- The events of one iteration of the level loop are in the right order. -/
theorem level_body_pairwise {I : Type} (E : Env I) (n i : Nat) (name : String) (fuel : Nat)
    (s : MainState I) (evs : List Event) (ctl : Control I)
    (h : level_body E n i name fuel s = (evs, ctl)) :
    List.Pairwise unload_order evs
      ∧ (∀ e ∈ evs, level_event i e ∨ ∃ x, e = Event.unload_level i x)
      ∧ (∀ j b, Event.unload_level j b ∈ evs →
          ∃ b0 c r, Event.play_board j b0 c b r ∈ evs ∧ (r = NEXT_LEVEL ∨ r = QUIT_GAME)) := by
  obtain ⟨A, U, hevs, hA, hU⟩ := level_body_split E n i name fuel s evs ctl h
  have hAA : List.Pairwise unload_order A :=
    List.pairwise_of_forall_mem_list
      (fun a ha b hb => unload_order_level i a b (hA a ha) (Or.inl (hA b hb)))
  have hnoU : ∀ j b, Event.unload_level j b ∉ A := by
    intro j b hm
    rcases hA _ hm with ⟨_, _, _, h⟩ | ⟨_, _, _, _, h⟩ | ⟨_, h⟩ | ⟨_, _, h⟩ | h | ⟨_, h⟩ <;>
      cases h
  subst hevs
  rcases hU with hU | ⟨b, hU, b0, c, r, hm, hr⟩
  · subst hU
    simp only [List.append_nil]
    exact ⟨hAA, fun e he => Or.inl (hA e he), fun j b hm => absurd hm (hnoU j b)⟩
  · subst hU
    refine ⟨List.pairwise_append.mpr ⟨hAA, List.pairwise_singleton _ _, fun a ha e he => ?_⟩,
      fun e he => ?_, fun j b1 hm1 => ?_⟩
    · simp only [List.mem_singleton] at he
      subst he
      exact unload_order_level i a _ (hA a ha) (Or.inr ⟨_, rfl⟩)
    · rcases List.mem_append.mp he with he | he
      · exact Or.inl (hA e he)
      · simp only [List.mem_singleton] at he
        exact Or.inr ⟨_, he⟩
    · rcases List.mem_append.mp hm1 with hm1 | hm1
      · exact absurd hm1 (hnoU j b1)
      · simp only [List.mem_singleton, Event.unload_level.injEq] at hm1
        obtain ⟨h1, h2⟩ := hm1
        subst h1 h2
        exact ⟨b0, c, r, List.mem_append_left _ hm, hr⟩

/-- The events of the level loop are in the right order, and every unload is of
the board left by a frame that ended its level. -/
theorem level_loop_pairwise {I : Type} (E : Env I) (n : Nat) (rest : List String) :
    ∀ (i fuel : Nat) (s : MainState I) (T : List Event) (e : LoopEnd),
      level_loop E n rest i fuel s = (T, e) →
      List.Pairwise unload_order T
        ∧ (∀ ev ∈ T, ∃ j, i ≤ j ∧ (level_event j ev ∨ ∃ x, ev = Event.unload_level j x))
        ∧ (∀ j b, Event.unload_level j b ∈ T →
            ∃ b0 c r, Event.play_board j b0 c b r ∈ T ∧ (r = NEXT_LEVEL ∨ r = QUIT_GAME)) := by
  induction rest with
  | nil =>
    intro i fuel s T e h
    simp only [level_loop, Prod.mk.injEq] at h
    obtain ⟨hT, _⟩ := h
    subst hT
    exact ⟨List.Pairwise.nil, by simp, by simp⟩
  | cons name rest ih =>
    intro i fuel s T e h
    obtain ⟨evs, ctl, hb, hcase⟩ := level_loop_cons E n name rest i fuel s T e h
    obtain ⟨p1, p2, p3⟩ := level_body_pairwise E n i name fuel s evs ctl hb
    rcases hcase with ⟨hT, _⟩ | ⟨fuel1, s1, T1, _, hrec, hT⟩
    · subst hT
      exact ⟨p1, fun ev hev => ⟨i, le_refl _, p2 ev hev⟩, p3⟩
    · subst hT
      obtain ⟨q1, q2, q3⟩ := ih (i + 1) fuel1 s1 T1 e hrec
      refine ⟨List.pairwise_append.mpr ⟨p1, q1, fun a ha b hb1 => ?_⟩, fun ev hev => ?_,
        fun j b hm => ?_⟩
      · obtain ⟨j, hj, hbj⟩ := q2 b hb1
        exact unload_order_cross i j (by omega) a b (p2 a ha) hbj
      · rcases List.mem_append.mp hev with hev | hev
        · exact ⟨i, le_refl _, p2 ev hev⟩
        · obtain ⟨j, hj, hbj⟩ := q2 ev hev
          exact ⟨j, by omega, hbj⟩
      · rcases List.mem_append.mp hm with hm | hm
        · obtain ⟨b0, c, r, h1, h2⟩ := p3 j b hm
          exact ⟨b0, c, r, List.mem_append_left _ h1, h2⟩
        · obtain ⟨b0, c, r, h1, h2⟩ := q3 j b hm
          exact ⟨b0, c, r, List.mem_append_right _ h1, h2⟩

/-- When the level loop is left, every level that loaded has been unloaded, and
so has the level on which a final screen was drawn. -/
theorem level_loop_unloaded {I : Type} (E : Env I) (n : Nat) (rest : List String) :
    ∀ (i fuel : Nat) (s : MainState I) (T : List Event) (e : LoopEnd),
      i + rest.length = n → level_loop E n rest i fuel s = (T, e) →
      (e = .finished → ∀ j, LoadedOk T j → Unloaded T j)
        ∧ (Drawn T .DRAW_WIN → Unloaded T (n - 1))
        ∧ (Drawn T .DRAW_GAME_OVER → ∃ j, Ended T j QUIT_GAME ∧ Unloaded T j) := by
  induction rest with
  | nil =>
    intro i fuel s T e _ h
    simp only [level_loop, Prod.mk.injEq] at h
    obtain ⟨hT, _⟩ := h
    subst hT
    have hnil := fun (j : Nat) (r : Int) (m : DrawMode) => trace_nil j r m
    exact ⟨fun _ j hj => absurd hj (hnil j 0 .DRAW_WIN).2.1,
      fun hj => absurd hj (hnil 0 0 .DRAW_WIN).2.2.2.2.1,
      fun hj => absurd hj (hnil 0 0 .DRAW_GAME_OVER).2.2.2.2.1⟩
  | cons name rest ih =>
    intro i fuel s T e hlen h
    simp only [List.length_cons] at hlen
    obtain ⟨evs, ctl, hb, hcase⟩ := level_loop_cons E n name rest i fuel s T e h
    obtain ⟨_, hLT, _, _, _⟩ := level_body_facts E n i name fuel s evs ctl hb
    obtain ⟨gW, gO, _, gC, gP, _⟩ := level_body_end_facts E n i name fuel s evs ctl hb
    have hLO : ∀ j, LoadedOk evs j → j = i := by
      rintro j ⟨name1, b, hm⟩
      exact (hLT j).mp ⟨name1, b, 0, hm⟩
    rcases hcase with ⟨hT, hend⟩ | ⟨fuel1, s1, T1, hctl, hrec, hT⟩
    · subst hT
      refine ⟨fun he j hj => ?_, fun hw => ?_, fun hg => ?_⟩
      · have hji := hLO j hj
        subst hji
        have hbrk : ctl = .brk := by
          rcases hend with ⟨h1, _⟩ | ⟨f1, _, h2⟩ | ⟨_, h2⟩
          · exact h1
          · rw [he] at h2; cases h2
          · rw [he] at h2; cases h2
        subst hbrk
        obtain ⟨_, _, _, _, hm⟩ := level_body_facts E n j name fuel s T _ hb
        simp only [LevelFacts] at hm
        rcases hm with ⟨a1, _⟩ | ⟨_, _, _, _, _, _, a7⟩ | ⟨_, _, _, _, _, _, _, a7⟩
        · exact (a1.mp hj).elim
        · exact a7.mpr trivial
        · exact a7.mpr trivial
      · obtain ⟨h1, h2, h3⟩ := gW hw
        have hnf : ∀ f, ctl ≠ .fault f := by
          intro f hf
          rw [h3] at hf
          cases hf
        have : n - 1 = i := by omega
        rw [this]
        exact ((gP hnf).2 h1).1
      · obtain ⟨h1, h3⟩ := gO hg
        have hnf : ∀ f, ctl ≠ .fault f := by
          intro f hf
          rw [h3] at hf
          cases hf
        exact ⟨i, h1, ((gP hnf).1 h1).1⟩
    · subst hT
      obtain ⟨_, _, _, _, cW, cO, cU, _⟩ := gC fuel1 s1 hctl
      obtain ⟨r1, r2, r3⟩ := ih (i + 1) fuel1 s1 T1 e (by omega) hrec
      refine ⟨fun he j hj => ?_, fun hw => ?_, fun hg => ?_⟩
      · rcases (loadedOk_append _ _ _).mp hj with h1 | h1
        · have hji := hLO j h1
          subst hji
          exact (unloaded_append _ _ _).mpr (Or.inl cU)
        · exact (unloaded_append _ _ _).mpr (Or.inr (r1 he j h1))
      · rcases (drawn_append _ _ _).mp hw with h1 | h1
        · exact absurd h1 cW
        · exact (unloaded_append _ _ _).mpr (Or.inr (r2 h1))
      · rcases (drawn_append _ _ _).mp hg with h1 | h1
        · exact absurd h1 cO
        · obtain ⟨j, h2, h3⟩ := r3 h1
          exact ⟨j, (ended_append _ _ _ _).mpr (Or.inr h2),
            (unloaded_append _ _ _).mpr (Or.inr h3)⟩

/-- The events of a run of `main` are in the right order. -/
theorem main_progression_pairwise {I : Type} (E : Env I) (lista : List String) (fuel : Nat)
    (inp : I) : List.Pairwise unload_order (main_progression E lista fuel inp).trace := by
  obtain ⟨T, e, X, hT, htr, hX, _⟩ := main_progression_cases E lista fuel inp
  obtain ⟨q1, q2, _⟩ := level_loop_pairwise E lista.length lista 0 fuel _ T e hT
  have hTnot : ∀ ev ∈ T, (∀ j b, ev = Event.unload_level j b → True)
      ∧ ev ≠ Event.terminal_cleanup ∧ ev ≠ Event.close_debug_file := by
    intro ev hev
    obtain ⟨j, _, hj⟩ := q2 ev hev
    refine ⟨fun _ _ _ => trivial, fun h => ?_, fun h => ?_⟩
    · subst h
      rcases hj with hj | ⟨x, hj⟩
      · rcases hj with ⟨_, _, _, h⟩ | ⟨_, _, _, _, h⟩ | ⟨_, h⟩ | ⟨_, _, h⟩ | h | ⟨_, h⟩ <;>
          cases h
      · cases hj
    · subst h
      rcases hj with hj | ⟨x, hj⟩
      · rcases hj with ⟨_, _, _, h⟩ | ⟨_, _, _, _, h⟩ | ⟨_, h⟩ | ⟨_, _, h⟩ | h | ⟨_, h⟩ <;>
          cases h
      · cases hj
  have hXev : ∀ x ∈ X, x = Event.terminal_cleanup ∨ x = Event.close_debug_file := by
    intro x hx
    rcases hX with h | h
    · subst h
      simp at hx
    · subst h
      simpa using hx
  have hXX : List.Pairwise unload_order X := by
    apply List.pairwise_of_forall_mem_list
    intro a ha b hb
    refine ⟨fun j b0 h0 => ?_, fun j b0 h0 => ?_⟩
    · rcases hXev a ha with h | h <;> rw [h] at h0 <;> cases h0
    · rcases hXev b hb with h | h <;> rw [h] at h0 <;> cases h0
  have hinit : ∀ b, unload_order Event.terminal_init b := by
    intro b
    refine ⟨fun j b0 h0 => (by cases h0), fun j b0 _ => ⟨fun _ _ _ _ h => (by cases h), ?_, ?_⟩⟩
    · intro h; cases h
    · intro h; cases h
  have hend : ∀ a, ∀ x ∈ X, unload_order a x := by
    intro a x hx
    refine ⟨fun j b0 _ => ⟨fun _ _ _ _ h => ?_, fun _ h => ?_, fun _ _ _ _ h => ?_⟩,
      fun j b0 h0 => ?_⟩
    · rcases hXev x hx with h1 | h1 <;> rw [h1] at h <;> cases h
    · rcases hXev x hx with h1 | h1 <;> rw [h1] at h <;> cases h
    · rcases hXev x hx with h1 | h1 <;> rw [h1] at h <;> cases h
    · rcases hXev x hx with h1 | h1 <;> rw [h1] at h0 <;> cases h0
  rw [htr]
  refine List.pairwise_append.mpr ⟨List.pairwise_append.mpr
    ⟨List.pairwise_singleton _ _, q1, fun a ha b _ => ?_⟩, hXX, fun a _ x hx => hend a x hx⟩
  simp only [List.mem_singleton] at ha
  subst ha
  exact hinit b

/-- C12. In every run of the progression: once `main` has left the level loop,
every level that loaded has been unloaded; each unload of a level `j` comes
after the load of `j` and after the frame that ended it, on the board that
frame left, with no frame of `j` after it, no other unload of `j` before or
after it, no later level loaded before it and only later levels loaded after
it, and before the calls that end `main`; and both final screens, victory and
game over, go with the unload of the level that ended the game. -/
theorem main_unload_once {I : Type} (E : Env I) (lista : List String) (fuel : Nat) (inp : I) :
    (∀ code, (main_progression E lista fuel inp).status = .exited code →
        ∀ j, LoadedOk (main_progression E lista fuel inp).trace j →
          Unloaded (main_progression E lista fuel inp).trace j)
      ∧ (∀ pre post j b,
          (main_progression E lista fuel inp).trace = pre ++ (Event.unload_level j b :: post) →
          LoadedOk pre j
            ∧ (∃ b0 c r, Event.play_board j b0 c b r ∈ pre ∧ (r = NEXT_LEVEL ∨ r = QUIT_GAME))
            ∧ (∀ r, ¬ Ended post j r) ∧ ¬ Unloaded pre j ∧ ¬ Unloaded post j
            ∧ (∀ j1, LoadTried pre j1 → j1 ≤ j) ∧ (∀ j1, LoadTried post j1 → j < j1)
            ∧ Event.terminal_cleanup ∉ pre ∧ Event.close_debug_file ∉ pre)
      ∧ (Drawn (main_progression E lista fuel inp).trace .DRAW_WIN →
          Unloaded (main_progression E lista fuel inp).trace (lista.length - 1))
      ∧ (Drawn (main_progression E lista fuel inp).trace .DRAW_GAME_OVER →
          ∃ i, Ended (main_progression E lista fuel inp).trace i QUIT_GAME
            ∧ Unloaded (main_progression E lista fuel inp).trace i) := by
  have hpw := main_progression_pairwise E lista fuel inp
  obtain ⟨T, e, X, hT, htr, hX, hst⟩ := main_progression_cases E lista fuel inp
  obtain ⟨_, _, _, _, t5, _, t7, t8, t9⟩ := main_trace_transfer T X hX
  obtain ⟨r1, r2, r3⟩ := level_loop_unloaded E lista.length lista 0 fuel _ T e (by simp) hT
  obtain ⟨_, _, q3⟩ := level_loop_pairwise E lista.length lista 0 fuel _ T e hT
  obtain ⟨_, _, a3, _⟩ := level_loop_shape E lista.length lista 0 fuel _ T e (by simp) hT
  refine ⟨fun code hcode j hj => ?_, fun pre post j b hsplit => ?_, fun hw => ?_, fun hg => ?_⟩
  · have he : e = .finished := by
      rcases hst with ⟨h1, _⟩ | ⟨f1, _, h2⟩ | ⟨_, h2⟩
      · exact h1
      · rw [hcode] at h2; cases h2
      · rw [hcode] at h2; cases h2
    rw [htr] at hj ⊢
    exact (t9 j).mpr (r1 he j ((t5 j).mp hj))
  · rw [hsplit] at hpw
    obtain ⟨_, hcons, hcross⟩ := List.pairwise_append.mp hpw
    obtain ⟨hafter, _⟩ := List.pairwise_cons.mp hcons
    have hbefore : ∀ a ∈ pre, unload_order a (Event.unload_level j b) :=
      fun a ha => hcross a ha _ (List.mem_cons_self _ _)
    have hnoframe : ∀ r, ¬ Ended post j r := by
      rintro r ⟨b0, c, b1, hm⟩
      exact ((hafter _ hm).1 j b rfl).1 b0 c b1 r rfl
    have hpostload : ∀ j1, LoadTried post j1 → j < j1 := by
      rintro j1 ⟨nm, b1, ret, hm⟩
      exact ((hafter _ hm).1 j b rfl).2.2 j1 nm b1 ret rfl
    have hmemT : Event.unload_level j b ∈ T := by
      have hm : Event.unload_level j b ∈ (main_progression E lista fuel inp).trace := by
        rw [hsplit]
        simp
      rw [htr] at hm
      rcases List.mem_append.mp hm with hm | hm
      · rcases List.mem_append.mp hm with hm | hm
        · simp at hm
        · exact hm
      · rcases hX with h | h <;> subst h <;> simp at hm
    obtain ⟨b0, c, r, hfr, hr⟩ := q3 j b hmemT
    have hfrtr : Event.play_board j b0 c b r ∈ pre ++ (Event.unload_level j b :: post) := by
      rw [← hsplit, htr]
      exact List.mem_append_left _ (List.mem_append_right _ hfr)
    have hfrpre : Event.play_board j b0 c b r ∈ pre := by
      rcases List.mem_append.mp hfrtr with hm | hm
      · exact hm
      · rcases List.mem_cons.mp hm with hm | hm
        · cases hm
        · exact absurd ⟨b0, c, b, hm⟩ (hnoframe r)
    have hok : LoadedOk pre j := by
      obtain ⟨nm, b1, hm⟩ := (a3 j r ⟨b0, c, b, hfr⟩).2
      have hm2 : Event.load_level_filename j nm b1 0 ∈ pre ++ (Event.unload_level j b :: post) := by
        rw [← hsplit, htr]
        exact List.mem_append_left _ (List.mem_append_right _ hm)
      rcases List.mem_append.mp hm2 with hm3 | hm3
      · exact ⟨nm, b1, hm3⟩
      · rcases List.mem_cons.mp hm3 with hm3 | hm3
        · cases hm3
        · exact absurd (hpostload j ⟨nm, b1, 0, hm3⟩) (lt_irrefl _)
    refine ⟨hok, ⟨b0, c, r, hfrpre, hr⟩, hnoframe, ?_, ?_, ?_, hpostload, ?_, ?_⟩
    · rintro ⟨b1, hm⟩
      exact ((hbefore _ hm).1 j b1 rfl).2.1 b rfl
    · rintro ⟨b1, hm⟩
      exact ((hafter _ hm).1 j b rfl).2.1 b1 rfl
    · rintro j1 ⟨nm, b1, ret, hm⟩
      exact ((hbefore _ hm).2 j b rfl).1 j1 nm b1 ret rfl
    · intro hm
      exact ((hbefore _ hm).2 j b rfl).2.1 rfl
    · intro hm
      exact ((hbefore _ hm).2 j b rfl).2.2 rfl
  · rw [htr] at hw ⊢
    exact (t9 _).mpr (r2 ((t8 _).mp hw))
  · rw [htr] at hg ⊢
    obtain ⟨i, h1, h2⟩ := r3 ((t8 _).mp hg)
    exact ⟨i, (t7 i _).mpr h1, (t9 i).mpr h2⟩

/-! ## `strcmp` and `compare_levels` -/

theorem char_toNat_inj (a b : Char) (h : a.toNat = b.toNat) : a = b := by
  have ha := Char.ofNat_toNat a
  have hb := Char.ofNat_toNat b
  rw [← ha, ← hb, h]

theorem char_toNat_ne (a b : Char) (h : a ≠ b) : (a.toNat : Int) ≠ (b.toNat : Int) := by
  intro h1
  exact h (char_toNat_inj a b (by exact_mod_cast h1))

theorem NUL_toNat : NUL.toNat = 0 := by decide

theorem char_eq_NUL (a : Char) (h : (a.toNat : Int) ≤ 0) : a = NUL := by
  apply char_toNat_inj
  rw [NUL_toNat]
  omega

/-- Exchanging the arguments of `strcmp` negates its result. -/
theorem strcmp_swap (a b : List Char) : strcmp b a = - strcmp a b := by
  induction a generalizing b with
  | nil =>
    cases b with
    | nil => simp [strcmp]
    | cons y bs => simp [strcmp]
  | cons x as ih =>
    cases b with
    | nil => simp [strcmp]
    | cons y bs =>
      simp only [strcmp]
      by_cases hxy : x = y
      · subst hxy
        by_cases hn : x = NUL
        · simp [hn]
        · simp [hn, ih]
      · have hyx : y ≠ x := fun h => hxy h.symm
        simp [hxy, hyx]

/-- The comparison `strcmp a b ≤ 0` is transitive. -/
theorem strcmp_trans (a b c : List Char) (hab : strcmp a b ≤ 0) (hbc : strcmp b c ≤ 0) :
    strcmp a c ≤ 0 := by
  induction a generalizing b c with
  | nil =>
    cases c with
    | nil => simp [strcmp]
    | cons z cs => simp [strcmp]
  | cons x as ih =>
    cases b with
    | nil =>
      simp only [strcmp] at hab
      have hx : x = NUL := char_eq_NUL x (by omega)
      subst hx
      cases c with
      | nil => simp [strcmp, NUL_toNat]
      | cons z cs =>
        simp only [strcmp]
        by_cases hz : NUL = z
        · simp [hz]
        · simp [hz, NUL_toNat]
    | cons y bs =>
      cases c with
      | nil =>
        simp only [strcmp] at hbc
        have hy : y = NUL := char_eq_NUL y (by omega)
        subst hy
        simp only [strcmp] at hab ⊢
        by_cases hx : x = NUL
        · simp [hx, NUL_toNat]
        · simp only [hx, ne_eq, not_false_eq_true, if_true, NUL_toNat] at hab
          exact absurd (char_eq_NUL x (by simpa using hab)) hx
      | cons z cs =>
        simp only [strcmp] at hab hbc ⊢
        by_cases hxy : x = y
        · subst hxy
          by_cases hxz : x = z
          · subst hxz
            by_cases hn : x = NUL
            · simp [hn]
            · simp only [ne_eq, not_true_eq_false, if_false, hn] at hab hbc ⊢
              exact ih bs cs hab hbc
          · simp only [ne_eq, hxz, not_false_eq_true, if_true] at hbc ⊢
            exact hbc
        · simp only [ne_eq, hxy, not_false_eq_true, if_true] at hab
          have h1 := char_toNat_ne x y hxy
          by_cases hyz : y = z
          · subst hyz
            simp only [ne_eq, hxy, not_false_eq_true, if_true]
            exact hab
          · simp only [ne_eq, hyz, not_false_eq_true, if_true] at hbc
            have h2 := char_toNat_ne y z hyz
            have hxz : x ≠ z := by
              intro h
              subst h
              omega
            simp only [ne_eq, hxz, not_false_eq_true, if_true]
            omega

/-- On C strings `strcmp` returns 0 exactly on equal strings. -/
theorem strcmp_eq_zero (a b : List Char) (ha : NUL ∉ a) (hb : NUL ∉ b) :
    strcmp a b = 0 ↔ a = b := by
  induction a generalizing b with
  | nil =>
    cases b with
    | nil => simp [strcmp]
    | cons y bs =>
      simp only [strcmp, List.nil_eq, reduceCtorEq, iff_false]
      intro h
      have hy : y = NUL := char_eq_NUL y (by omega)
      subst hy
      simp at hb
  | cons x as ih =>
    cases b with
    | nil =>
      simp only [strcmp, reduceCtorEq, iff_false]
      intro h
      have hx : x = NUL := char_eq_NUL x (by omega)
      subst hx
      simp at ha
    | cons y bs =>
      have hxn : x ≠ NUL := fun h => ha (by simp [h])
      have ha1 : NUL ∉ as := fun h => ha (List.mem_cons_of_mem _ h)
      have hb1 : NUL ∉ bs := fun h => hb (List.mem_cons_of_mem _ h)
      simp only [strcmp]
      by_cases hxy : x = y
      · subst hxy
        simp only [ne_eq, not_true_eq_false, if_false, hxn, List.cons.injEq, true_and]
        exact ih bs ha1 hb1
      · have h1 := char_toNat_ne x y hxy
        simp only [ne_eq, hxy, not_false_eq_true, if_true, List.cons.injEq, false_and,
          iff_false]
        omega

/-- On C strings `strcmp` is negative exactly when the first string comes before
the second in the byte-wise lexicographic order. -/
theorem strcmp_neg_iff (a b : List Char) (ha : NUL ∉ a) (hb : NUL ∉ b) :
    strcmp a b < 0 ↔ lex_before a b := by
  induction a generalizing b with
  | nil =>
    cases b with
    | nil =>
      simp only [strcmp, lt_self_iff_false, lex_before, false_iff]
      intro h
      cases h
    | cons y bs =>
      have hy : y ≠ NUL := fun h => hb (by simp [h])
      constructor
      · intro _
        exact List.Lex.nil
      · intro _
        simp only [strcmp]
        have : (y.toNat : Int) ≠ 0 := by
          intro h0
          exact hy (char_eq_NUL y (by omega))
        omega
  | cons x as ih =>
    cases b with
    | nil =>
      simp only [strcmp, lex_before]
      constructor
      · intro h
        omega
      · intro h
        cases h
    | cons y bs =>
      have hxn : x ≠ NUL := fun h => ha (by simp [h])
      have ha1 : NUL ∉ as := fun h => ha (List.mem_cons_of_mem _ h)
      have hb1 : NUL ∉ bs := fun h => hb (List.mem_cons_of_mem _ h)
      simp only [strcmp]
      by_cases hxy : x = y
      · subst hxy
        simp only [ne_eq, not_true_eq_false, if_false, hxn]
        rw [ih bs ha1 hb1]
        constructor
        · intro h
          exact List.Lex.cons h
        · intro h
          cases h with
          | cons h1 => exact h1
          | rel h1 => exact absurd h1 (lt_irrefl _)
      · simp only [ne_eq, hxy, not_false_eq_true, if_true]
        constructor
        · intro h
          exact List.Lex.rel (by omega)
        · intro h
          cases h with
          | cons h1 => exact absurd rfl hxy
          | rel h1 => omega

/-- A proper prefix comes before its extensions in the lexicographic order. -/
theorem lex_before_of_initial (a b : List Char) (hp : a <+: b) (hne : a ≠ b) :
    lex_before a b := by
  obtain ⟨t, ht⟩ := hp
  subst ht
  cases t with
  | nil => simp at hne
  | cons y ts =>
    clear hne
    induction a with
    | nil => exact List.Lex.nil
    | cons x as ih => exact List.Lex.cons ih

/-- The list `qsort` returns for `compare_levels` is sorted by it, and is a
permutation of the list it was given. -/
theorem qsort_compare_levels_sorted (l : List (List Char)) :
    List.Sorted (fun x y => compare_levels x y ≤ 0) (qsort compare_levels l)
      ∧ (qsort compare_levels l).Perm l := by
  haveI : IsTotal (List Char) (fun x y => compare_levels x y ≤ 0) :=
    ⟨fun x y => by
      have h := strcmp_swap x y
      simp only [compare_levels]
      omega⟩
  haveI : IsTrans (List Char) (fun x y => compare_levels x y ≤ 0) :=
    ⟨fun x y z hxy hyz => strcmp_trans x y z hxy hyz⟩
  exact ⟨List.sorted_insertionSort _ l, List.perm_insertionSort _ l⟩

/-- C16. On level file names (C strings), `compare_levels` returns 0 exactly
when the two names are equal, its sign is reversed when the names are
exchanged, it is transitive, and its sign is that of the byte-wise
lexicographic comparison (a proper prefix sorts before its extension); so the
list `qsort` returns with it is a permutation of the level list in ascending
lexical order. -/
theorem compare_levels_lexical (a b c : List Char) (l : List (List Char))
    (ha : NUL ∉ a) (hb : NUL ∉ b) (hl : ∀ x ∈ l, NUL ∉ x) :
    (compare_levels a b = 0 ↔ a = b)
      ∧ Int.sign (compare_levels b a) = - Int.sign (compare_levels a b)
      ∧ (compare_levels a b ≤ 0 → compare_levels b c ≤ 0 → compare_levels a c ≤ 0)
      ∧ (compare_levels a b < 0 ↔ lex_before a b)
      ∧ (0 < compare_levels a b ↔ lex_before b a)
      ∧ (a <+: b → a ≠ b → compare_levels a b < 0)
      ∧ List.Sorted (fun x y => x = y ∨ lex_before x y) (qsort compare_levels l)
      ∧ (qsort compare_levels l).Perm l := by
  refine ⟨strcmp_eq_zero a b ha hb, ?_, strcmp_trans a b c, strcmp_neg_iff a b ha hb, ?_,
    fun hp hne => (strcmp_neg_iff a b ha hb).mpr (lex_before_of_initial a b hp hne), ?_,
    (qsort_compare_levels_sorted l).2⟩
  · simp only [compare_levels, strcmp_swap a b, Int.sign_neg]
  · rw [← strcmp_neg_iff b a hb ha]
    simp only [compare_levels, strcmp_swap a b]
    omega
  · refine List.Pairwise.imp_of_mem ?_ (qsort_compare_levels_sorted l).1
    intro x y hx hy hxy
    have hx1 : NUL ∉ x := hl x ((List.mem_insertionSort _).mp hx)
    have hy1 : NUL ∉ y := hl y ((List.mem_insertionSort _).mp hy)
    rcases lt_or_eq_of_le hxy with h | h
    · exact Or.inr ((strcmp_neg_iff x y hx1 hy1).mp h)
    · exact Or.inl ((strcmp_eq_zero x y hx1 hy1).mp h)

/-- Witness of C16: three level names. -/
theorem compare_levels_lexical_witness :
    (compare_levels "a.lvl".toList "a.lvl.lvl".toList = 0 ↔ "a.lvl".toList = "a.lvl.lvl".toList)
      ∧ Int.sign (compare_levels "a.lvl.lvl".toList "a.lvl".toList)
          = - Int.sign (compare_levels "a.lvl".toList "a.lvl.lvl".toList)
      ∧ (compare_levels "a.lvl".toList "a.lvl.lvl".toList ≤ 0 →
          compare_levels "a.lvl.lvl".toList "b.lvl".toList ≤ 0 →
          compare_levels "a.lvl".toList "b.lvl".toList ≤ 0)
      ∧ (compare_levels "a.lvl".toList "a.lvl.lvl".toList < 0
          ↔ lex_before "a.lvl".toList "a.lvl.lvl".toList)
      ∧ (0 < compare_levels "a.lvl".toList "a.lvl.lvl".toList
          ↔ lex_before "a.lvl.lvl".toList "a.lvl".toList)
      ∧ ("a.lvl".toList <+: "a.lvl.lvl".toList → "a.lvl".toList ≠ "a.lvl.lvl".toList →
          compare_levels "a.lvl".toList "a.lvl.lvl".toList < 0)
      ∧ List.Sorted (fun x y => x = y ∨ lex_before x y)
          (qsort compare_levels ["b.lvl".toList, "a.lvl.lvl".toList, "a.lvl".toList])
      ∧ (qsort compare_levels ["b.lvl".toList, "a.lvl.lvl".toList, "a.lvl".toList]).Perm
          ["b.lvl".toList, "a.lvl.lvl".toList, "a.lvl".toList] :=
  compare_levels_lexical "a.lvl".toList "a.lvl.lvl".toList "b.lvl".toList
    ["b.lvl".toList, "a.lvl.lvl".toList, "a.lvl".toList] (by decide) (by decide) (by decide)

/-! ## `has_extension` -/

theorem strrchr_none (s : List Char) (c : Char) : strrchr s c = none ↔ c ∉ s := by
  induction s with
  | nil => simp [strrchr]
  | cons a as ih =>
    simp only [strrchr]
    cases h : strrchr as c with
    | some k =>
      have hmem : c ∈ as := by
        by_contra hc
        rw [ih.mpr hc] at h
        cases h
      simp [hmem]
    | none =>
      have hnot : c ∉ as := ih.mp h
      by_cases hac : a = c
      · simp [hac]
      · have hca : ¬ c = a := fun h1 => hac h1.symm
        simp [hac, hca, hnot]

/-- The position `strrchr` returns is that of the last occurrence. -/
theorem strrchr_some (s : List Char) (c : Char) (k : Nat) :
    strrchr s c = some k ↔ ∃ pre suf, s = pre ++ c :: suf ∧ c ∉ suf ∧ pre.length = k := by
  constructor
  · intro h
    induction s generalizing k with
    | nil => simp [strrchr] at h
    | cons a as ih =>
      simp only [strrchr] at h
      cases h1 : strrchr as c with
      | some k1 =>
        simp only [h1, Option.some.injEq] at h
        obtain ⟨pre, suf, hs, hsuf, hlen⟩ := ih k1 h1
        exact ⟨a :: pre, suf, by simp [hs], hsuf, by simp [hlen, h]⟩
      | none =>
        simp only [h1] at h
        by_cases hac : a = c
        · simp only [hac, if_true, Option.some.injEq] at h
          exact ⟨[], as, by simp [hac], (strrchr_none as c).mp h1, by simp [h]⟩
        · simp [hac] at h
  · rintro ⟨pre, suf, hs, hsuf, hlen⟩
    subst hs hlen
    induction pre with
    | nil => simp [strrchr, (strrchr_none suf c).mpr hsuf]
    | cons x pre ih => simp [strrchr, ih]

/-- C18. For every file name and extension (C strings), `has_extension` returns
1 if and only if the name contains a `.`, the last `.` is not the first
character of the name, and the name from that last `.` to its end equals the
extension; otherwise it returns 0.  So `.lvl` and `a.lvl.bak` are rejected and
`a.b.lvl` is accepted for the extension `.lvl`. -/
theorem has_extension_iff (filename ext : List Char) (hf : NUL ∉ filename) (he : NUL ∉ ext) :
    (has_extension filename ext = 1
        ↔ ∃ pre suf, filename = pre ++ '.' :: suf ∧ '.' ∉ suf ∧ pre ≠ [] ∧ '.' :: suf = ext)
      ∧ (has_extension filename ext = 1 ∨ has_extension filename ext = 0)
      ∧ has_extension ".lvl".toList ".lvl".toList = 0
      ∧ has_extension "a.lvl.bak".toList ".lvl".toList = 0
      ∧ has_extension "a.b.lvl".toList ".lvl".toList = 1 := by
  refine ⟨⟨fun h => ?_, fun h => ?_⟩, ?_, by decide, by decide, by decide⟩
  · simp only [has_extension] at h
    cases hs : strrchr filename '.' with
    | none => simp [hs] at h
    | some dot =>
      simp only [hs] at h
      by_cases hd : dot = 0
      · simp [hd] at h
      · simp only [hd, if_false] at h
        by_cases hc : strcmp (filename.drop dot) ext = 0
        · obtain ⟨pre, suf, hfs, hsuf, hlen⟩ := (strrchr_some filename '.' dot).mp hs
          have hdrop : filename.drop dot = '.' :: suf := by
            rw [hfs, ← hlen]
            simp
          have hnul : NUL ∉ filename.drop dot := fun hm => hf (List.mem_of_mem_drop hm)
          have heq := (strcmp_eq_zero _ _ hnul he).mp hc
          refine ⟨pre, suf, hfs, hsuf, ?_, by rw [← hdrop, heq]⟩
          intro hp
          subst hp
          simp at hlen
          exact hd hlen.symm
        · simp [hc] at h
  · obtain ⟨pre, suf, hfs, hsuf, hpre, hext⟩ := h
    have hs : strrchr filename '.' = some pre.length :=
      (strrchr_some filename '.' pre.length).mpr ⟨pre, suf, hfs, hsuf, rfl⟩
    have hlen : pre.length ≠ 0 := by
      intro h0
      exact hpre (List.length_eq_zero.mp h0)
    have hdrop : filename.drop pre.length = ext := by
      rw [hfs, ← hext]
      simp
    have hc : strcmp (filename.drop pre.length) ext = 0 := by
      rw [hdrop]
      exact (strcmp_eq_zero ext ext he he).mpr rfl
    simp [has_extension, hs, hlen, hc]
  · simp only [has_extension]
    cases strrchr filename '.' with
    | none => exact Or.inr rfl
    | some dot =>
      simp only
      split
      · exact Or.inr rfl
      · split
        · exact Or.inl rfl
        · exact Or.inr rfl

/-- Witness of C18: the name `nivel.1.lvl` has the extension `.lvl`. -/
theorem has_extension_iff_witness :
    has_extension "nivel.1.lvl".toList ".lvl".toList = 1
      ↔ ∃ pre suf, "nivel.1.lvl".toList = pre ++ '.' :: suf ∧ '.' ∉ suf ∧ pre ≠ []
          ∧ '.' :: suf = ".lvl".toList :=
  (has_extension_iff "nivel.1.lvl".toList ".lvl".toList (by decide) (by decide)).1

/-! ## `encontrar_niveis` -/

theorem has_extension_zero_or_one (filename ext : List Char) :
    has_extension filename ext = 1 ∨ has_extension filename ext = 0 := by
  simp only [has_extension]
  cases strrchr filename '.' with
  | none => exact Or.inr rfl
  | some dot =>
    simp only
    split
    · exact Or.inr rfl
    · split
      · exact Or.inl rfl
      · exact Or.inr rfl

theorem is_level_entry_iff (d_name : List Char) (hn : NUL ∉ d_name) :
    is_level_entry d_name = true
      ↔ ¬ (strcmp d_name ['.'] = 0 ∨ strcmp d_name ['.', '.'] = 0)
          ∧ has_extension d_name ['.', 'l', 'v', 'l'] ≠ 0 := by
  have h1 : strcmp d_name ['.'] = 0 ↔ d_name = ['.'] :=
    strcmp_eq_zero d_name ['.'] hn (by decide)
  have h2 : strcmp d_name ['.', '.'] = 0 ↔ d_name = ['.', '.'] :=
    strcmp_eq_zero d_name ['.', '.'] hn (by decide)
  have h3 : has_extension d_name ['.', 'l', 'v', 'l'] ≠ 0
      ↔ has_extension d_name ['.', 'l', 'v', 'l'] = 1 := by
    rcases has_extension_zero_or_one d_name ['.', 'l', 'v', 'l'] with h | h <;> simp [h]
  simp only [is_level_entry, decide_eq_true_eq, h1, h2, h3, not_or]
  tauto

/-- The loop of `encontrar_niveis`, started with `lista` already filled. -/
theorem encontrar_niveis_loop_eq (MAX_LEVELS MAX_FILENAME : Nat) (entries : List (List Char))
    (hnul : ∀ e ∈ entries, NUL ∉ e) (lista : List (List Char))
    (hroom : lista.length ≤ MAX_LEVELS) :
    encontrar_niveis_loop MAX_LEVELS MAX_FILENAME entries lista.length lista
      = (min MAX_LEVELS (lista.length + (entries.filter is_level_entry).length),
         lista ++ (((entries.filter is_level_entry).take (MAX_LEVELS - lista.length)).map
            (fun e => e.take (MAX_FILENAME - 1)))) := by
  induction entries generalizing lista with
  | nil => simp [encontrar_niveis_loop, hroom]
  | cons d more ih =>
    have hd : NUL ∉ d := hnul d (List.mem_cons_self _ _)
    have hmore : ∀ e ∈ more, NUL ∉ e := fun e he => hnul e (List.mem_cons_of_mem _ he)
    have hlev := is_level_entry_iff d hd
    simp only [encontrar_niveis_loop]
    by_cases hdot : strcmp d ['.'] = 0 ∨ strcmp d ['.', '.'] = 0
    · have hno : is_level_entry d = false := by
        cases hl : is_level_entry d with
        | false => rfl
        | true => exact absurd hdot (hlev.mp hl).1
      rw [if_pos hdot, ih hmore lista hroom]
      simp [List.filter_cons, hno]
    · rw [if_neg hdot]
      by_cases hext : has_extension d ['.', 'l', 'v', 'l'] ≠ 0
      · have hyes : is_level_entry d = true := hlev.mpr ⟨hdot, hext⟩
        by_cases hcount : lista.length < MAX_LEVELS
        · rw [if_pos ⟨hext, hcount⟩]
          have hlen : (lista ++ [d.take (MAX_FILENAME - 1)]).length = lista.length + 1 := by
            simp
          have h := ih hmore (lista ++ [d.take (MAX_FILENAME - 1)]) (by rw [hlen]; omega)
          rw [hlen] at h
          rw [h]
          have hsub : MAX_LEVELS - lista.length = (MAX_LEVELS - (lista.length + 1)) + 1 := by
            omega
          rw [List.filter_cons, if_pos hyes, hsub]
          simp only [List.length_cons, List.take_succ_cons, List.map_cons, List.append_assoc,
            List.singleton_append]
          congr 1
          omega
        · rw [if_neg (fun h => hcount h.2), ih hmore lista hroom]
          have hfull : MAX_LEVELS - lista.length = 0 := by omega
          rw [List.filter_cons, if_pos hyes, hfull]
          simp only [List.length_cons, List.take_zero, List.map_nil, Prod.mk.injEq, and_true]
          omega
      · have hno : is_level_entry d = false := by
          cases hl : is_level_entry d with
          | false => rfl
          | true => exact absurd (hlev.mp hl).2 hext
        rw [if_neg (fun h => hext h.1), ih hmore lista hroom]
        simp [List.filter_cons, hno]

/-- C19. With the entries of the directory read in directory order (C strings),
`encontrar_niveis` returns as count the minimum of `MAX_LEVELS` and the number
of entries other than `.` and `..` that have the extension `.lvl`, and the list
holds, in directory order, the first such entries, each cut to its first
`MAX_FILENAME - 1` bytes (so that it fits its row with the terminating NUL);
the entries beyond `MAX_LEVELS` are dropped. -/
theorem encontrar_niveis_count (MAX_LEVELS MAX_FILENAME : Nat) (entries : List (List Char))
    (hrow : 0 < MAX_FILENAME) (hnul : ∀ e ∈ entries, NUL ∉ e) :
    encontrar_niveis MAX_LEVELS MAX_FILENAME (some entries)
        = (min MAX_LEVELS (entries.filter is_level_entry).length,
           ((entries.filter is_level_entry).take MAX_LEVELS).map
             (fun e => e.take (MAX_FILENAME - 1)))
      ∧ (encontrar_niveis MAX_LEVELS MAX_FILENAME (some entries)).2.length
          = (encontrar_niveis MAX_LEVELS MAX_FILENAME (some entries)).1
      ∧ ∀ x ∈ (encontrar_niveis MAX_LEVELS MAX_FILENAME (some entries)).2,
          x.length < MAX_FILENAME ∧ NUL ∉ x := by
  have h : encontrar_niveis MAX_LEVELS MAX_FILENAME (some entries)
      = (min MAX_LEVELS (entries.filter is_level_entry).length,
         ((entries.filter is_level_entry).take MAX_LEVELS).map
           (fun e => e.take (MAX_FILENAME - 1))) := by
    have h0 := encontrar_niveis_loop_eq MAX_LEVELS MAX_FILENAME entries hnul [] (Nat.zero_le _)
    simpa [encontrar_niveis] using h0
  refine ⟨h, ?_, ?_⟩
  · rw [h]
    simp [Nat.min_comm]
  · rw [h]
    intro x hx
    simp only [List.mem_map] at hx
    obtain ⟨e, he, rfl⟩ := hx
    have hmem : e ∈ entries := (List.mem_filter.mp (List.mem_of_mem_take he)).1
    refine ⟨?_, fun hm => hnul e hmem (List.mem_of_mem_take hm)⟩
    rw [List.length_take]
    omega

/-- Witness of C19: a directory of six entries read with room for two levels of
at most five characters. -/
theorem encontrar_niveis_count_witness :
    encontrar_niveis 2 6
        (some ["b.lvl".toList, ".".toList, "x.txt".toList, "abcdefgh.lvl".toList,
          "..".toList, "c.lvl".toList])
      = (2, ["b.lvl".toList, "abcde".toList]) :=
  (encontrar_niveis_count 2 6
    ["b.lvl".toList, ".".toList, "x.txt".toList, "abcdefgh.lvl".toList,
      "..".toList, "c.lvl".toList] (by decide) (by decide)).1

/-- Witness of C12: one level cleared and one lost; the run exits, so every
level that loaded has been unloaded. -/
theorem main_unload_once_witness :
    ∀ j, LoadedOk (main_progression demo_env ["a.lvl", "b.lvl"] 5 []).trace j →
      Unloaded (main_progression demo_env ["a.lvl", "b.lvl"] 5 []).trace j :=
  (main_unload_once demo_env ["a.lvl", "b.lvl"] 5 []).1 0 (by decide)

end ProjetoSO
